import Mathlib

/-!
Tile addressing and tile decoding of `src/map/tile.cpp`.

A shallow embedding of `Tile::parent`, `Tile::children`, `Tile::cancel`,
`Tile::parse`, `Tile::parseLayer`, `Tile::parseFeature` and
`Tile::loadGeometry`, followed by the properties proved about them.

Conventions of the embedding.

* `int32_t` values are mathematical integers; every operation that can leave
  the 32-bit range is reduced with `wrap32` (two's complement wrap-around).
* A failed `assert` is an outcome of its own: `none` for the pure quadtree
  functions and `cancel`, `ParseResult.assertFailed` for `parse`.
* Pointers into the tile's byte buffer are offsets (`Nat`) into `Tile.data`.
  A cursor range may reach beyond the buffer (a child pass is started on the
  declared length before the parent checks it); dereferencing an offset outside
  the buffer is the outcome `Fault.outOfBounds`, and every dereferenced offset is
  recorded in `Run.reads`.
* The decode abort (the long-jump of the TLV decoder) is the outcome
  `Fault.abort`; it ends every enclosing pass and reaches `parse`.
* The headers of the TLV decoder, the geometry decoder and the vertex buffer are
  not among the sources; their definitions here follow the written design and
  say so.
* Each `while` loop takes a bound on its iterations as first argument and stops
  with `Fault.exhausted` when it is used up; `decode_not_exhausted` shows this
  never happens with the bounds that are passed.
-/

namespace Tile

/-! ## Quadtree addressing -/

/-- The int32_t value that has the same low 32 bits as the integer `n`. -/
def wrap32 (n : Int) : Int := (n + 2147483648) % 4294967296 - 2147483648

/-- The tile identifier `Tile::ID`: the header that declares it is not part of
the sources, the fields are the three `int32_t` coordinates that `tile.cpp`
reads and writes (`id.x`, `id.y`, `id.z`, constructed as `(x, y, z)`). -/
structure ID where
  x : Int
  y : Int
  z : Int
deriving DecidableEq, Repr

/-- The validity invariant of the data model: at zoom `z`, `0 ≤ x, y < 2^z`. -/
def ID.valid (id : ID) : Prop :=
  0 ≤ id.z ∧ 0 ≤ id.x ∧ id.x < 2 ^ id.z.toNat ∧ 0 ≤ id.y ∧ id.y < 2 ^ id.z.toNat

instance (id : ID) : Decidable id.valid := by
  unfold ID.valid; infer_instance

/-- All three coordinates are representable as `int32_t`. -/
def ID.isInt32 (id : ID) : Prop :=
  -2147483648 ≤ id.x ∧ id.x < 2147483648 ∧ -2147483648 ≤ id.y ∧ id.y < 2147483648 ∧
    -2147483648 ≤ id.z ∧ id.z < 2147483648

instance (id : ID) : Decidable id.isInt32 := by
  unfold ID.isInt32; infer_instance

/-- The loop `while (pos.z > z) { pos.z--; pos.x = floor(pos.x / 2); pos.y = floor(pos.y / 2); }`.
`pos.x / 2` is the C++ integer division (rounding toward zero), of which `floor`
is the identity.  The first argument bounds the number of iterations; `parent`
passes `id.z - z`, the exact iteration count. -/
def parentLoop (z : Int) : Nat → ID → ID
  | 0, pos => pos
  | fuel + 1, pos =>
    if pos.z > z then
      parentLoop z fuel { x := Int.tdiv pos.x 2, y := Int.tdiv pos.y 2, z := pos.z - 1 }
    else pos

/-- `Tile::parent`; `none` is the failure of `assert(z < id.z)`. -/
def parent (id : ID) (z : Int) : Option ID :=
  if z < id.z then some (parentLoop z (id.z - z).toNat id) else none

/-- `int32_t factor = pow(2, d)`: the power of two as a double, converted to
`int32_t`.  For `0 ≤ d ≤ 30` the conversion is exact; a negative exponent gives a
value below one, which truncates to zero; for `d > 30` the value is outside the
`int32_t` range and is reduced like every other 32-bit result. -/
def pow2 (d : Int) : Int :=
  if d < 0 then 0 else wrap32 (2 ^ d.toNat)

/-- The inner loop `for (x = ...; x < x_max; x++) children.emplace_front(x, y, z)`;
`acc` is the forward list built so far, `emplace_front` puts the new element
before it. -/
def childrenRow (z y x_max : Int) : Nat → Int → List ID → List ID
  | 0, _, acc => acc
  | fuel + 1, x, acc =>
    if x < x_max then childrenRow z y x_max fuel (x + 1) ({ x := x, y := y, z := z } :: acc)
    else acc

/-- The outer loop `for (y = ...; y < y_max; y++) { inner loop }`. -/
def childrenRows (z x0 x_max y_max : Int) : Nat → Int → List ID → List ID
  | 0, _, acc => acc
  | fuel + 1, y, acc =>
    if y < y_max then
      childrenRows z x0 x_max y_max fuel (y + 1) (childrenRow z y x_max (x_max - x0).toNat x0 acc)
    else acc

/-- `Tile::children`; `none` is the failure of `assert(z > id.z)`. -/
def children (id : ID) (z : Int) : Option (List ID) :=
  if z > id.z then
    let factor := pow2 (wrap32 (z - id.z))
    let y0 := wrap32 (id.y * factor)
    let y_max := wrap32 (wrap32 (id.y + 1) * factor)
    let x0 := wrap32 (id.x * factor)
    let x_max := wrap32 (wrap32 (id.x + 1) * factor)
    some (childrenRows z x0 x_max y_max (y_max - y0).toNat y0 [])
  else none

end Tile

/-! ## The tile, its vertex buffer and the decoding state -/

/-- The lifecycle state of a tile (`Tile::state`); the three values `tile.cpp`
assigns and compares. -/
inductive TileState where
  | initial
  | ready
  | obsolete
deriving DecidableEq, Repr

/-- Modelled from the spec: the line vertex buffer class behind `lineVertex` is
not part of the sources.  Per the data model it is an ordered, append-only
sequence of 2D integer coordinates interspersed with degenerate markers
(path breaks). -/
inductive Vertex where
  | degenerate
  | coordinate (x y : Int)
deriving DecidableEq, Repr

/-- The members of `Tile` that `cancel` and `parse` read or write: the
identifier, the lifecycle state, the owned raw buffer (`data`, of which `bytes`
is the length) and the vertex buffer `lineVertex`. -/
structure Tile where
  id : Tile.ID
  state : TileState
  data : List UInt8
  lineVertex : List Vertex
deriving DecidableEq, Repr

/-- The part of the machine state a decoding pass changes: the tile's vertex
buffer, and (as a ghost record) the buffer offsets dereferenced so far, oldest
first. -/
structure Run where
  lineVertex : List Vertex
  reads : List Nat
deriving DecidableEq, Repr

/-- Ways a decoding pass stops without completing. -/
inductive Fault where
  /-- The decode abort of the TLV decoder (the long-jump out of all passes). -/
  | abort
  /-- A byte outside the tile's buffer was dereferenced (undefined behaviour). -/
  | outOfBounds
  /-- The iteration bound of the embedding ran out. -/
  | exhausted
deriving DecidableEq, Repr

/-- The result of running a piece of decoding code from a given `Run`. -/
inductive Step (α : Type) where
  | ok (a : α) (r : Run)
  | fail (e : Fault) (r : Run)
deriving DecidableEq, Repr

/-- The vertex buffer of `r` is still there, in front, after the step `s`
(vertices are only ever appended), and `s` did not stop for lack of iterations
of the embedding. -/
def Step.grows {α : Type} (r : Run) : Step α → Prop
  | Step.ok _ r1 => ∃ vs, r1.lineVertex = r.lineVertex ++ vs
  | Step.fail e r1 => (∃ vs, r1.lineVertex = r.lineVertex ++ vs) ∧ e ≠ Fault.exhausted

/-- `lineVertex.addDegenerate()`. -/
def Run.addDegenerate (r : Run) : Run :=
  { r with lineVertex := r.lineVertex ++ [Vertex.degenerate] }

/-- `lineVertex.addCoordinate(x, y)`. -/
def Run.addCoordinate (r : Run) (x y : Int) : Run :=
  { r with lineVertex := r.lineVertex ++ [Vertex.coordinate x y] }

/-- Dereference of the byte at offset `pos` of the tile's buffer. -/
def readByte (buf : List UInt8) (pos : Nat) (r : Run) : Step UInt8 :=
  match buf[pos]? with
  | some b => Step.ok b { r with reads := r.reads ++ [pos] }
  | none => Step.fail Fault.outOfBounds { r with reads := r.reads ++ [pos] }

/-- Modelled from the spec: the TLV decoder `pbf` (llmr/util/pbf.hpp) is not
part of the sources.  A decoder cursor is a borrowed byte range `[data, fin)` of
the tile's buffer with the current read position `data`, plus the most recently
read field key `value` and its field number `tag`. -/
structure Pbf where
  data : Nat
  fin : Nat
  value : Nat
  tag : Nat
deriving DecidableEq, Repr

namespace Pbf

/-- Modelled from the spec: the constructor `pbf(data, length)` of the absent TLV
decoder, a cursor over the `length` bytes from `data` on. -/
def over (data length : Nat) : Pbf :=
  { data := data, fin := data + length, value := 0, tag := 0 }

/-- Modelled from the spec: the byte loop of `readVarint()`, little-endian
base 128: the low 7 bits of each byte are payload, the high bit signals
continuation.  It fails (decode abort) if the encoding would read past the end
of the range, or when the bytes allowed by the first argument are used up and
the encoding still continues.  The result is the value and the new position. -/
def varintLoop (buf : List UInt8) (fin : Nat) : Nat → Nat → Nat → Nat → Run → Step (Nat × Nat)
  | 0, _, _, _, r => Step.fail Fault.abort r
  | n + 1, pos, shift, acc, r =>
    if fin ≤ pos then Step.fail Fault.abort r
    else
      match readByte buf pos r with
      | Step.fail e r1 => Step.fail e r1
      | Step.ok b r1 =>
        if 128 ≤ b.toNat then
          varintLoop buf fin n (pos + 1) (shift + 7) (acc + (b.toNat % 128) * 2 ^ shift) r1
        else Step.ok (acc + (b.toNat % 128) * 2 ^ shift, pos + 1) r1

/-- Modelled from the spec: `readVarint()` (`pbf::varint`).  The representable
integer width is taken to be 64 bits: at most ten bytes, value modulo 2^64. -/
def varint (buf : List UInt8) (p : Pbf) (r : Run) : Step (Nat × Pbf) :=
  match varintLoop buf p.fin 10 p.data 0 0 r with
  | Step.fail e r1 => Step.fail e r1
  | Step.ok (v, pos) r1 => Step.ok (v % 18446744073709551616, { p with data := pos }) r1

/-- Modelled from the spec: `advance()` (`pbf::next`): reads the next field key
(field number and wire type in one varint) and leaves the cursor at the field
value; `false` when the range is exhausted. -/
def next (buf : List UInt8) (p : Pbf) (r : Run) : Step (Bool × Pbf) :=
  if p.data < p.fin then
    match varint buf p r with
    | Step.fail e r1 => Step.fail e r1
    | Step.ok (v, p1) r1 =>
      Step.ok (true, { p1 with value := v % 4294967296, tag := v % 4294967296 / 8 }) r1
  else Step.ok (false, p) r

/-- Modelled from the spec: `skipBytes(n)`: advances the cursor by exactly `n`
bytes; leaving the range is a bounds violation (decode abort). -/
def skipBytes (p : Pbf) (n : Nat) (r : Run) : Step Pbf :=
  if p.fin < p.data + n then Step.fail Fault.abort r
  else Step.ok { p with data := p.data + n } r

/-- Modelled from the spec: `skipField()` (`pbf::skip`): by the wire type of the
current field, skip one varint (0), eight bytes (1), the declared length (2) or
four bytes (5); any other wire type cannot be skipped (decode abort). -/
def skip (buf : List UInt8) (p : Pbf) (r : Run) : Step Pbf :=
  if p.value % 8 = 0 then
    match varint buf p r with
    | Step.fail e r1 => Step.fail e r1
    | Step.ok (_, p1) r1 => Step.ok p1 r1
  else if p.value % 8 = 1 then skipBytes p 8 r
  else if p.value % 8 = 2 then
    match varint buf p r with
    | Step.fail e r1 => Step.fail e r1
    | Step.ok (v, p1) r1 => skipBytes p1 (v % 4294967296) r1
  else if p.value % 8 = 5 then skipBytes p 4 r
  else Step.fail Fault.abort r

/-- Modelled from the spec: the copy of the `n` bytes from offset `pos` on that
`readString()` of the absent TLV decoder makes (the text of a string field). -/
def readBytes (buf : List UInt8) : Nat → Nat → Run → Step (List UInt8)
  | 0, _, r => Step.ok [] r
  | n + 1, pos, r =>
    match readByte buf pos r with
    | Step.fail e r1 => Step.fail e r1
    | Step.ok b r1 =>
      match readBytes buf n (pos + 1) r1 with
      | Step.fail e r2 => Step.fail e r2
      | Step.ok bs r2 => Step.ok (b :: bs) r2

/-- Modelled from the spec: `readString()` (`pbf::string`): a varint length,
then exactly that many bytes as text; fails (decode abort) if fewer bytes
remain in the range than declared. -/
def string (buf : List UInt8) (p : Pbf) (r : Run) : Step (List UInt8 × Pbf) :=
  match varint buf p r with
  | Step.fail e r1 => Step.fail e r1
  | Step.ok (v, p1) r1 =>
    match skipBytes p1 (v % 4294967296) r1 with
    | Step.fail e r2 => Step.fail e r2
    | Step.ok p2 r2 =>
      match readBytes buf (v % 4294967296) p1.data r2 with
      | Step.fail e r3 => Step.fail e r3
      | Step.ok bs r3 => Step.ok (bs, p2) r3

end Pbf

/-- Modelled from the spec: the values of `geometry::command` (the absent
geometry header) that a call of `geometry.next` returns.  `finished` is
`geometry::end` and `move_to` is `geometry::move_to`, the two values `tile.cpp`
names; `line_to` is the value returned with a vertex that continues the current
sub-path. -/
inductive Command where
  | finished
  | move_to
  | line_to
deriving DecidableEq, Repr

/-- Modelled from the spec: the geometry decoder `geometry`
(llmr/geometry/geometry.hpp) is not part of the sources.  Its whole state is a
cursor over the payload, the command being repeated with its remaining repeat
count, and the current absolute position, which starts at the origin. -/
structure Geometry where
  data : Pbf
  cmd : Nat
  length : Nat
  x : Int
  y : Int
deriving DecidableEq, Repr

namespace Geometry

/-- Modelled from the spec: the constructor `geometry(data, bytes)` of the absent
geometry decoder; the position starts at the origin. -/
def over (data bytes : Nat) : Geometry :=
  { data := Pbf.over data bytes, cmd := 0, length := 0, x := 0, y := 0 }

/-- Modelled from the spec: zig-zag decoding (absent geometry decoder) of a
32-bit value: even values are non-negative, odd values negative. -/
def zigzag (v : Nat) : Int :=
  if v % 4294967296 % 2 = 0 then ((v % 4294967296 / 2 : Nat) : Int)
  else -((v % 4294967296 / 2 : Nat) : Int) - 1

/-- Modelled from the spec: a coordinate pair of the absent geometry decoder,
two zig-zag varints that are deltas from the current absolute position. -/
def readPair (buf : List UInt8) (g : Geometry) (r : Run) : Step Geometry :=
  match Pbf.varint buf g.data r with
  | Step.fail e r1 => Step.fail e r1
  | Step.ok (dx, p1) r1 =>
    match Pbf.varint buf p1 r1 with
    | Step.fail e r2 => Step.fail e r2
    | Step.ok (dy, p2) r2 =>
      Step.ok { g with data := p2, x := Tile.wrap32 (g.x + zigzag dx),
                       y := Tile.wrap32 (g.y + zigzag dy) } r2

/-- Modelled from the spec: one call of `geometry.next(x, y)`.  A command is a
(command code, repeat count) pair packed into one varint (code in the low three
bits: 1 move-to, 2 line-to, 7 close-path), followed by repeat-count coordinate
pairs for move-to and line-to and by no coordinates for close-path.  The call
yields the next vertex, as the absolute position reached, and `finished` when
the payload is exhausted or the command code is none of the three.  A move-to
command starts a new sub-path, with the path-break marker before the first
vertex of the command: the first vertex of a move-to is returned as `move_to`
(the value for which `loadGeometry` adds the marker), every other vertex as
`line_to`.  A close-path command has no coordinates and so yields no vertex: the
call goes on to the command after it.  The first argument bounds the number of
command headers read in one call (close-path headers and headers with repeat
count zero carry no vertex). -/
def next (buf : List UInt8) : Nat → Geometry → Run → Step (Command × Geometry)
  | 0, _, r => Step.fail Fault.exhausted r
  | fuel + 1, g, r =>
    if g.data.fin ≤ g.data.data then Step.ok (Command.finished, g) r
    else if g.length = 0 then
      match Pbf.varint buf g.data r with
      | Step.fail e r1 => Step.fail e r1
      | Step.ok (v, p1) r1 =>
        if v % 8 = 7 then
          next buf fuel { g with data := p1, cmd := 7, length := 0 } r1
        else if v % 8 = 1 ∨ v % 8 = 2 then
          if v % 4294967296 / 8 = 0 then
            next buf fuel { g with data := p1, cmd := v % 8, length := 0 } r1
          else
            match readPair buf { g with data := p1, cmd := v % 8,
                                        length := v % 4294967296 / 8 - 1 } r1 with
            | Step.fail e r2 => Step.fail e r2
            | Step.ok g2 r2 =>
              Step.ok (if v % 8 = 1 then Command.move_to else Command.line_to, g2) r2
        else Step.ok (Command.finished, { g with data := p1, cmd := v % 8 }) r1
    else
      match readPair buf { g with length := g.length - 1 } r with
      | Step.fail e r2 => Step.fail e r2
      | Step.ok g2 r2 => Step.ok (Command.line_to, g2) r2

end Geometry

namespace Tile

/-- `Tile::setData`: the tile takes a copy of the bytes. -/
def setData (t : Tile) (data : List UInt8) : Tile :=
  { t with data := data }

/-- `Tile::cancel`; `none` is the failure of the assertion in the `else` branch
(multiple cancellations). -/
def cancel (t : Tile) : Option Tile :=
  if t.state ≠ TileState.obsolete then some { t with state := TileState.obsolete }
  else none

/-- The loop of `Tile::loadGeometry`: every command other than `geometry::end`
appends a coordinate, preceded by a degenerate marker when the command is
`geometry::move_to`. -/
def loadGeometryLoop (buf : List UInt8) : Nat → Geometry → Run → Step Unit
  | 0, _, r => Step.fail Fault.exhausted r
  | fuel + 1, g, r =>
    match Geometry.next buf (g.data.fin - g.data.data + 1) g r with
    | Step.fail e r1 => Step.fail e r1
    | Step.ok (cmd, g1) r1 =>
      if cmd ≠ Command.finished then
        loadGeometryLoop buf fuel g1
          ((if cmd = Command.move_to then r1.addDegenerate else r1).addCoordinate g1.x g1.y)
      else Step.ok () r1

/-- `Tile::loadGeometry(data, bytes)`. -/
def loadGeometry (buf : List UInt8) (data bytes : Nat) (r : Run) : Step Unit :=
  loadGeometryLoop buf (bytes + 1) (Geometry.over data bytes) r

/-- The loop `while (feature.data < tag_end) { feature.varint(); feature.varint(); }`. -/
def tagListLoop (buf : List UInt8) (tag_end : Nat) : Nat → Pbf → Run → Step Pbf
  | 0, _, r => Step.fail Fault.exhausted r
  | fuel + 1, feature, r =>
    if feature.data < tag_end then
      match Pbf.varint buf feature r with
      | Step.fail e r1 => Step.fail e r1
      | Step.ok (_, f1) r1 =>
        match Pbf.varint buf f1 r1 with
        | Step.fail e r2 => Step.fail e r2
        | Step.ok (_, f2) r2 => tagListLoop buf tag_end fuel f2 r2
    else Step.ok feature r

/-- The loop of `Tile::parseFeature`.  In `feature.data + feature.varint()` the
order in which the two operands are evaluated is not fixed by the language:
`dataFirst` says whether `feature.data` is read before the call of `varint`
moves it. -/
def parseFeatureLoop (dataFirst : Bool) (buf : List UInt8) : Nat → Pbf → Run → Step Unit
  | 0, _, r => Step.fail Fault.exhausted r
  | fuel + 1, feature, r =>
    match Pbf.next buf feature r with
    | Step.fail e r1 => Step.fail e r1
    | Step.ok (false, _) r1 => Step.ok () r1
    | Step.ok (true, f1) r1 =>
      if f1.tag = 1 then
        match Pbf.varint buf f1 r1 with
        | Step.fail e r2 => Step.fail e r2
        | Step.ok (_, f2) r2 => parseFeatureLoop dataFirst buf fuel f2 r2
      else if f1.tag = 2 then
        match Pbf.varint buf f1 r1 with
        | Step.fail e r2 => Step.fail e r2
        | Step.ok (v, f2) r2 =>
          match tagListLoop buf ((if dataFirst then f1.data else f2.data) + v)
              (f2.fin - f2.data + 1) f2 r2 with
          | Step.fail e r3 => Step.fail e r3
          | Step.ok f3 r3 => parseFeatureLoop dataFirst buf fuel f3 r3
      else if f1.tag = 3 then
        match Pbf.varint buf f1 r1 with
        | Step.fail e r2 => Step.fail e r2
        | Step.ok (_, f2) r2 => parseFeatureLoop dataFirst buf fuel f2 r2
      else if f1.tag = 4 then
        match Pbf.varint buf f1 r1 with
        | Step.fail e r2 => Step.fail e r2
        | Step.ok (v, f2) r2 =>
          match loadGeometry buf f2.data (v % 4294967296) r2 with
          | Step.fail e r3 => Step.fail e r3
          | Step.ok _ r3 =>
            match Pbf.skipBytes f2 (v % 4294967296) r3 with
            | Step.fail e r4 => Step.fail e r4
            | Step.ok f3 r4 => parseFeatureLoop dataFirst buf fuel f3 r4
      else
        match Pbf.skip buf f1 r1 with
        | Step.fail e r2 => Step.fail e r2
        | Step.ok f2 r2 => parseFeatureLoop dataFirst buf fuel f2 r2

/-- `Tile::parseFeature(data, bytes)`. -/
def parseFeature (dataFirst : Bool) (buf : List UInt8) (data bytes : Nat) (r : Run) :
    Step Unit :=
  parseFeatureLoop dataFirst buf (bytes + 1) (Pbf.over data bytes) r

/-- The loop of `Tile::parseLayer`. -/
def parseLayerLoop (dataFirst : Bool) (buf : List UInt8) : Nat → Pbf → Run → Step Unit
  | 0, _, r => Step.fail Fault.exhausted r
  | fuel + 1, layer, r =>
    match Pbf.next buf layer r with
    | Step.fail e r1 => Step.fail e r1
    | Step.ok (false, _) r1 => Step.ok () r1
    | Step.ok (true, l1) r1 =>
      if l1.tag = 1 then
        match Pbf.string buf l1 r1 with
        | Step.fail e r2 => Step.fail e r2
        | Step.ok (_, l2) r2 => parseLayerLoop dataFirst buf fuel l2 r2
      else if l1.tag = 2 then
        match Pbf.varint buf l1 r1 with
        | Step.fail e r2 => Step.fail e r2
        | Step.ok (v, l2) r2 =>
          match parseFeature dataFirst buf l2.data (v % 4294967296) r2 with
          | Step.fail e r3 => Step.fail e r3
          | Step.ok _ r3 =>
            match Pbf.skipBytes l2 (v % 4294967296) r3 with
            | Step.fail e r4 => Step.fail e r4
            | Step.ok l3 r4 => parseLayerLoop dataFirst buf fuel l3 r4
      else
        match Pbf.skip buf l1 r1 with
        | Step.fail e r2 => Step.fail e r2
        | Step.ok l2 r2 => parseLayerLoop dataFirst buf fuel l2 r2

/-- `Tile::parseLayer(data, bytes)`. -/
def parseLayer (dataFirst : Bool) (buf : List UInt8) (data bytes : Nat) (r : Run) :
    Step Unit :=
  parseLayerLoop dataFirst buf (bytes + 1) (Pbf.over data bytes) r

/-- The loop `while (tile.next()) { ... }` of `Tile::parse`. -/
def parseLoop (dataFirst : Bool) (buf : List UInt8) : Nat → Pbf → Run → Step Unit
  | 0, _, r => Step.fail Fault.exhausted r
  | fuel + 1, tile, r =>
    match Pbf.next buf tile r with
    | Step.fail e r1 => Step.fail e r1
    | Step.ok (false, _) r1 => Step.ok () r1
    | Step.ok (true, t1) r1 =>
      if t1.tag = 3 then
        match Pbf.varint buf t1 r1 with
        | Step.fail e r2 => Step.fail e r2
        | Step.ok (v, t2) r2 =>
          match parseLayer dataFirst buf t2.data (v % 4294967296) r2 with
          | Step.fail e r3 => Step.fail e r3
          | Step.ok _ r3 =>
            match Pbf.skipBytes t2 (v % 4294967296) r3 with
            | Step.fail e r4 => Step.fail e r4
            | Step.ok t3 r4 => parseLoop dataFirst buf fuel t3 r4
      else
        match Pbf.skip buf t1 r1 with
        | Step.fail e r2 => Step.fail e r2
        | Step.ok t2 r2 => parseLoop dataFirst buf fuel t2 r2

/-- The decoding of the whole buffer: `pbf tile(data, bytes)` followed by the
loop of `Tile::parse`, started on the tile's vertex buffer with no byte read
yet. -/
def decode (dataFirst : Bool) (t : Tile) : Step Unit :=
  parseLoop dataFirst t.data (t.data.length + 1) (Pbf.over 0 t.data.length)
    { lineVertex := t.lineVertex, reads := [] }

/-- What a call of `Tile::parse` comes to. -/
inductive ParseResult where
  /-- The call returned `value`, leaving the tile as `t`; `reads` are the
  buffer offsets it dereferenced. -/
  | returned (value : Bool) (t : Tile) (reads : List Nat)
  /-- The call stopped in the failed assertion of `cancel`. -/
  | assertFailed (t : Tile) (reads : List Nat)
  /-- The call dereferenced a byte outside the tile's buffer. -/
  | outOfBounds (t : Tile) (reads : List Nat)
  /-- The iteration bound of the embedding ran out. -/
  | exhausted
deriving DecidableEq, Repr

/-- `Tile::parse`, run single-threaded.  A decode abort arrives at the
`setjmp` point with a positive code: `cancel()` is called and `false`
returned. -/
def parse (dataFirst : Bool) (t : Tile) : ParseResult :=
  if t.state = TileState.obsolete then ParseResult.returned false t []
  else
    match decode dataFirst t with
    | Step.fail Fault.abort r =>
      match cancel { t with lineVertex := r.lineVertex } with
      | some t1 => ParseResult.returned false t1 r.reads
      | none => ParseResult.assertFailed { t with lineVertex := r.lineVertex } r.reads
    | Step.fail Fault.outOfBounds r =>
      ParseResult.outOfBounds { t with lineVertex := r.lineVertex } r.reads
    | Step.fail Fault.exhausted _ => ParseResult.exhausted
    | Step.ok _ r =>
      if t.state = TileState.obsolete then
        ParseResult.returned false { t with lineVertex := r.lineVertex } r.reads
      else
        ParseResult.returned true { t with lineVertex := r.lineVertex, state := TileState.ready }
          r.reads

/-- A freshly constructed tile (`Tile::Tile(id)`): state `initial`, no data,
empty vertex buffer. -/
def create (id : ID) : Tile :=
  { id := id, state := TileState.initial, data := [], lineVertex := [] }

/-- A well-formed buffer: one layer (tag 3) holding one feature (tag 2) whose
geometry (tag 4) is the single command move-to (10, 10). -/
def bufferOneVertex : List UInt8 :=
  [0x1a, 0x07, 0x12, 0x05, 0x22, 0x03, 0x09, 0x14, 0x14]

/-- The buffer `bufferOneVertex` followed by the key of a top-level varint
field (tag 1) whose value is missing: the tile pass aborts after the layer has
been decoded. -/
def bufferAbortAfterGeometry : List UInt8 :=
  [0x1a, 0x07, 0x12, 0x05, 0x22, 0x03, 0x09, 0x14, 0x14, 0x08]

/-- One layer holding one feature whose tag-list (tag 2) declares four bytes
while the feature holds only two of them; the layer and the feature lie
within the buffer. -/
def bufferTagListCut : List UInt8 :=
  [0x1a, 0x06, 0x12, 0x04, 0x12, 0x04, 0x01, 0x02]

/-- A fresh tile that has been given the bytes `data`. -/
def withData (data : List UInt8) : Tile :=
  setData (create { x := 0, y := 0, z := 0 }) data

/-- Modelled from the spec: the formatting helpers behind `snprintf` and
`util::sprintf` (llmr/util/string.hpp) are not part of the sources.  They are
printf formatting, of which `tile.cpp` uses only the conversion `%d`: the
decimal numeral of the next `int` argument; every other character of the format
is copied. -/
def format : List Char → List Int → List Char
  | '%' :: 'd' :: rest, a :: args => (Int.repr a).data ++ format rest args
  | c :: rest, args => c :: format rest args
  | [], _ => []

/-- `Tile::toString`: `util::sprintf("[tile %d/%d/%d]", id.z, id.x, id.y)`. -/
def toString (t : Tile) : String :=
  String.mk (format "[tile %d/%d/%d]".data [t.id.z, t.id.x, t.id.y])

/-- The text `coord` that the constructor `Tile::Tile` hands to
`debugFontVertex.addText`: `snprintf(coord, sizeof(coord), "%d/%d/%d", id.z, id.x, id.y)`
with a buffer of 32 characters, so at most 31 characters of text. -/
def debugLabel (id : ID) : String :=
  String.mk ((format "%d/%d/%d".data [id.z, id.x, id.y]).take 31)

/-- A top-level layer field (tag 3) that declares five bytes of payload in a
buffer that ends right after the length. -/
def bufferLayerTooLong : List UInt8 :=
  [0x1a, 0x05]

/-- A layer of two bytes holding only the key and length of a feature that
declares five bytes; the five bytes that follow the layer in the buffer are a
geometry field with the command move-to (10, 10). -/
def bufferFeaturePastLayer : List UInt8 :=
  [0x1a, 0x02, 0x12, 0x05, 0x22, 0x03, 0x09, 0x14, 0x14]

/-- The tag-list as the design describes it, a run of key/value pairs of
varints: reading `n` whole pairs one after the other. -/
def readPairs (buf : List UInt8) : Nat → Pbf → Run → Step Pbf
  | 0, p, r => Step.ok p r
  | n + 1, p, r =>
    match Pbf.varint buf p r with
    | Step.fail e r1 => Step.fail e r1
    | Step.ok (_, p1) r1 =>
      match Pbf.varint buf p1 r1 with
      | Step.fail e r2 => Step.fail e r2
      | Step.ok (_, p2) r2 => readPairs buf n p2 r2

/-- A feature payload whose tag-list (tag 2) declares one byte, that is a single
varint and not a pair, followed by two varint fields with tag 1. -/
def featureOddTagList : List UInt8 :=
  [0x12, 0x01, 0x08, 0x08, 0x08, 0x01]

end Tile

/-! ## The wire format as the design describes it: encoders

The definitions of this section do not embed code of `tile.cpp`: they write
down the binary format that the design gives for the input, so that the
decoder can be compared with it. -/

namespace Wire

/-- The bytes `enc` stand in the buffer `buf` from offset `pos` on. -/
def bytesAt (buf : List UInt8) (pos : Nat) (enc : List UInt8) : Prop :=
  ∀ i, i < enc.length → buf[pos + i]? = enc[i]?

/-- The base-128 encoding of `v`, least significant group first, in at most `n`
bytes: seven payload bits per byte, the high bit set on every byte but the
last. -/
def encodeVarintN : Nat → Nat → List UInt8
  | 0, _ => []
  | n + 1, v =>
    if v < 128 then [UInt8.ofNat v]
    else UInt8.ofNat (v % 128 + 128) :: encodeVarintN n (v / 128)

/-- The varint encoding of an unsigned integer below 2^64 (at most ten bytes). -/
def encodeVarint (v : Nat) : List UInt8 := encodeVarintN 10 v

/-- The key of a field: field number and wire type in one varint. -/
def encodeKey (tag wire : Nat) : List UInt8 := encodeVarint (tag * 8 + wire)

/-- Zig-zag encoding of a signed 32-bit value: non-negative values become even,
negative values odd. -/
def zigzagEncode (d : Int) : Nat :=
  if 0 ≤ d then (2 * d).toNat else (-2 * d - 1).toNat

/-- A command of a geometry: move-to and line-to carry the absolute positions
of their vertices (the repeat count is their number), close-path carries
nothing. -/
inductive PathCommand where
  | moveTo (pts : List (Int × Int))
  | lineTo (pts : List (Int × Int))
  | closePath
deriving DecidableEq, Repr

/-- A move-to or line-to has a repeat count of at least one that fits the 29
bits left beside the command code, and positions that are `int32_t` values. -/
def PathCommand.wellFormed : PathCommand → Prop
  | PathCommand.moveTo pts => 1 ≤ pts.length ∧ pts.length < 536870912 ∧
      ∀ p ∈ pts, -2147483648 ≤ p.1 ∧ p.1 < 2147483648 ∧ -2147483648 ≤ p.2 ∧ p.2 < 2147483648
  | PathCommand.lineTo pts => 1 ≤ pts.length ∧ pts.length < 536870912 ∧
      ∀ p ∈ pts, -2147483648 ≤ p.1 ∧ p.1 < 2147483648 ∧ -2147483648 ≤ p.2 ∧ p.2 < 2147483648
  | PathCommand.closePath => True

/-- A coordinate pair: the position `q` as the zig-zag varints of its delta
from the previous position `cur`. -/
def encodePair (cur q : Int × Int) : List UInt8 :=
  encodeVarint (zigzagEncode (Tile.wrap32 (q.1 - cur.1))) ++
    encodeVarint (zigzagEncode (Tile.wrap32 (q.2 - cur.2)))

/-- The coordinate pairs of a command, each a delta from the position before. -/
def encodePoints : Int × Int → List (Int × Int) → List UInt8
  | _, [] => []
  | cur, p :: ps => encodePair cur p ++ encodePoints p ps

/-- The payload of a geometry: per command one varint packing the command code
(1 move-to, 2 line-to, 7 close-path) with the repeat count, then the coordinate
pairs; `cur` is the position before the first command. -/
def encodeGeometry : Int × Int → List PathCommand → List UInt8
  | _, [] => []
  | cur, PathCommand.moveTo pts :: cs =>
    encodeVarint (pts.length * 8 + 1) ++
      (encodePoints cur pts ++ encodeGeometry (pts.getLastD cur) cs)
  | cur, PathCommand.lineTo pts :: cs =>
    encodeVarint (pts.length * 8 + 2) ++
      (encodePoints cur pts ++ encodeGeometry (pts.getLastD cur) cs)
  | cur, PathCommand.closePath :: cs =>
    encodeVarint 15 ++ encodeGeometry cur cs

/-- The vertices of the positions of one command: a coordinate per position,
the first of them preceded by a degenerate marker when `marked`. -/
def pointVertices (marked : Bool) : List (Int × Int) → List Vertex
  | [] => []
  | p :: ps =>
    (if marked then [Vertex.degenerate, Vertex.coordinate p.1 p.2]
      else [Vertex.coordinate p.1 p.2]) ++ pointVertices false ps

/-- The vertex stream of a list of commands as the design describes it: for a
move-to a path-break marker and then the coordinates of its positions, for a
line-to the coordinates of its positions, for a close-path nothing. -/
def pathVertices : Int × Int → List PathCommand → List Vertex
  | _, [] => []
  | cur, PathCommand.moveTo pts :: cs =>
    pointVertices true pts ++ pathVertices (pts.getLastD cur) cs
  | cur, PathCommand.lineTo pts :: cs =>
    pointVertices false pts ++ pathVertices (pts.getLastD cur) cs
  | cur, PathCommand.closePath :: cs => pathVertices cur cs

/-- The value of a field that a pass skips without interpreting it, by wire
type: a varint (0), eight bytes (1), a length-delimited byte range (2) or four
bytes (5). -/
inductive Skipped where
  | varint (v : Nat)
  | fixed64 (b : List UInt8)
  | bytes (b : List UInt8)
  | fixed32 (b : List UInt8)
deriving DecidableEq, Repr

/-- The wire type of a skipped value. -/
def Skipped.wire : Skipped → Nat
  | Skipped.varint _ => 0
  | Skipped.fixed64 _ => 1
  | Skipped.bytes _ => 2
  | Skipped.fixed32 _ => 5

/-- The bytes of a skipped value. -/
def Skipped.encode : Skipped → List UInt8
  | Skipped.varint v => encodeVarint v
  | Skipped.fixed64 b => b
  | Skipped.bytes b => encodeVarint b.length ++ b
  | Skipped.fixed32 b => b

/-- The sizes a skipped value must have. -/
def Skipped.wellFormed : Skipped → Prop
  | Skipped.varint v => v < 18446744073709551616
  | Skipped.fixed64 b => b.length = 8
  | Skipped.bytes b => b.length < 4294967296
  | Skipped.fixed32 b => b.length = 4

/-- The payload of a tag-list: alternating key and value varints. -/
def encodePairs : List (Nat × Nat) → List UInt8
  | [] => []
  | kv :: rest => (encodeVarint kv.1 ++ encodeVarint kv.2) ++ encodePairs rest

/-- A field of a feature: tag 1 the identifier (varint), tag 2 the tag-list
(length-delimited key/value pairs), tag 3 the geometry type (varint), tag 4 the
geometry (length-delimited commands), any other tag a field to skip. -/
inductive FeatureField where
  | id (v : Nat)
  | tags (pairs : List (Nat × Nat))
  | geomType (v : Nat)
  | geometry (cmds : List PathCommand)
  | other (tag : Nat) (s : Skipped)
deriving DecidableEq, Repr

/-- The bytes of a feature field: key, then the value. -/
def FeatureField.encode : FeatureField → List UInt8
  | FeatureField.id v => encodeKey 1 0 ++ encodeVarint v
  | FeatureField.tags pairs =>
    encodeKey 2 2 ++ (encodeVarint (encodePairs pairs).length ++ encodePairs pairs)
  | FeatureField.geomType v => encodeKey 3 0 ++ encodeVarint v
  | FeatureField.geometry cmds =>
    encodeKey 4 2 ++
      (encodeVarint (encodeGeometry (0, 0) cmds).length ++ encodeGeometry (0, 0) cmds)
  | FeatureField.other tag s => encodeKey tag s.wire ++ s.encode

/-- Well-formed feature fields: values and lengths within their integer widths,
skipped fields with a tag that means nothing to the feature pass, geometries
made of well-formed commands.  A tag-list holds whole pairs by construction; when
the operand `feature.data` is read before the call of `varint` (`dataFirst`), its
length must fit one byte. -/
def FeatureField.wellFormed (dataFirst : Bool) : FeatureField → Prop
  | FeatureField.id v => v < 18446744073709551616
  | FeatureField.tags pairs =>
    (∀ kv ∈ pairs, kv.1 < 18446744073709551616 ∧ kv.2 < 18446744073709551616) ∧
      (encodePairs pairs).length < 4294967296 ∧
      (dataFirst = true → (encodePairs pairs).length < 128)
  | FeatureField.geomType v => v < 18446744073709551616
  | FeatureField.geometry cmds =>
    (∀ c ∈ cmds, c.wellFormed) ∧ (encodeGeometry (0, 0) cmds).length < 4294967296
  | FeatureField.other tag s =>
    tag ≠ 1 ∧ tag ≠ 2 ∧ tag ≠ 3 ∧ tag ≠ 4 ∧ tag < 536870912 ∧ s.wellFormed

/-- The payload of a feature: its fields one after the other. -/
def encodeFeature : List FeatureField → List UInt8
  | [] => []
  | f :: fs => f.encode ++ encodeFeature fs

/-- The vertices of a feature: the geometry decodings of its tag-4 fields, in
order. -/
def featureVertices : List FeatureField → List Vertex
  | [] => []
  | FeatureField.geometry cmds :: fs => pathVertices (0, 0) cmds ++ featureVertices fs
  | FeatureField.id _ :: fs => featureVertices fs
  | FeatureField.tags _ :: fs => featureVertices fs
  | FeatureField.geomType _ :: fs => featureVertices fs
  | FeatureField.other _ _ :: fs => featureVertices fs

/-- A field of a layer: tag 1 the name (text), tag 2 a feature, any other tag a
field to skip. -/
inductive LayerField where
  | name (text : List UInt8)
  | feature (fields : List FeatureField)
  | other (tag : Nat) (s : Skipped)
deriving DecidableEq, Repr

/-- The bytes of a layer field. -/
def LayerField.encode : LayerField → List UInt8
  | LayerField.name text => encodeKey 1 2 ++ (encodeVarint text.length ++ text)
  | LayerField.feature fields =>
    encodeKey 2 2 ++ (encodeVarint (encodeFeature fields).length ++ encodeFeature fields)
  | LayerField.other tag s => encodeKey tag s.wire ++ s.encode

/-- Well-formed layer fields. -/
def LayerField.wellFormed (dataFirst : Bool) : LayerField → Prop
  | LayerField.name text => text.length < 4294967296
  | LayerField.feature fields =>
    (∀ f ∈ fields, f.wellFormed dataFirst) ∧ (encodeFeature fields).length < 4294967296
  | LayerField.other tag s => tag ≠ 1 ∧ tag ≠ 2 ∧ tag < 536870912 ∧ s.wellFormed

/-- The payload of a layer. -/
def encodeLayer : List LayerField → List UInt8
  | [] => []
  | f :: fs => f.encode ++ encodeLayer fs

/-- The vertices of a layer: those of its tag-2 features, in order. -/
def layerVertices : List LayerField → List Vertex
  | [] => []
  | LayerField.feature fields :: fs => featureVertices fields ++ layerVertices fs
  | LayerField.name _ :: fs => layerVertices fs
  | LayerField.other _ _ :: fs => layerVertices fs

/-- A top-level field of a tile: tag 3 a layer, any other tag a field to skip. -/
inductive TileField where
  | layer (fields : List LayerField)
  | other (tag : Nat) (s : Skipped)
deriving DecidableEq, Repr

/-- The bytes of a top-level field. -/
def TileField.encode : TileField → List UInt8
  | TileField.layer fields =>
    encodeKey 3 2 ++ (encodeVarint (encodeLayer fields).length ++ encodeLayer fields)
  | TileField.other tag s => encodeKey tag s.wire ++ s.encode

/-- Well-formed top-level fields. -/
def TileField.wellFormed (dataFirst : Bool) : TileField → Prop
  | TileField.layer fields =>
    (∀ f ∈ fields, f.wellFormed dataFirst) ∧ (encodeLayer fields).length < 4294967296
  | TileField.other tag s => tag ≠ 3 ∧ tag < 536870912 ∧ s.wellFormed

/-- The buffer of a tile: its top-level fields one after the other. -/
def encodeTile : List TileField → List UInt8
  | [] => []
  | f :: fs => f.encode ++ encodeTile fs

/-- The vertex stream of a tile: the in-order concatenation of the geometry
decodings of every tag-4 field of every tag-2 feature of every tag-3 layer. -/
def tileVertices : List TileField → List Vertex
  | [] => []
  | TileField.layer fields :: fs => layerVertices fields ++ tileVertices fs
  | TileField.other _ _ :: fs => tileVertices fs

/-- The positions of the move-to and line-to commands, in order. -/
def allPoints : List PathCommand → List (Int × Int)
  | [] => []
  | PathCommand.moveTo pts :: cs => pts ++ allPoints cs
  | PathCommand.lineTo pts :: cs => pts ++ allPoints cs
  | PathCommand.closePath :: cs => allPoints cs

/-- The vertex stream of a list of commands in the words of the design: one
path-break marker per move-to command, immediately before the first vertex of
that command and nowhere else; then the positions of the command in order; the
positions of a line-to in order; nothing for a close-path. -/
def markedVertices : List PathCommand → List Vertex
  | [] => []
  | PathCommand.moveTo pts :: cs =>
    Vertex.degenerate :: (pts.map (fun q => Vertex.coordinate q.1 q.2) ++ markedVertices cs)
  | PathCommand.lineTo pts :: cs =>
    pts.map (fun q => Vertex.coordinate q.1 q.2) ++ markedVertices cs
  | PathCommand.closePath :: cs => markedVertices cs

/-- The commands of a list that are not close-path commands. -/
def withoutClose (cmds : List PathCommand) : List PathCommand :=
  cmds.filter (fun c => decide (c ≠ PathCommand.closePath))

/-- The number of move-to commands. -/
def moveCount : List PathCommand → Nat
  | [] => 0
  | PathCommand.moveTo _ :: cs => moveCount cs + 1
  | PathCommand.lineTo _ :: cs => moveCount cs
  | PathCommand.closePath :: cs => moveCount cs

/-- The coordinates of a vertex stream, markers left out. -/
def coordinatesOf : List Vertex → List (Int × Int)
  | [] => []
  | Vertex.degenerate :: vs => coordinatesOf vs
  | Vertex.coordinate x y :: vs => (x, y) :: coordinatesOf vs

/-- The number of degenerate markers of a vertex stream. -/
def markerCount : List Vertex → Nat
  | [] => 0
  | Vertex.degenerate :: vs => markerCount vs + 1
  | Vertex.coordinate _ _ :: vs => markerCount vs

/-- The coordinates of the positions of a list of line-to commands. -/
def lineVertices : List (List (Int × Int)) → List Vertex
  | [] => []
  | seg :: rest => seg.map (fun q => Vertex.coordinate q.1 q.2) ++ lineVertices rest

/-- The geometries (tag-4 fields) of a feature, in order. -/
def featureGeometries : List FeatureField → List (List PathCommand)
  | [] => []
  | FeatureField.geometry cmds :: fs => cmds :: featureGeometries fs
  | FeatureField.id _ :: fs => featureGeometries fs
  | FeatureField.tags _ :: fs => featureGeometries fs
  | FeatureField.geomType _ :: fs => featureGeometries fs
  | FeatureField.other _ _ :: fs => featureGeometries fs

/-- The geometries of the features of a layer, in order. -/
def layerGeometries : List LayerField → List (List PathCommand)
  | [] => []
  | LayerField.feature fields :: fs => featureGeometries fields ++ layerGeometries fs
  | LayerField.name _ :: fs => layerGeometries fs
  | LayerField.other _ _ :: fs => layerGeometries fs

/-- The geometries of the layers of a tile, in order. -/
def tileGeometries : List TileField → List (List PathCommand)
  | [] => []
  | TileField.layer fields :: fs => layerGeometries fields ++ tileGeometries fs
  | TileField.other _ _ :: fs => tileGeometries fs

/-- The vertex streams of a list of geometries, one after the other. -/
def geometriesVertices : List (List PathCommand) → List Vertex
  | [] => []
  | cmds :: rest => pathVertices (0, 0) cmds ++ geometriesVertices rest

/-- Scenario A with tags: one layer named water with one feature that carries
a tag-list of 64 key/value pairs (key index 42, value index 11; 128 bytes) and
the geometry move-to (10, 10), line-to (20, 10), line-to (20, 20). -/
def longTagListTile : List TileField :=
  [TileField.layer [LayerField.name [119, 97, 116, 101, 114],
    LayerField.feature [FeatureField.tags (List.replicate 64 (42, 11)),
      FeatureField.geometry [PathCommand.moveTo [(10, 10)],
        PathCommand.lineTo [(20, 10)], PathCommand.lineTo [(20, 20)]]]]]

/-- The bytes of `longTagListTile`: the layer (tag 3, 152 bytes), its name, the
feature (tag 2, 142 bytes), the tag-list (tag 2, length 128 in two bytes, 64
pairs), the geometry (tag 4, 9 bytes). -/
def bufferLongTagList : List UInt8 :=
  [26, 152, 1, 10, 5, 119, 97, 116, 101, 114, 18, 142, 1, 18, 128, 1] ++
    ((List.replicate 64 [42, 11]).flatten ++ [34, 9, 9, 20, 20, 10, 20, 0, 10, 0, 20])

/-- A tile of one layer with one feature, given by its declared lengths: a
tag-list of one byte (a single varint, not a pair) followed by five identifier
fields; no geometry field. -/
def oddTagListTile : List TileField :=
  [TileField.layer [LayerField.feature [FeatureField.other 2 (Skipped.bytes [0x22]),
    FeatureField.id 34, FeatureField.id 25, FeatureField.id 128, FeatureField.id 8,
    FeatureField.id 8]]]

instance (c : PathCommand) : Decidable c.wellFormed := by
  cases c <;> unfold PathCommand.wellFormed <;> infer_instance

instance (s : Skipped) : Decidable s.wellFormed := by
  cases s <;> unfold Skipped.wellFormed <;> infer_instance

instance (dataFirst : Bool) (f : FeatureField) : Decidable (f.wellFormed dataFirst) := by
  cases f <;> unfold FeatureField.wellFormed <;> infer_instance

instance (dataFirst : Bool) (f : LayerField) : Decidable (f.wellFormed dataFirst) := by
  cases f <;> unfold LayerField.wellFormed <;> infer_instance

instance (dataFirst : Bool) (f : TileField) : Decidable (f.wellFormed dataFirst) := by
  cases f <;> unfold TileField.wellFormed <;> infer_instance

/-- A tile with a skipped top-level field and one layer that holds a name, a
skipped field and a feature with identifier, tag-list, geometry type and a
geometry of a move-to and a line-to. -/
def sampleTile : List TileField :=
  [TileField.other 1 (Skipped.varint 5),
   TileField.layer [LayerField.name [0x61], LayerField.other 15 (Skipped.bytes [1, 2]),
     LayerField.feature [FeatureField.id 7, FeatureField.tags [(1, 2)],
       FeatureField.geomType 2,
       FeatureField.geometry [PathCommand.moveTo [(10, 10)],
         PathCommand.lineTo [(20, 10), (20, 20)]]]]]

end Wire

namespace Tile

/-! ## Properties of the quadtree functions -/

theorem wrap32_of_inRange (n : Int) (h1 : -2147483648 ≤ n) (h2 : n < 2147483648) :
    wrap32 n = n := by
  unfold wrap32; omega

theorem pow2_of_small (d : Int) (h0 : 0 ≤ d) (h1 : d ≤ 30) : pow2 d = 2 ^ d.toNat := by
  have hle : d.toNat ≤ 30 := by omega
  have hp : (2 : Int) ^ d.toNat ≤ 2 ^ 30 := pow_le_pow_right₀ (by norm_num) hle
  have hp0 : (0 : Int) < 2 ^ d.toNat := by positivity
  unfold pow2
  rw [if_neg (by omega)]
  apply wrap32_of_inRange <;> norm_num at hp ⊢ <;> omega

theorem mem_childrenRow (z y x_max : Int) :
    ∀ (fuel : Nat) (x : Int) (acc : List ID), (x_max - x).toNat ≤ fuel →
      ∀ c : ID, c ∈ childrenRow z y x_max fuel x acc ↔
        (c ∈ acc ∨ (c.z = z ∧ c.y = y ∧ x ≤ c.x ∧ c.x < x_max)) := by
  intro fuel
  induction fuel with
  | zero =>
    intro x acc h c
    simp only [childrenRow]
    constructor
    · intro hc; exact Or.inl hc
    · rintro (hc | ⟨_, _, h1, h2⟩)
      · exact hc
      · omega
  | succ n ih =>
    intro x acc h c
    simp only [childrenRow]
    split
    · rename_i hlt
      rw [ih (x + 1) _ (by omega) c, List.mem_cons]
      constructor
      · rintro ((rfl | hc) | ⟨h1, h2, h3, h4⟩)
        · exact Or.inr ⟨rfl, rfl, le_refl _, hlt⟩
        · exact Or.inl hc
        · exact Or.inr ⟨h1, h2, by omega, h4⟩
      · rintro (hc | ⟨h1, h2, h3, h4⟩)
        · exact Or.inl (Or.inr hc)
        · by_cases hx : c.x = x
          · refine Or.inl (Or.inl ?_)
            cases c
            simp_all
          · exact Or.inr ⟨h1, h2, by omega, h4⟩
    · rename_i hge
      constructor
      · intro hc; exact Or.inl hc
      · rintro (hc | ⟨_, _, h1, h2⟩)
        · exact hc
        · omega

theorem length_childrenRow (z y x_max : Int) :
    ∀ (fuel : Nat) (x : Int) (acc : List ID), (x_max - x).toNat ≤ fuel →
      (childrenRow z y x_max fuel x acc).length = acc.length + (x_max - x).toNat := by
  intro fuel
  induction fuel with
  | zero =>
    intro x acc h
    simp only [childrenRow]
    omega
  | succ n ih =>
    intro x acc h
    simp only [childrenRow]
    split
    · rw [ih (x + 1) _ (by omega), List.length_cons]
      omega
    · omega

theorem nodup_childrenRow (z y x_max : Int) :
    ∀ (fuel : Nat) (x : Int) (acc : List ID), acc.Nodup →
      (∀ c ∈ acc, c.y = y → c.x < x) → (childrenRow z y x_max fuel x acc).Nodup := by
  intro fuel
  induction fuel with
  | zero =>
    intro x acc h _
    simpa only [childrenRow] using h
  | succ n ih =>
    intro x acc h hacc
    simp only [childrenRow]
    split
    · apply ih
      · refine List.nodup_cons.mpr ⟨?_, h⟩
        intro hmem
        have := hacc _ hmem rfl
        simp at this
      · intro c hc hy
        rcases List.mem_cons.mp hc with rfl | hc
        · simp
        · have := hacc c hc hy
          omega
    · exact h

theorem mem_childrenRows (z x0 x_max y_max : Int) :
    ∀ (fuel : Nat) (y : Int) (acc : List ID), (y_max - y).toNat ≤ fuel →
      ∀ c : ID, c ∈ childrenRows z x0 x_max y_max fuel y acc ↔
        (c ∈ acc ∨ (c.z = z ∧ y ≤ c.y ∧ c.y < y_max ∧ x0 ≤ c.x ∧ c.x < x_max)) := by
  intro fuel
  induction fuel with
  | zero =>
    intro y acc h c
    simp only [childrenRows]
    constructor
    · intro hc; exact Or.inl hc
    · rintro (hc | ⟨_, h1, h2, _⟩)
      · exact hc
      · omega
  | succ n ih =>
    intro y acc h c
    simp only [childrenRows]
    split
    · rename_i hlt
      rw [ih (y + 1) _ (by omega) c, mem_childrenRow z y x_max _ x0 acc (le_refl _) c]
      constructor
      · rintro ((hc | ⟨h1, h2, h3, h4⟩) | ⟨h1, h2, h3, h4, h5⟩)
        · exact Or.inl hc
        · exact Or.inr ⟨h1, by omega, by omega, h3, h4⟩
        · exact Or.inr ⟨h1, by omega, h3, h4, h5⟩
      · rintro (hc | ⟨h1, h2, h3, h4, h5⟩)
        · exact Or.inl (Or.inl hc)
        · by_cases hy : c.y = y
          · exact Or.inl (Or.inr ⟨h1, hy, h4, h5⟩)
          · exact Or.inr ⟨h1, by omega, h3, h4, h5⟩
    · constructor
      · intro hc; exact Or.inl hc
      · rintro (hc | ⟨_, h1, h2, _⟩)
        · exact hc
        · omega

theorem length_childrenRows (z x0 x_max y_max : Int) :
    ∀ (fuel : Nat) (y : Int) (acc : List ID), (y_max - y).toNat ≤ fuel →
      (childrenRows z x0 x_max y_max fuel y acc).length =
        acc.length + (y_max - y).toNat * (x_max - x0).toNat := by
  intro fuel
  induction fuel with
  | zero =>
    intro y acc h
    simp only [childrenRows]
    have : (y_max - y).toNat = 0 := by omega
    simp [this]
  | succ n ih =>
    intro y acc h
    simp only [childrenRows]
    split
    · rename_i hlt
      rw [ih (y + 1) _ (by omega), length_childrenRow z y x_max _ x0 acc (le_refl _)]
      have : (y_max - y).toNat = (y_max - (y + 1)).toNat + 1 := by omega
      rw [this]
      ring
    · have : (y_max - y).toNat = 0 := by omega
      simp [this]

theorem nodup_childrenRows (z x0 x_max y_max : Int) :
    ∀ (fuel : Nat) (y : Int) (acc : List ID), acc.Nodup →
      (∀ c ∈ acc, c.y < y) → (childrenRows z x0 x_max y_max fuel y acc).Nodup := by
  intro fuel
  induction fuel with
  | zero =>
    intro y acc h _
    simpa only [childrenRows] using h
  | succ n ih =>
    intro y acc h hacc
    simp only [childrenRows]
    split
    · apply ih
      · apply nodup_childrenRow _ _ _ _ _ _ h
        intro c hc hy
        have := hacc c hc
        omega
      · intro c hc
        rcases (mem_childrenRow z y x_max _ x0 acc (le_refl _) c).mp hc with hc | ⟨_, h2, _, _⟩
        · have := hacc c hc
          omega
        · omega
    · exact h

theorem ediv_of_between (a f q : Int) (hf : 0 < f) (h1 : q * f ≤ a) (h2 : a < (q + 1) * f) :
    a / f = q := by
  apply le_antisymm
  · have : a / f < q + 1 := Int.ediv_lt_of_lt_mul hf h2
    omega
  · exact Int.le_ediv_of_mul_le hf h1

theorem ediv_two_ediv (x P : Int) (hP : 0 < P) : x / 2 / P = x / (2 * P) := by
  symm
  apply ediv_of_between _ _ _ (by omega)
  · have h1 := Int.ediv_add_emod (x / 2) P
    have h2 := Int.emod_nonneg (x / 2) (ne_of_gt hP)
    have h3 : x / 2 / P * (2 * P) = 2 * (P * (x / 2 / P)) := by ring
    rw [h3]
    generalize P * (x / 2 / P) = m at *
    omega
  · have h1 := Int.ediv_add_emod (x / 2) P
    have h2 := Int.emod_lt_of_pos (x / 2) hP
    have h3 : (x / 2 / P + 1) * (2 * P) = 2 * (P * (x / 2 / P)) + 2 * P := by ring
    rw [h3]
    generalize P * (x / 2 / P) = m at *
    omega

theorem parentLoop_closed (z : Int) :
    ∀ (n : Nat) (pos : ID), pos.z = z + n → 0 ≤ pos.x → 0 ≤ pos.y →
      parentLoop z n pos = { x := pos.x / 2 ^ n, y := pos.y / 2 ^ n, z := z } := by
  intro n
  induction n with
  | zero =>
    intro pos hz _ _
    cases pos
    simp_all [parentLoop]
  | succ n ih =>
    intro pos hz hx hy
    have hgt : pos.z > z := by push_cast at hz; omega
    simp only [parentLoop, if_pos hgt]
    have h2 : (0 : Int) ≤ 2 := by norm_num
    have hP : (0 : Int) < 2 ^ n := by positivity
    have ex : Int.tdiv pos.x 2 = pos.x / 2 := Int.tdiv_eq_ediv hx h2
    have ey : Int.tdiv pos.y 2 = pos.y / 2 := Int.tdiv_eq_ediv hy h2
    rw [ih _ (by push_cast at hz ⊢; show pos.z - 1 = z + n; omega)
      (by simp only [ex]; exact Int.ediv_nonneg hx h2)
      (by simp only [ey]; exact Int.ediv_nonneg hy h2)]
    simp only [ex, ey, pow_succ']
    rw [ediv_two_ediv _ _ hP, ediv_two_ediv _ _ hP]

theorem parent_closed (id : ID) (z : Int) (hz : z < id.z) (hx : 0 ≤ id.x) (hy : 0 ≤ id.y) :
    parent id z =
      some { x := id.x / 2 ^ (id.z - z).toNat, y := id.y / 2 ^ (id.z - z).toNat, z := z } := by
  unfold parent
  rw [if_pos hz, parentLoop_closed z _ id (by omega) hx hy]

theorem children_of_inRange (id : ID) (z : Int) (hv : id.valid) (hz : id.z < z)
    (hx : (id.x + 1) * 2 ^ (z - id.z).toNat < 2147483648)
    (hy : (id.y + 1) * 2 ^ (z - id.z).toNat < 2147483648) :
    children id z = some (childrenRows z (id.x * 2 ^ (z - id.z).toNat)
      ((id.x + 1) * 2 ^ (z - id.z).toNat) ((id.y + 1) * 2 ^ (z - id.z).toNat)
      ((id.y + 1) * 2 ^ (z - id.z).toNat - id.y * 2 ^ (z - id.z).toNat).toNat
      (id.y * 2 ^ (z - id.z).toNat) []) := by
  obtain ⟨hz0, hx0, _, hy0, _⟩ := hv
  have hf : (0 : Int) < 2 ^ (z - id.z).toNat := by positivity
  have hfx : (2 : Int) ^ (z - id.z).toNat ≤ (id.x + 1) * 2 ^ (z - id.z).toNat := by nlinarith
  have hd : (z - id.z).toNat ≤ 30 := by
    by_contra hcon
    have h31 : 31 ≤ (z - id.z).toNat := by omega
    have : (2 : Int) ^ 31 ≤ 2 ^ (z - id.z).toNat := pow_le_pow_right₀ (by norm_num) h31
    norm_num at this
    omega
  have hx1 : id.x * 2 ^ (z - id.z).toNat ≤ (id.x + 1) * 2 ^ (z - id.z).toNat := by nlinarith
  have hy1 : id.y * 2 ^ (z - id.z).toNat ≤ (id.y + 1) * 2 ^ (z - id.z).toNat := by nlinarith
  have hx2 : 0 ≤ id.x * 2 ^ (z - id.z).toNat := by positivity
  have hy2 : 0 ≤ id.y * 2 ^ (z - id.z).toNat := by positivity
  have hx3 : id.x + 1 ≤ (id.x + 1) * 2 ^ (z - id.z).toNat := by nlinarith
  have hy3 : id.y + 1 ≤ (id.y + 1) * 2 ^ (z - id.z).toNat := by nlinarith
  have e1 : wrap32 (z - id.z) = z - id.z := wrap32_of_inRange _ (by omega) (by omega)
  have e2 : pow2 (z - id.z) = 2 ^ (z - id.z).toNat := pow2_of_small _ (by omega) (by omega)
  have e3 : wrap32 (id.x + 1) = id.x + 1 := wrap32_of_inRange _ (by omega) (by omega)
  have e4 : wrap32 (id.y + 1) = id.y + 1 := wrap32_of_inRange _ (by omega) (by omega)
  have e5 := wrap32_of_inRange (id.x * 2 ^ (z - id.z).toNat) (by omega) (by omega)
  have e6 := wrap32_of_inRange (id.y * 2 ^ (z - id.z).toNat) (by omega) (by omega)
  have e7 := wrap32_of_inRange ((id.x + 1) * 2 ^ (z - id.z).toNat) (by omega) (by omega)
  have e8 := wrap32_of_inRange ((id.y + 1) * 2 ^ (z - id.z).toNat) (by omega) (by omega)
  unfold children
  rw [if_pos hz]
  simp only [e1, e2, e3, e4, e5, e6, e7, e8]

theorem children_spec_of_inRange (id : ID) (z : Int) (hv : id.valid) (hz : id.z < z)
    (hx : (id.x + 1) * 2 ^ (z - id.z).toNat < 2147483648)
    (hy : (id.y + 1) * 2 ^ (z - id.z).toNat < 2147483648) :
    ∃ cs, children id z = some cs ∧ cs.Nodup ∧
      (∀ c : ID, c ∈ cs ↔ (c.z = z ∧
        id.x * 2 ^ (z - id.z).toNat ≤ c.x ∧ c.x < (id.x + 1) * 2 ^ (z - id.z).toNat ∧
        id.y * 2 ^ (z - id.z).toNat ≤ c.y ∧ c.y < (id.y + 1) * 2 ^ (z - id.z).toNat)) ∧
      cs.length = 2 ^ (z - id.z).toNat * 2 ^ (z - id.z).toNat := by
  refine ⟨_, children_of_inRange id z hv hz hx hy, ?_, ?_, ?_⟩
  · exact nodup_childrenRows _ _ _ _ _ _ _ List.nodup_nil (by simp)
  · intro c
    rw [mem_childrenRows _ _ _ _ _ _ _ (le_refl _) c]
    simp only [List.not_mem_nil, false_or]
    constructor
    · rintro ⟨h1, h2, h3, h4, h5⟩
      exact ⟨h1, h4, h5, h2, h3⟩
    · rintro ⟨h1, h2, h3, h4, h5⟩
      exact ⟨h1, h4, h5, h2, h3⟩
  · rw [length_childrenRows _ _ _ _ _ _ _ (le_refl _)]
    have e1 : (id.x + 1) * 2 ^ (z - id.z).toNat - id.x * 2 ^ (z - id.z).toNat
        = ((2 ^ (z - id.z).toNat : Nat) : Int) := by push_cast; ring
    have e2 : (id.y + 1) * 2 ^ (z - id.z).toNat - id.y * 2 ^ (z - id.z).toNat
        = ((2 ^ (z - id.z).toNat : Nat) : Int) := by push_cast; ring
    rw [e1, e2, Int.toNat_natCast]
    simp

/-! ## Quadtree claims -/

/-- C1 (as amended): for a valid tile `id` and a finer zoom `z` at which the
bounds `(id.x + 1) * 2^(z - id.z)` and `(id.y + 1) * 2^(z - id.z)` still fit in
`int32_t`, `children` returns a list, and `parent` maps every element of it back
to `id`. -/
theorem children_parent_roundtrip (id : ID) (z : Int) (hv : id.valid) (hz : id.z < z)
    (hx : (id.x + 1) * 2 ^ (z - id.z).toNat < 2147483648)
    (hy : (id.y + 1) * 2 ^ (z - id.z).toNat < 2147483648) :
    ∃ cs, children id z = some cs ∧ ∀ c ∈ cs, parent c id.z = some id := by
  obtain ⟨cs, hcs, _, hmem, _⟩ := children_spec_of_inRange id z hv hz hx hy
  refine ⟨cs, hcs, ?_⟩
  intro c hc
  obtain ⟨hcz, h1, h2, h3, h4⟩ := (hmem c).mp hc
  obtain ⟨hz0, hx0, _, hy0, _⟩ := hv
  have hf : (0 : Int) < 2 ^ (z - id.z).toNat := by positivity
  have hcx : 0 ≤ c.x := le_trans (by positivity) h1
  have hcy : 0 ≤ c.y := le_trans (by positivity) h3
  rw [parent_closed c id.z (by omega) hcx hcy, hcz,
    ediv_of_between c.x _ id.x hf h1 h2, ediv_of_between c.y _ id.y hf h3 h4]

/-- Witness of C1 (as amended): the tile (1, 1, 1) and zoom 3. -/
theorem children_parent_roundtrip_witness :
    ∃ cs, children { x := 1, y := 1, z := 1 } 3 = some cs ∧
      ∀ c ∈ cs, parent c 1 = some { x := 1, y := 1, z := 1 } :=
  children_parent_roundtrip { x := 1, y := 1, z := 1 } 3 (by decide) (by decide)
    (by decide) (by decide)

/-- C1 fails as stated: the tile (2^30, 0, 31) is valid and 32 is a finer zoom,
but `id.x * factor` leaves the `int32_t` range; `children` returns four tiles,
one of them (-2^31, 0, 32), whose parent at zoom 31 is (-2^30, 0, 31). -/
theorem children_parent_roundtrip_overflow :
    ID.valid { x := 1073741824, y := 0, z := 31 } ∧
    ID.isInt32 { x := 1073741824, y := 0, z := 31 } ∧
    ∃ cs c, children { x := 1073741824, y := 0, z := 31 } 32 = some cs ∧ c ∈ cs ∧
      parent c 31 ≠ some { x := 1073741824, y := 0, z := 31 } := by
  refine ⟨by decide, by decide, _, { x := -2147483648, y := 0, z := 32 }, rfl, ?_, ?_⟩ <;> decide

/-- C2 (as amended): for a valid tile `id` and a finer zoom `z` at which the
bounds `(id.x + 1) * factor` and `(id.y + 1) * factor` fit in `int32_t`, where
`factor = 2^(z - id.z)`, `children` returns a duplicate-free list whose elements
are exactly the tiles `(x, y, z)` with `id.x * factor ≤ x < (id.x + 1) * factor`
and `id.y * factor ≤ y < (id.y + 1) * factor`; it has `factor^2 = 4^(z - id.z)`
elements, four when `z = id.z + 1`. -/
theorem children_exact (id : ID) (z : Int) (hv : id.valid) (hz : id.z < z)
    (hx : (id.x + 1) * 2 ^ (z - id.z).toNat < 2147483648)
    (hy : (id.y + 1) * 2 ^ (z - id.z).toNat < 2147483648) :
    ∃ cs, children id z = some cs ∧ cs.Nodup ∧
      (∀ c : ID, c ∈ cs ↔ (c.z = z ∧
        id.x * 2 ^ (z - id.z).toNat ≤ c.x ∧ c.x < (id.x + 1) * 2 ^ (z - id.z).toNat ∧
        id.y * 2 ^ (z - id.z).toNat ≤ c.y ∧ c.y < (id.y + 1) * 2 ^ (z - id.z).toNat)) ∧
      cs.length = (2 ^ (z - id.z).toNat) ^ 2 ∧ cs.length = 4 ^ (z - id.z).toNat ∧
      (z = id.z + 1 → cs.length = 4) := by
  obtain ⟨cs, hcs, hnd, hmem, hlen⟩ := children_spec_of_inRange id z hv hz hx hy
  have h4 : 2 ^ (z - id.z).toNat * 2 ^ (z - id.z).toNat = 4 ^ (z - id.z).toNat := by
    rw [← mul_pow]
    norm_num
  refine ⟨cs, hcs, hnd, hmem, by rw [hlen, sq], by rw [hlen, h4], ?_⟩
  intro hz1
  have : (z - id.z).toNat = 1 := by omega
  rw [hlen, this]
  norm_num

/-- Witness of C2 (as amended): the tile (1, 1, 1) and zoom 2, four children. -/
theorem children_exact_witness :
    ∃ cs, children { x := 1, y := 1, z := 1 } 2 = some cs ∧ cs.Nodup ∧
      (∀ c : ID, c ∈ cs ↔ (c.z = 2 ∧
        1 * 2 ^ ((2 : Int) - 1).toNat ≤ c.x ∧ c.x < (1 + 1) * 2 ^ ((2 : Int) - 1).toNat ∧
        1 * 2 ^ ((2 : Int) - 1).toNat ≤ c.y ∧ c.y < (1 + 1) * 2 ^ ((2 : Int) - 1).toNat)) ∧
      cs.length = (2 ^ ((2 : Int) - 1).toNat) ^ 2 ∧ cs.length = 4 ^ ((2 : Int) - 1).toNat ∧
      ((2 : Int) = 1 + 1 → cs.length = 4) :=
  children_exact { x := 1, y := 1, z := 1 } 2 (by decide) (by decide) (by decide) (by decide)

/-- C2 fails as stated: the tile (2^30 - 1, 0, 30) is valid and 31 is a finer
zoom with factor 2, but the bound `(id.x + 1) * factor = 2^31` wraps to a
negative `int32_t`, the inner loop never runs and `children` returns the empty
list, although the tile (2^31 - 2, 0, 31) lies in the stated range. -/
theorem children_exact_overflow :
    ID.valid { x := 1073741823, y := 0, z := 30 } ∧
    ID.isInt32 { x := 1073741823, y := 0, z := 30 } ∧
    children { x := 1073741823, y := 0, z := 30 } 31 = some [] ∧
    (1073741823 * 2 ^ ((31 : Int) - 30).toNat ≤ (2147483646 : Int) ∧
      (2147483646 : Int) < (1073741823 + 1) * 2 ^ ((31 : Int) - 30).toNat ∧
      0 * 2 ^ ((31 : Int) - 30).toNat ≤ (0 : Int) ∧
      (0 : Int) < (0 + 1) * 2 ^ ((31 : Int) - 30).toNat) := by
  refine ⟨by decide, by decide, by decide, by decide⟩

/-- C3 (as amended): `children` of the tile (1, 1, 1) at zoom 3 is a list of
exactly 16 distinct tiles, all with zoom 3, each with x in [4, 8) and y in
[4, 8). -/
theorem children_scenario_D :
    ∃ cs, children { x := 1, y := 1, z := 1 } 3 = some cs ∧ cs.length = 16 ∧ cs.Nodup ∧
      ∀ c ∈ cs, c.z = 3 ∧ 4 ≤ c.x ∧ c.x < 8 ∧ 4 ≤ c.y ∧ c.y < 8 := by
  refine ⟨_, rfl, ?_, ?_, ?_⟩ <;> decide

/-- C3 fails as stated: `children` of the tile (1, 1, 1) at zoom 3 contains the
tile (7, 7, 3), whose x and y are outside [2, 4); no element at all has x and
y in [2, 4). -/
theorem children_scenario_D_range :
    ∃ cs, children { x := 1, y := 1, z := 1 } 3 = some cs ∧
      ({ x := 7, y := 7, z := 3 } : ID) ∈ cs ∧
      ¬ (∀ c ∈ cs, 2 ≤ c.x ∧ c.x < 4 ∧ 2 ≤ c.y ∧ c.y < 4) ∧
      ∀ c ∈ cs, ¬ (2 ≤ c.x ∧ c.x < 4 ∧ 2 ≤ c.y ∧ c.y < 4) := by
  refine ⟨_, rfl, ?_, ?_, ?_⟩ <;> decide

/-- C4: for a valid tile `id` and a zoom `0 ≤ z < id.z`, `parent` returns a tile
with zoom `z` whose x and y are within `[0, 2^z)`: the result is valid. -/
theorem parent_valid (id : ID) (z : Int) (hv : id.valid) (h0 : 0 ≤ z) (hz : z < id.z) :
    ∃ p, parent id z = some p ∧ p.z = z ∧ 0 ≤ p.x ∧ p.x < 2 ^ z.toNat ∧
      0 ≤ p.y ∧ p.y < 2 ^ z.toNat ∧ p.valid := by
  obtain ⟨hz0, hx0, hx1, hy0, hy1⟩ := hv
  have hf : (0 : Int) < 2 ^ (id.z - z).toNat := by positivity
  have hsplit : (2 : Int) ^ id.z.toNat = 2 ^ z.toNat * 2 ^ (id.z - z).toNat := by
    rw [← pow_add]
    congr 1
    omega
  have a1 : 0 ≤ id.x / 2 ^ (id.z - z).toNat := Int.ediv_nonneg hx0 (le_of_lt hf)
  have a2 : id.x / 2 ^ (id.z - z).toNat < 2 ^ z.toNat :=
    Int.ediv_lt_of_lt_mul hf (by rw [← hsplit]; exact hx1)
  have a3 : 0 ≤ id.y / 2 ^ (id.z - z).toNat := Int.ediv_nonneg hy0 (le_of_lt hf)
  have a4 : id.y / 2 ^ (id.z - z).toNat < 2 ^ z.toNat :=
    Int.ediv_lt_of_lt_mul hf (by rw [← hsplit]; exact hy1)
  exact ⟨_, parent_closed id z hz hx0 hy0, rfl, a1, a2, a3, a4, h0, a1, a2, a3, a4⟩

/-- Witness of C4: the tile (5, 7, 3) and zoom 1. -/
theorem parent_valid_witness :
    ∃ p, parent { x := 5, y := 7, z := 3 } 1 = some p ∧ p.z = 1 ∧ 0 ≤ p.x ∧
      p.x < 2 ^ (1 : Int).toNat ∧ 0 ≤ p.y ∧ p.y < 2 ^ (1 : Int).toNat ∧ p.valid :=
  parent_valid { x := 5, y := 7, z := 3 } 1 (by decide) (by decide) (by decide)

/-- C10: `parent` called with `z ≥ id.z` and `children` called with `z ≤ id.z`
fail their precondition assertion; neither returns a tile or a list. -/
theorem precondition_fails_fast (id : ID) (z : Int) :
    (id.z ≤ z → parent id z = none) ∧ (z ≤ id.z → children id z = none) := by
  constructor
  · intro h
    unfold parent
    rw [if_neg (by omega)]
  · intro h
    unfold children
    rw [if_neg (by omega)]

/-- Witness of C10: the tile (1, 1, 1) and its own zoom 1. -/
theorem precondition_fails_fast_witness :
    parent { x := 1, y := 1, z := 1 } 1 = none ∧ children { x := 1, y := 1, z := 1 } 1 = none :=
  ⟨(precondition_fails_fast { x := 1, y := 1, z := 1 } 1).1 (by decide),
    (precondition_fails_fast { x := 1, y := 1, z := 1 } 1).2 (by decide)⟩

/-! ## What `parse` makes of the outcome of the decoding -/

theorem parse_of_obsolete (dataFirst : Bool) (t : Tile) (h : t.state = TileState.obsolete) :
    parse dataFirst t = ParseResult.returned false t [] := by
  unfold parse
  rw [if_pos h]

theorem parse_of_ok (dataFirst : Bool) (t : Tile) (h : t.state ≠ TileState.obsolete) (r : Run)
    (hd : decode dataFirst t = Step.ok () r) :
    parse dataFirst t = ParseResult.returned true
      { t with lineVertex := r.lineVertex, state := TileState.ready } r.reads := by
  unfold parse
  rw [if_neg h, hd]
  simp only [if_neg h]

theorem parse_of_abort (dataFirst : Bool) (t : Tile) (h : t.state ≠ TileState.obsolete) (r : Run)
    (hd : decode dataFirst t = Step.fail Fault.abort r) :
    parse dataFirst t = ParseResult.returned false
      { t with lineVertex := r.lineVertex, state := TileState.obsolete } r.reads := by
  unfold parse
  rw [if_neg h, hd]
  simp only [cancel, ne_eq, h, not_false_eq_true, if_true]

theorem decode_of_parse_returned (dataFirst : Bool) (t : Tile) (h : t.state ≠ TileState.obsolete)
    (b : Bool) (t1 : Tile) (rd : List Nat)
    (hp : parse dataFirst t = ParseResult.returned b t1 rd) :
    (b = true → ∃ r, decode dataFirst t = Step.ok () r) ∧
    (b = false → ∃ r, decode dataFirst t = Step.fail Fault.abort r) := by
  cases hd : decode dataFirst t with
  | ok a r =>
    rw [parse_of_ok dataFirst t h r hd] at hp
    simp only [ParseResult.returned.injEq] at hp
    refine ⟨fun _ => ⟨r, rfl⟩, fun hb => ?_⟩
    rw [hb] at hp
    simp at hp
  | fail e r =>
    cases e with
    | abort =>
      rw [parse_of_abort dataFirst t h r hd] at hp
      simp only [ParseResult.returned.injEq] at hp
      refine ⟨fun hb => ?_, fun _ => ⟨r, rfl⟩⟩
      rw [hb] at hp
      simp at hp
    | outOfBounds =>
      unfold parse at hp
      rw [if_neg h, hd] at hp
      simp at hp
    | exhausted =>
      unfold parse at hp
      rw [if_neg h, hd] at hp
      simp at hp

end Tile

/-! ## The decoder only appends vertices and never runs out of iterations -/

theorem Step.grows_of_eq {α : Type} (r r1 : Run) (s : Step α)
    (h : r1.lineVertex = r.lineVertex) (hs : Step.grows r1 s) : Step.grows r s := by
  cases s <;> simpa [Step.grows, h] using hs

theorem Step.grows_trans {α : Type} (r r1 : Run) (s : Step α)
    (h : ∃ vs, r1.lineVertex = r.lineVertex ++ vs) (hs : Step.grows r1 s) : Step.grows r s := by
  obtain ⟨vs, hvs⟩ := h
  cases s with
  | ok a r2 =>
    obtain ⟨ws, hws⟩ := hs
    exact ⟨vs ++ ws, by rw [hws, hvs, List.append_assoc]⟩
  | fail e r2 =>
    obtain ⟨⟨ws, hws⟩, he⟩ := hs
    exact ⟨⟨vs ++ ws, by rw [hws, hvs, List.append_assoc]⟩, he⟩

theorem readByte_ok {buf : List UInt8} {pos : Nat} {r r1 : Run} {b : UInt8}
    (h : readByte buf pos r = Step.ok b r1) : r1.lineVertex = r.lineVertex := by
  unfold readByte at h
  split at h <;> simp at h
  rw [← h.2]

theorem readByte_fail {buf : List UInt8} {pos : Nat} {r r1 : Run} {e : Fault}
    (h : readByte buf pos r = Step.fail e r1) :
    r1.lineVertex = r.lineVertex ∧ e = Fault.outOfBounds := by
  unfold readByte at h
  split at h <;> simp at h
  exact ⟨by rw [← h.2], h.1.symm⟩

namespace Pbf

theorem varintLoop_ok (buf : List UInt8) (fin : Nat) :
    ∀ (n pos shift acc : Nat) (r r1 : Run) (v pos1 : Nat),
      varintLoop buf fin n pos shift acc r = Step.ok (v, pos1) r1 →
        r1.lineVertex = r.lineVertex ∧ pos < pos1 ∧ pos1 ≤ fin := by
  intro n
  induction n with
  | zero => intro pos shift acc r r1 v pos1 h; simp [varintLoop] at h
  | succ n ih =>
    intro pos shift acc r r1 v pos1 h
    simp only [varintLoop] at h
    split at h
    · simp at h
    · rename_i hpos
      split at h
      · simp at h
      · rename_i b r2 hb
        have hr2 := readByte_ok hb
        split at h
        · obtain ⟨h1, h2, h3⟩ := ih _ _ _ _ _ _ _ h
          exact ⟨by rw [h1, hr2], by omega, h3⟩
        · simp only [Step.ok.injEq, Prod.mk.injEq] at h
          obtain ⟨⟨_, h2⟩, h3⟩ := h
          exact ⟨by rw [← h3, hr2], by omega, by omega⟩

theorem varintLoop_fail (buf : List UInt8) (fin : Nat) :
    ∀ (n pos shift acc : Nat) (r r1 : Run) (e : Fault),
      varintLoop buf fin n pos shift acc r = Step.fail e r1 →
        r1.lineVertex = r.lineVertex ∧ e ≠ Fault.exhausted := by
  intro n
  induction n with
  | zero =>
    intro pos shift acc r r1 e h
    simp only [varintLoop, Step.fail.injEq] at h
    exact ⟨by rw [← h.2], by rw [← h.1]; decide⟩
  | succ n ih =>
    intro pos shift acc r r1 e h
    simp only [varintLoop] at h
    split at h
    · simp only [Step.fail.injEq] at h
      exact ⟨by rw [← h.2], by rw [← h.1]; decide⟩
    · split at h
      · rename_i e2 r2 hb
        obtain ⟨h1, h2⟩ := readByte_fail hb
        simp only [Step.fail.injEq] at h
        exact ⟨by rw [← h.2, h1], by rw [← h.1, h2]; decide⟩
      · rename_i b r2 hb
        have hr2 := readByte_ok hb
        split at h
        · obtain ⟨h1, h2⟩ := ih _ _ _ _ _ _ h
          exact ⟨by rw [h1, hr2], h2⟩
        · simp at h

theorem varint_ok {buf : List UInt8} {p p1 : Pbf} {r r1 : Run} {v : Nat}
    (h : varint buf p r = Step.ok (v, p1) r1) :
    r1.lineVertex = r.lineVertex ∧ p.data < p1.data ∧ p1.data ≤ p.fin ∧ p1.fin = p.fin := by
  unfold varint at h
  split at h
  · simp at h
  · rename_i v0 pos r2 hl
    obtain ⟨h1, h2, h3⟩ := varintLoop_ok _ _ _ _ _ _ _ _ _ _ hl
    simp only [Step.ok.injEq, Prod.mk.injEq] at h
    obtain ⟨⟨_, hp⟩, hr⟩ := h
    subst hp hr
    exact ⟨h1, h2, h3, rfl⟩

theorem varint_fail {buf : List UInt8} {p : Pbf} {r r1 : Run} {e : Fault}
    (h : varint buf p r = Step.fail e r1) :
    r1.lineVertex = r.lineVertex ∧ e ≠ Fault.exhausted := by
  unfold varint at h
  split at h
  · rename_i e2 r2 hl
    simp only [Step.fail.injEq] at h
    obtain ⟨he, hr⟩ := h
    subst he hr
    exact varintLoop_fail _ _ _ _ _ _ _ _ _ hl
  · simp at h

theorem next_ok {buf : List UInt8} {p p1 : Pbf} {r r1 : Run} {b : Bool}
    (h : next buf p r = Step.ok (b, p1) r1) :
    r1.lineVertex = r.lineVertex ∧ p1.fin = p.fin ∧
      (b = true → p.data < p.fin ∧ p.data < p1.data ∧ p1.data ≤ p.fin) ∧
      (b = false → p1 = p) := by
  unfold next at h
  split at h
  · rename_i hlt
    split at h
    · simp at h
    · rename_i v p2 r2 hv
      obtain ⟨h1, h2, h3, h4⟩ := varint_ok hv
      simp only [Step.ok.injEq, Prod.mk.injEq] at h
      obtain ⟨⟨hb, hp⟩, hr⟩ := h
      subst hb hp hr
      exact ⟨h1, h4, fun _ => ⟨hlt, h2, h3⟩, fun hf => by simp at hf⟩
  · simp only [Step.ok.injEq, Prod.mk.injEq] at h
    obtain ⟨⟨hb, hp⟩, hr⟩ := h
    subst hb hp hr
    exact ⟨rfl, rfl, fun hf => by simp at hf, fun _ => rfl⟩

theorem next_fail {buf : List UInt8} {p : Pbf} {r r1 : Run} {e : Fault}
    (h : next buf p r = Step.fail e r1) :
    r1.lineVertex = r.lineVertex ∧ e ≠ Fault.exhausted := by
  unfold next at h
  split at h
  · split at h
    · rename_i e2 r2 hv
      simp only [Step.fail.injEq] at h
      obtain ⟨he, hr⟩ := h
      subst he hr
      exact varint_fail hv
    · simp at h
  · simp at h

theorem skipBytes_ok {p p1 : Pbf} {n : Nat} {r r1 : Run}
    (h : skipBytes p n r = Step.ok p1 r1) :
    r1 = r ∧ p1.data = p.data + n ∧ p1.data ≤ p.fin ∧ p1.fin = p.fin := by
  unfold skipBytes at h
  split at h
  · simp at h
  · simp only [Step.ok.injEq] at h
    obtain ⟨hp, hr⟩ := h
    subst hp hr
    exact ⟨rfl, rfl, by simp only []; omega, rfl⟩

theorem skipBytes_fail {p : Pbf} {n : Nat} {r r1 : Run} {e : Fault}
    (h : skipBytes p n r = Step.fail e r1) : r1 = r ∧ e = Fault.abort := by
  unfold skipBytes at h
  split at h
  · simp only [Step.fail.injEq] at h
    exact ⟨h.2.symm, h.1.symm⟩
  · simp at h

theorem skip_ok {buf : List UInt8} {p p1 : Pbf} {r r1 : Run}
    (h : skip buf p r = Step.ok p1 r1) :
    r1.lineVertex = r.lineVertex ∧ p.data ≤ p1.data ∧ p1.fin = p.fin := by
  unfold skip at h
  split at h
  · split at h
    · simp at h
    · rename_i v p2 r2 hv
      obtain ⟨h1, h2, h3, h4⟩ := varint_ok hv
      simp only [Step.ok.injEq] at h
      obtain ⟨hp, hr⟩ := h
      subst hp hr
      exact ⟨h1, le_of_lt h2, h4⟩
  · split at h
    · obtain ⟨h1, h2, _, h4⟩ := skipBytes_ok h
      exact ⟨by rw [h1], by omega, h4⟩
    · split at h
      · split at h
        · simp at h
        · rename_i v p2 r2 hv
          obtain ⟨h1, h2, h3, h4⟩ := varint_ok hv
          obtain ⟨k1, k2, _, k4⟩ := skipBytes_ok h
          exact ⟨by rw [k1, h1], by omega, by rw [k4, h4]⟩
      · split at h
        · obtain ⟨h1, h2, _, h4⟩ := skipBytes_ok h
          exact ⟨by rw [h1], by omega, h4⟩
        · simp at h

theorem skip_fail {buf : List UInt8} {p : Pbf} {r r1 : Run} {e : Fault}
    (h : skip buf p r = Step.fail e r1) :
    r1.lineVertex = r.lineVertex ∧ e ≠ Fault.exhausted := by
  unfold skip at h
  split at h
  · split at h
    · rename_i e2 r2 hv
      simp only [Step.fail.injEq] at h
      obtain ⟨he, hr⟩ := h
      subst he hr
      exact varint_fail hv
    · simp at h
  · split at h
    · obtain ⟨h1, h2⟩ := skipBytes_fail h
      exact ⟨by rw [h1], by rw [h2]; decide⟩
    · split at h
      · split at h
        · rename_i e2 r2 hv
          simp only [Step.fail.injEq] at h
          obtain ⟨he, hr⟩ := h
          subst he hr
          exact varint_fail hv
        · rename_i v p2 r2 hv
          obtain ⟨h1, _⟩ := varint_ok hv
          obtain ⟨k1, k2⟩ := skipBytes_fail h
          exact ⟨by rw [k1, h1], by rw [k2]; decide⟩
      · split at h
        · obtain ⟨h1, h2⟩ := skipBytes_fail h
          exact ⟨by rw [h1], by rw [h2]; decide⟩
        · simp only [Step.fail.injEq] at h
          exact ⟨by rw [← h.2], by rw [← h.1]; decide⟩

theorem readBytes_ok (buf : List UInt8) :
    ∀ (n pos : Nat) (r r1 : Run) (bs : List UInt8),
      readBytes buf n pos r = Step.ok bs r1 → r1.lineVertex = r.lineVertex := by
  intro n
  induction n with
  | zero =>
    intro pos r r1 bs h
    simp only [readBytes, Step.ok.injEq] at h
    rw [← h.2]
  | succ n ih =>
    intro pos r r1 bs h
    simp only [readBytes] at h
    split at h
    · simp at h
    · rename_i b r2 hb
      split at h
      · simp at h
      · rename_i bs2 r3 hbs
        simp only [Step.ok.injEq] at h
        rw [← h.2, ih _ _ _ _ hbs, readByte_ok hb]

theorem readBytes_fail (buf : List UInt8) :
    ∀ (n pos : Nat) (r r1 : Run) (e : Fault),
      readBytes buf n pos r = Step.fail e r1 →
        r1.lineVertex = r.lineVertex ∧ e ≠ Fault.exhausted := by
  intro n
  induction n with
  | zero =>
    intro pos r r1 e h
    simp [readBytes] at h
  | succ n ih =>
    intro pos r r1 e h
    simp only [readBytes] at h
    split at h
    · rename_i e2 r2 hb
      obtain ⟨h1, h2⟩ := readByte_fail hb
      simp only [Step.fail.injEq] at h
      exact ⟨by rw [← h.2, h1], by rw [← h.1, h2]; decide⟩
    · rename_i b r2 hb
      split at h
      · rename_i e3 r3 hbs
        obtain ⟨h1, h2⟩ := ih _ _ _ _ hbs
        simp only [Step.fail.injEq] at h
        exact ⟨by rw [← h.2, h1, readByte_ok hb], by rw [← h.1]; exact h2⟩
      · simp at h

theorem string_ok {buf : List UInt8} {p p1 : Pbf} {r r1 : Run} {bs : List UInt8}
    (h : string buf p r = Step.ok (bs, p1) r1) :
    r1.lineVertex = r.lineVertex ∧ p.data ≤ p1.data ∧ p1.fin = p.fin := by
  unfold string at h
  split at h
  · simp at h
  · rename_i v p2 r2 hv
    obtain ⟨h1, h2, h3, h4⟩ := varint_ok hv
    split at h
    · simp at h
    · rename_i p3 r3 hs
      obtain ⟨k1, k2, _, k4⟩ := skipBytes_ok hs
      split at h
      · simp at h
      · rename_i bs2 r4 hbs
        have hb := readBytes_ok _ _ _ _ _ _ hbs
        simp only [Step.ok.injEq, Prod.mk.injEq] at h
        obtain ⟨⟨_, hp⟩, hr⟩ := h
        subst hp hr
        exact ⟨by rw [hb, k1, h1], by omega, by rw [k4, h4]⟩

theorem string_fail {buf : List UInt8} {p : Pbf} {r r1 : Run} {e : Fault}
    (h : string buf p r = Step.fail e r1) :
    r1.lineVertex = r.lineVertex ∧ e ≠ Fault.exhausted := by
  unfold string at h
  split at h
  · rename_i e2 r2 hv
    simp only [Step.fail.injEq] at h
    obtain ⟨he, hr⟩ := h
    subst he hr
    exact varint_fail hv
  · rename_i v p2 r2 hv
    obtain ⟨h1, _⟩ := varint_ok hv
    split at h
    · rename_i e3 r3 hs
      obtain ⟨k1, k2⟩ := skipBytes_fail hs
      simp only [Step.fail.injEq] at h
      exact ⟨by rw [← h.2, k1, h1], by rw [← h.1, k2]; decide⟩
    · rename_i p3 r3 hs
      obtain ⟨k1, _⟩ := skipBytes_ok hs
      split at h
      · rename_i e4 r4 hbs
        obtain ⟨b1, b2⟩ := readBytes_fail _ _ _ _ _ _ hbs
        simp only [Step.fail.injEq] at h
        exact ⟨by rw [← h.2, b1, k1, h1], by rw [← h.1]; exact b2⟩
      · simp at h

end Pbf

namespace Geometry

theorem readPair_ok {buf : List UInt8} {g g1 : Geometry} {r r1 : Run}
    (h : readPair buf g r = Step.ok g1 r1) :
    r1.lineVertex = r.lineVertex ∧ g.data.data < g1.data.data ∧ g1.data.fin = g.data.fin := by
  unfold readPair at h
  split at h
  · simp at h
  · rename_i dx p1 r2 hx
    obtain ⟨a1, a2, a3, a4⟩ := Pbf.varint_ok hx
    split at h
    · simp at h
    · rename_i dy p2 r3 hy
      obtain ⟨b1, b2, b3, b4⟩ := Pbf.varint_ok hy
      simp only [Step.ok.injEq] at h
      obtain ⟨hg, hr⟩ := h
      subst hg hr
      exact ⟨by rw [b1, a1], by simp only []; omega, by simp only []; rw [b4, a4]⟩

theorem readPair_fail {buf : List UInt8} {g : Geometry} {r r1 : Run} {e : Fault}
    (h : readPair buf g r = Step.fail e r1) :
    r1.lineVertex = r.lineVertex ∧ e ≠ Fault.exhausted := by
  unfold readPair at h
  split at h
  · rename_i e2 r2 hx
    simp only [Step.fail.injEq] at h
    obtain ⟨he, hr⟩ := h
    subst he hr
    exact Pbf.varint_fail hx
  · rename_i dx p1 r2 hx
    obtain ⟨a1, _⟩ := Pbf.varint_ok hx
    split at h
    · rename_i e3 r3 hy
      obtain ⟨b1, b2⟩ := Pbf.varint_fail hy
      simp only [Step.fail.injEq] at h
      obtain ⟨he, hr⟩ := h
      subst he hr
      exact ⟨by rw [b1, a1], b2⟩
    · simp at h

theorem next_spec (buf : List UInt8) :
    ∀ (fuel : Nat) (g : Geometry) (r : Run), g.data.fin - g.data.data + 1 ≤ fuel →
      (∀ cmd g1 r1, next buf fuel g r = Step.ok (cmd, g1) r1 →
        r1.lineVertex = r.lineVertex ∧ g1.data.fin = g.data.fin ∧
        (cmd ≠ Command.finished → g.data.data < g.data.fin ∧ g.data.data < g1.data.data)) ∧
      (∀ e r1, next buf fuel g r = Step.fail e r1 →
        r1.lineVertex = r.lineVertex ∧ e ≠ Fault.exhausted) := by
  intro fuel
  induction fuel with
  | zero => intro g r hf; omega
  | succ n ih =>
    intro g r hf
    constructor
    · intro cmd g1 r1 h
      simp only [next] at h
      split at h
      · simp only [Step.ok.injEq, Prod.mk.injEq] at h
        obtain ⟨⟨hc, hg⟩, hr⟩ := h
        subst hc hg hr
        exact ⟨rfl, rfl, fun hne => absurd rfl hne⟩
      · rename_i hlt
        split at h
        · split at h
          · simp at h
          · rename_i v p1 r2 hv
            obtain ⟨a1, a2, a3, a4⟩ := Pbf.varint_ok hv
            split at h
            · obtain ⟨c1, c2, c3⟩ := (ih _ _ (by simp only []; omega)).1 _ _ _ h
              exact ⟨by rw [c1, a1], by rw [c2]; exact a4, fun hne => ⟨by omega, by
                have := (c3 hne).2
                simp only [] at this
                omega⟩⟩
            · split at h
              · split at h
                · obtain ⟨c1, c2, c3⟩ := (ih _ _ (by simp only []; omega)).1 _ _ _ h
                  exact ⟨by rw [c1, a1], by rw [c2]; exact a4, fun hne => ⟨by omega, by
                    have := (c3 hne).2
                    simp only [] at this
                    omega⟩⟩
                · split at h
                  · simp at h
                  · rename_i g2 r3 hp
                    obtain ⟨b1, b2, b3⟩ := readPair_ok hp
                    simp only [Step.ok.injEq, Prod.mk.injEq] at h
                    obtain ⟨⟨hc, hg⟩, hr⟩ := h
                    subst hc hg hr
                    exact ⟨by rw [b1, a1], by rw [b3]; exact a4, fun _ => ⟨by omega, by
                      simp only [] at b2; omega⟩⟩
              · simp only [Step.ok.injEq, Prod.mk.injEq] at h
                obtain ⟨⟨hc, hg⟩, hr⟩ := h
                subst hc hg hr
                exact ⟨a1, a4, fun hne => absurd rfl hne⟩
        · split at h
          · simp at h
          · rename_i g2 r3 hp
            obtain ⟨b1, b2, b3⟩ := readPair_ok hp
            simp only [Step.ok.injEq, Prod.mk.injEq] at h
            obtain ⟨⟨hc, hg⟩, hr⟩ := h
            subst hc hg hr
            exact ⟨b1, b3, fun _ => ⟨by omega, b2⟩⟩
    · intro e r1 h
      simp only [next] at h
      split at h
      · simp at h
      · rename_i hlt
        split at h
        · split at h
          · rename_i e2 r2 hv
            simp only [Step.fail.injEq] at h
            obtain ⟨he, hr⟩ := h
            subst he hr
            exact Pbf.varint_fail hv
          · rename_i v p1 r2 hv
            obtain ⟨a1, a2, a3, a4⟩ := Pbf.varint_ok hv
            split at h
            · obtain ⟨c1, c2⟩ := (ih _ _ (by simp only []; omega)).2 _ _ h
              exact ⟨by rw [c1, a1], c2⟩
            · split at h
              · split at h
                · obtain ⟨c1, c2⟩ := (ih _ _ (by simp only []; omega)).2 _ _ h
                  exact ⟨by rw [c1, a1], c2⟩
                · split at h
                  · rename_i e3 r3 hp
                    obtain ⟨b1, b2⟩ := readPair_fail hp
                    simp only [Step.fail.injEq] at h
                    obtain ⟨he, hr⟩ := h
                    subst he hr
                    exact ⟨by rw [b1, a1], b2⟩
                  · simp at h
              · simp at h
        · split at h
          · rename_i e3 r3 hp
            obtain ⟨b1, b2⟩ := readPair_fail hp
            simp only [Step.fail.injEq] at h
            obtain ⟨he, hr⟩ := h
            subst he hr
            exact ⟨b1, b2⟩
          · simp at h

end Geometry

theorem Step.grows_fail {α : Type} (r r1 : Run) (e : Fault)
    (h : r1.lineVertex = r.lineVertex) (he : e ≠ Fault.exhausted) :
    Step.grows r (Step.fail e r1 : Step α) :=
  ⟨⟨[], by rw [h, List.append_nil]⟩, he⟩

theorem Step.grows_ok {α : Type} (r r1 : Run) (a : α) (h : r1.lineVertex = r.lineVertex) :
    Step.grows r (Step.ok a r1) :=
  ⟨[], by rw [h, List.append_nil]⟩

namespace Tile

theorem loadGeometryLoop_grows (buf : List UInt8) :
    ∀ (fuel : Nat) (g : Geometry) (r : Run), g.data.fin - g.data.data + 1 ≤ fuel →
      Step.grows r (loadGeometryLoop buf fuel g r) := by
  intro fuel
  induction fuel with
  | zero => intro g r hf; omega
  | succ n ih =>
    intro g r hf
    have hs := Geometry.next_spec buf _ g r (le_refl _)
    simp only [loadGeometryLoop]
    split
    · rename_i e r1 hn
      obtain ⟨h1, h2⟩ := hs.2 _ _ hn
      exact Step.grows_fail _ _ _ h1 h2
    · rename_i cmd g1 r1 hn
      obtain ⟨h1, h2, h3⟩ := hs.1 _ _ _ hn
      split
      · rename_i hne
        obtain ⟨h4, h5⟩ := h3 hne
        apply Step.grows_trans r _ _ _ (ih _ _ (by omega))
        by_cases hm : cmd = Command.move_to
        · exact ⟨[Vertex.degenerate, Vertex.coordinate g1.x g1.y], by
            simp [hm, Run.addCoordinate, Run.addDegenerate, h1]⟩
        · exact ⟨[Vertex.coordinate g1.x g1.y], by
            simp [hm, Run.addCoordinate, h1]⟩
      · exact Step.grows_ok _ _ _ h1

theorem loadGeometry_grows (buf : List UInt8) (data bytes : Nat) (r : Run) :
    Step.grows r (loadGeometry buf data bytes r) := by
  unfold loadGeometry
  apply loadGeometryLoop_grows
  simp [Geometry.over, Pbf.over]

theorem tagListLoop_spec (buf : List UInt8) (tag_end : Nat) :
    ∀ (fuel : Nat) (p : Pbf) (r : Run), p.fin - p.data + 1 ≤ fuel →
      (∀ p1 r1, tagListLoop buf tag_end fuel p r = Step.ok p1 r1 →
        r1.lineVertex = r.lineVertex ∧ p.data ≤ p1.data ∧ p1.fin = p.fin) ∧
      (∀ e r1, tagListLoop buf tag_end fuel p r = Step.fail e r1 →
        r1.lineVertex = r.lineVertex ∧ e ≠ Fault.exhausted) := by
  intro fuel
  induction fuel with
  | zero => intro p r hf; omega
  | succ n ih =>
    intro p r hf
    constructor
    · intro p1 r1 h
      simp only [tagListLoop] at h
      split at h
      · split at h
        · simp at h
        · rename_i v f1 r2 hv
          obtain ⟨a1, a2, a3, a4⟩ := Pbf.varint_ok hv
          split at h
          · simp at h
          · rename_i v2 f2 r3 hv2
            obtain ⟨b1, b2, b3, b4⟩ := Pbf.varint_ok hv2
            obtain ⟨c1, c2, c3⟩ := (ih f2 r3 (by omega)).1 _ _ h
            exact ⟨by rw [c1, b1, a1], by omega, by rw [c3, b4, a4]⟩
      · simp only [Step.ok.injEq] at h
        obtain ⟨hp, hr⟩ := h
        subst hp hr
        exact ⟨rfl, le_refl _, rfl⟩
    · intro e r1 h
      simp only [tagListLoop] at h
      split at h
      · split at h
        · rename_i e2 r2 hv
          simp only [Step.fail.injEq] at h
          obtain ⟨he, hr⟩ := h
          subst he hr
          exact Pbf.varint_fail hv
        · rename_i v f1 r2 hv
          obtain ⟨a1, a2, a3, a4⟩ := Pbf.varint_ok hv
          split at h
          · rename_i e3 r3 hv2
            obtain ⟨b1, b2⟩ := Pbf.varint_fail hv2
            simp only [Step.fail.injEq] at h
            obtain ⟨he, hr⟩ := h
            subst he hr
            exact ⟨by rw [b1, a1], b2⟩
          · rename_i v2 f2 r3 hv2
            obtain ⟨b1, b2, b3, b4⟩ := Pbf.varint_ok hv2
            obtain ⟨c1, c2⟩ := (ih f2 r3 (by omega)).2 _ _ h
            exact ⟨by rw [c1, b1, a1], c2⟩
      · simp at h

theorem parseFeatureLoop_grows (dataFirst : Bool) (buf : List UInt8) :
    ∀ (fuel : Nat) (p : Pbf) (r : Run), p.fin - p.data + 1 ≤ fuel →
      Step.grows r (parseFeatureLoop dataFirst buf fuel p r) := by
  intro fuel
  induction fuel with
  | zero => intro p r hf; omega
  | succ n ih =>
    intro p r hf
    simp only [parseFeatureLoop]
    split
    · rename_i e r1 hn
      obtain ⟨h1, h2⟩ := Pbf.next_fail hn
      exact Step.grows_fail _ _ _ h1 h2
    · rename_i r1 hn
      exact Step.grows_ok _ _ _ (Pbf.next_ok hn).1
    · rename_i f1 r1 hn
      obtain ⟨h1, h2, h3, _⟩ := Pbf.next_ok hn
      obtain ⟨h4, h5, h6⟩ := h3 rfl
      split
      · split
        · rename_i e2 r2 hv
          obtain ⟨a1, a2⟩ := Pbf.varint_fail hv
          exact Step.grows_fail _ _ _ (by rw [a1, h1]) a2
        · rename_i v f2 r2 hv
          obtain ⟨a1, a2, a3, a4⟩ := Pbf.varint_ok hv
          exact Step.grows_of_eq _ _ _ (by rw [a1, h1]) (ih _ _ (by omega))
      · split
        · split
          · rename_i e2 r2 hv
            obtain ⟨a1, a2⟩ := Pbf.varint_fail hv
            exact Step.grows_fail _ _ _ (by rw [a1, h1]) a2
          · rename_i v f2 r2 hv
            obtain ⟨a1, a2, a3, a4⟩ := Pbf.varint_ok hv
            have ht := tagListLoop_spec buf ((if dataFirst then f1.data else f2.data) + v)
              (f2.fin - f2.data + 1) f2 r2 (le_refl _)
            split
            · rename_i e3 r3 hl
              obtain ⟨b1, b2⟩ := ht.2 _ _ hl
              exact Step.grows_fail _ _ _ (by rw [b1, a1, h1]) b2
            · rename_i f3 r3 hl
              obtain ⟨b1, b2, b3⟩ := ht.1 _ _ hl
              exact Step.grows_of_eq _ _ _ (by rw [b1, a1, h1]) (ih _ _ (by omega))
        · split
          · split
            · rename_i e2 r2 hv
              obtain ⟨a1, a2⟩ := Pbf.varint_fail hv
              exact Step.grows_fail _ _ _ (by rw [a1, h1]) a2
            · rename_i v f2 r2 hv
              obtain ⟨a1, a2, a3, a4⟩ := Pbf.varint_ok hv
              exact Step.grows_of_eq _ _ _ (by rw [a1, h1]) (ih _ _ (by omega))
          · split
            · split
              · rename_i e2 r2 hv
                obtain ⟨a1, a2⟩ := Pbf.varint_fail hv
                exact Step.grows_fail _ _ _ (by rw [a1, h1]) a2
              · rename_i v f2 r2 hv
                obtain ⟨a1, a2, a3, a4⟩ := Pbf.varint_ok hv
                have hg := loadGeometry_grows buf f2.data (v % 4294967296) r2
                split
                · rename_i e3 r3 hl
                  rw [hl] at hg
                  exact Step.grows_of_eq _ _ _ (by rw [a1, h1]) hg
                · rename_i u r3 hl
                  rw [hl] at hg
                  have hg2 : ∃ vs, r3.lineVertex = r.lineVertex ++ vs := by
                    obtain ⟨vs, hvs⟩ := hg
                    exact ⟨vs, by rw [hvs, a1, h1]⟩
                  split
                  · rename_i e4 r4 hs
                    obtain ⟨b1, b2⟩ := Pbf.skipBytes_fail hs
                    apply Step.grows_trans r r3 _ hg2
                    exact Step.grows_fail _ _ _ (by rw [b1]) (by rw [b2]; decide)
                  · rename_i f3 r4 hs
                    obtain ⟨b1, b2, b3, b4⟩ := Pbf.skipBytes_ok hs
                    apply Step.grows_trans r r3 _ hg2
                    rw [b1]
                    exact ih _ _ (by omega)
            · split
              · rename_i e2 r2 hv
                obtain ⟨a1, a2⟩ := Pbf.skip_fail hv
                exact Step.grows_fail _ _ _ (by rw [a1, h1]) a2
              · rename_i f2 r2 hv
                obtain ⟨a1, a2, a3⟩ := Pbf.skip_ok hv
                exact Step.grows_of_eq _ _ _ (by rw [a1, h1]) (ih _ _ (by omega))

theorem parseFeature_grows (dataFirst : Bool) (buf : List UInt8) (data bytes : Nat) (r : Run) :
    Step.grows r (parseFeature dataFirst buf data bytes r) := by
  unfold parseFeature
  apply parseFeatureLoop_grows
  simp [Pbf.over]

theorem parseLayerLoop_grows (dataFirst : Bool) (buf : List UInt8) :
    ∀ (fuel : Nat) (p : Pbf) (r : Run), p.fin - p.data + 1 ≤ fuel →
      Step.grows r (parseLayerLoop dataFirst buf fuel p r) := by
  intro fuel
  induction fuel with
  | zero => intro p r hf; omega
  | succ n ih =>
    intro p r hf
    simp only [parseLayerLoop]
    split
    · rename_i e r1 hn
      obtain ⟨h1, h2⟩ := Pbf.next_fail hn
      exact Step.grows_fail _ _ _ h1 h2
    · rename_i r1 hn
      exact Step.grows_ok _ _ _ (Pbf.next_ok hn).1
    · rename_i l1 r1 hn
      obtain ⟨h1, h2, h3, _⟩ := Pbf.next_ok hn
      obtain ⟨h4, h5, h6⟩ := h3 rfl
      split
      · split
        · rename_i e2 r2 hv
          obtain ⟨a1, a2⟩ := Pbf.string_fail hv
          exact Step.grows_fail _ _ _ (by rw [a1, h1]) a2
        · rename_i bs l2 r2 hv
          obtain ⟨a1, a2, a3⟩ := Pbf.string_ok hv
          exact Step.grows_of_eq _ _ _ (by rw [a1, h1]) (ih _ _ (by omega))
      · split
        · split
          · rename_i e2 r2 hv
            obtain ⟨a1, a2⟩ := Pbf.varint_fail hv
            exact Step.grows_fail _ _ _ (by rw [a1, h1]) a2
          · rename_i v l2 r2 hv
            obtain ⟨a1, a2, a3, a4⟩ := Pbf.varint_ok hv
            have hg := parseFeature_grows dataFirst buf l2.data (v % 4294967296) r2
            split
            · rename_i e3 r3 hl
              rw [hl] at hg
              exact Step.grows_of_eq _ _ _ (by rw [a1, h1]) hg
            · rename_i u r3 hl
              rw [hl] at hg
              have hg2 : ∃ vs, r3.lineVertex = r.lineVertex ++ vs := by
                obtain ⟨vs, hvs⟩ := hg
                exact ⟨vs, by rw [hvs, a1, h1]⟩
              split
              · rename_i e4 r4 hs
                obtain ⟨b1, b2⟩ := Pbf.skipBytes_fail hs
                apply Step.grows_trans r r3 _ hg2
                exact Step.grows_fail _ _ _ (by rw [b1]) (by rw [b2]; decide)
              · rename_i l3 r4 hs
                obtain ⟨b1, b2, b3, b4⟩ := Pbf.skipBytes_ok hs
                apply Step.grows_trans r r3 _ hg2
                rw [b1]
                exact ih _ _ (by omega)
        · split
          · rename_i e2 r2 hv
            obtain ⟨a1, a2⟩ := Pbf.skip_fail hv
            exact Step.grows_fail _ _ _ (by rw [a1, h1]) a2
          · rename_i l2 r2 hv
            obtain ⟨a1, a2, a3⟩ := Pbf.skip_ok hv
            exact Step.grows_of_eq _ _ _ (by rw [a1, h1]) (ih _ _ (by omega))

theorem parseLayer_grows (dataFirst : Bool) (buf : List UInt8) (data bytes : Nat) (r : Run) :
    Step.grows r (parseLayer dataFirst buf data bytes r) := by
  unfold parseLayer
  apply parseLayerLoop_grows
  simp [Pbf.over]

theorem parseLoop_grows (dataFirst : Bool) (buf : List UInt8) :
    ∀ (fuel : Nat) (p : Pbf) (r : Run), p.fin - p.data + 1 ≤ fuel →
      Step.grows r (parseLoop dataFirst buf fuel p r) := by
  intro fuel
  induction fuel with
  | zero => intro p r hf; omega
  | succ n ih =>
    intro p r hf
    simp only [parseLoop]
    split
    · rename_i e r1 hn
      obtain ⟨h1, h2⟩ := Pbf.next_fail hn
      exact Step.grows_fail _ _ _ h1 h2
    · rename_i r1 hn
      exact Step.grows_ok _ _ _ (Pbf.next_ok hn).1
    · rename_i t1 r1 hn
      obtain ⟨h1, h2, h3, _⟩ := Pbf.next_ok hn
      obtain ⟨h4, h5, h6⟩ := h3 rfl
      split
      · split
        · rename_i e2 r2 hv
          obtain ⟨a1, a2⟩ := Pbf.varint_fail hv
          exact Step.grows_fail _ _ _ (by rw [a1, h1]) a2
        · rename_i v t2 r2 hv
          obtain ⟨a1, a2, a3, a4⟩ := Pbf.varint_ok hv
          have hg := parseLayer_grows dataFirst buf t2.data (v % 4294967296) r2
          split
          · rename_i e3 r3 hl
            rw [hl] at hg
            exact Step.grows_of_eq _ _ _ (by rw [a1, h1]) hg
          · rename_i u r3 hl
            rw [hl] at hg
            have hg2 : ∃ vs, r3.lineVertex = r.lineVertex ++ vs := by
              obtain ⟨vs, hvs⟩ := hg
              exact ⟨vs, by rw [hvs, a1, h1]⟩
            split
            · rename_i e4 r4 hs
              obtain ⟨b1, b2⟩ := Pbf.skipBytes_fail hs
              apply Step.grows_trans r r3 _ hg2
              exact Step.grows_fail _ _ _ (by rw [b1]) (by rw [b2]; decide)
            · rename_i t3 r4 hs
              obtain ⟨b1, b2, b3, b4⟩ := Pbf.skipBytes_ok hs
              apply Step.grows_trans r r3 _ hg2
              rw [b1]
              exact ih _ _ (by omega)
      · split
        · rename_i e2 r2 hv
          obtain ⟨a1, a2⟩ := Pbf.skip_fail hv
          exact Step.grows_fail _ _ _ (by rw [a1, h1]) a2
        · rename_i t2 r2 hv
          obtain ⟨a1, a2, a3⟩ := Pbf.skip_ok hv
          exact Step.grows_of_eq _ _ _ (by rw [a1, h1]) (ih _ _ (by omega))

theorem decode_grows (dataFirst : Bool) (t : Tile) :
    Step.grows { lineVertex := t.lineVertex, reads := [] } (decode dataFirst t) := by
  unfold decode
  apply parseLoop_grows
  simp [Pbf.over]

theorem decode_not_exhausted (dataFirst : Bool) (t : Tile) (r : Run) :
    decode dataFirst t ≠ Step.fail Fault.exhausted r := by
  intro h
  have hg := decode_grows dataFirst t
  rw [h] at hg
  exact hg.2 rfl

theorem parse_not_exhausted (dataFirst : Bool) (t : Tile) :
    parse dataFirst t ≠ ParseResult.exhausted := by
  unfold parse
  split
  · simp
  · split
    · simp only [cancel]
      split <;> simp
    · simp
    · rename_i r hd
      exact absurd hd (decode_not_exhausted dataFirst t r)
    · simp

end Tile

/-! ## Lifecycle and decoding claims -/

namespace Tile

/-- C5: for a tile in state `initial` (run single-threaded), `parse` returns
`true` and leaves the state `ready` exactly when the decoding of the whole
buffer completes, and returns `false` and leaves the state `obsolete` exactly
when the decoding hits a decode abort (at whatever depth of the nested passes);
the call never fails to come to a result for lack of iterations. -/
theorem parse_initial (dataFirst : Bool) (t : Tile) (h : t.state = TileState.initial) :
    (∀ r, decode dataFirst t = Step.ok () r →
      parse dataFirst t = ParseResult.returned true
        { t with lineVertex := r.lineVertex, state := TileState.ready } r.reads) ∧
    (∀ r, decode dataFirst t = Step.fail Fault.abort r →
      parse dataFirst t = ParseResult.returned false
        { t with lineVertex := r.lineVertex, state := TileState.obsolete } r.reads) ∧
    (∀ t1 rd, parse dataFirst t = ParseResult.returned true t1 rd →
      t1.state = TileState.ready ∧ ∃ r, decode dataFirst t = Step.ok () r) ∧
    (∀ t1 rd, parse dataFirst t = ParseResult.returned false t1 rd →
      t1.state = TileState.obsolete ∧ ∃ r, decode dataFirst t = Step.fail Fault.abort r) ∧
    parse dataFirst t ≠ ParseResult.exhausted := by
  have hne : t.state ≠ TileState.obsolete := by rw [h]; decide
  refine ⟨fun r hd => parse_of_ok dataFirst t hne r hd,
    fun r hd => parse_of_abort dataFirst t hne r hd, ?_, ?_, parse_not_exhausted dataFirst t⟩
  · intro t1 rd hp
    obtain ⟨r, hr⟩ := (decode_of_parse_returned dataFirst t hne true t1 rd hp).1 rfl
    refine ⟨?_, r, hr⟩
    rw [parse_of_ok dataFirst t hne r hr] at hp
    simp only [ParseResult.returned.injEq] at hp
    rw [← hp.2.1]
  · intro t1 rd hp
    obtain ⟨r, hr⟩ := (decode_of_parse_returned dataFirst t hne false t1 rd hp).2 rfl
    refine ⟨?_, r, hr⟩
    rw [parse_of_abort dataFirst t hne r hr] at hp
    simp only [ParseResult.returned.injEq] at hp
    rw [← hp.2.1]

/-- Witness of C5: the one-vertex buffer decodes completely, `parse` returns
`true` with state `ready`; the same buffer followed by a field without value
aborts, `parse` returns `false` with state `obsolete`. -/
theorem parse_initial_witness :
    (withData bufferOneVertex).state = TileState.initial ∧
    parse true (withData bufferOneVertex) = ParseResult.returned true
      { withData bufferOneVertex with
        lineVertex := [Vertex.degenerate, Vertex.coordinate 10 10],
        state := TileState.ready } [0, 1, 2, 3, 4, 5, 6, 7, 8] ∧
    parse true (withData bufferAbortAfterGeometry) = ParseResult.returned false
      { withData bufferAbortAfterGeometry with
        lineVertex := [Vertex.degenerate, Vertex.coordinate 10 10],
        state := TileState.obsolete } [0, 1, 2, 3, 4, 5, 6, 7, 8, 9] :=
  ⟨rfl,
    (parse_initial true (withData bufferOneVertex) rfl).1
      { lineVertex := [Vertex.degenerate, Vertex.coordinate 10 10],
        reads := [0, 1, 2, 3, 4, 5, 6, 7, 8] } (by decide),
    (parse_initial true (withData bufferAbortAfterGeometry) rfl).2.1
      { lineVertex := [Vertex.degenerate, Vertex.coordinate 10 10],
        reads := [0, 1, 2, 3, 4, 5, 6, 7, 8, 9] } (by decide)⟩

/-- C6 (as amended): when the decoding hits a decode abort, `parse` returns
`false` and leaves the state `obsolete`, and the vertex buffer is not cleared:
it is the buffer the passes had built up to the abort, which still starts with
everything it held before the call.  It holds zero vertices only when it was
empty before the call and no vertex was decoded before the abort. -/
theorem parse_abort_vertices (dataFirst : Bool) (t : Tile) (h : t.state ≠ TileState.obsolete)
    (r : Run) (hd : decode dataFirst t = Step.fail Fault.abort r) :
    parse dataFirst t = ParseResult.returned false
      { t with lineVertex := r.lineVertex, state := TileState.obsolete } r.reads ∧
    (∃ vs, r.lineVertex = t.lineVertex ++ vs) ∧
    (r.lineVertex = [] → t.lineVertex = []) := by
  have hg := decode_grows dataFirst t
  rw [hd] at hg
  obtain ⟨⟨vs, hvs⟩, _⟩ := hg
  refine ⟨parse_of_abort dataFirst t h r hd, ⟨vs, hvs⟩, ?_⟩
  intro hnil
  rw [hnil] at hvs
  exact (List.append_eq_nil.mp hvs.symm).1

/-- Witness of C6 (as amended): a feature whose tag-list is cut short by the
end of the feature, with no geometry before it: `parse` returns `false`, the
state is `obsolete` and the vertex buffer holds zero vertices. -/
theorem parse_abort_vertices_witness :
    (withData bufferTagListCut).state ≠ TileState.obsolete ∧
    parse true (withData bufferTagListCut) = ParseResult.returned false
      { withData bufferTagListCut with lineVertex := [], state := TileState.obsolete }
      [0, 1, 2, 3, 4, 5, 6, 7] :=
  ⟨by decide,
    (parse_abort_vertices true (withData bufferTagListCut) (by decide)
      { lineVertex := [], reads := [0, 1, 2, 3, 4, 5, 6, 7] } (by decide)).1⟩

/-- C6 fails as stated: on a buffer whose layer decodes a move-to (10, 10) and
whose next top-level field has no value, `parse` hits a decode abort, returns
`false` with state `obsolete`, and the vertex buffer holds the marker and the
vertex decoded before the abort, not zero vertices (for either order of
evaluation in the tag-list expression). -/
theorem parse_abort_retains_vertices :
    (withData bufferAbortAfterGeometry).state = TileState.initial ∧
    (withData bufferAbortAfterGeometry).lineVertex = [] ∧
    parse true (withData bufferAbortAfterGeometry) = ParseResult.returned false
      { withData bufferAbortAfterGeometry with
        lineVertex := [Vertex.degenerate, Vertex.coordinate 10 10],
        state := TileState.obsolete } [0, 1, 2, 3, 4, 5, 6, 7, 8, 9] ∧
    parse false (withData bufferAbortAfterGeometry) = ParseResult.returned false
      { withData bufferAbortAfterGeometry with
        lineVertex := [Vertex.degenerate, Vertex.coordinate 10 10],
        state := TileState.obsolete } [0, 1, 2, 3, 4, 5, 6, 7, 8, 9] := by
  refine ⟨rfl, rfl, ?_, ?_⟩ <;> decide

/-- C7: `parse` on a tile whose state is `obsolete` returns `false` at once and
changes nothing: the tile is returned as it was (state `obsolete`, same raw
buffer, same vertex buffer) and no byte of the buffer has been read.  In
particular this is what `parse` does after `cancel` was invoked on a tile that
was not yet obsolete. -/
theorem parse_obsolete_noop (dataFirst : Bool) (t : Tile) :
    (t.state = TileState.obsolete → parse dataFirst t = ParseResult.returned false t []) ∧
    (t.state ≠ TileState.obsolete → ∃ t1, cancel t = some t1 ∧
      t1.state = TileState.obsolete ∧ t1.data = t.data ∧ t1.lineVertex = t.lineVertex ∧
      parse dataFirst t1 = ParseResult.returned false t1 []) := by
  refine ⟨parse_of_obsolete dataFirst t, ?_⟩
  intro h
  refine ⟨{ t with state := TileState.obsolete }, ?_, rfl, rfl, rfl,
    parse_of_obsolete dataFirst _ rfl⟩
  unfold cancel
  rw [if_pos h]

/-- Witness of C7: a tile holding the one-vertex buffer, cancelled before
`parse`. -/
theorem parse_obsolete_noop_witness :
    parse true { withData bufferOneVertex with state := TileState.obsolete } =
      ParseResult.returned false
        { withData bufferOneVertex with state := TileState.obsolete } [] ∧
    ∃ t1, cancel (withData bufferOneVertex) = some t1 ∧
      t1.state = TileState.obsolete ∧ t1.data = (withData bufferOneVertex).data ∧
      t1.lineVertex = (withData bufferOneVertex).lineVertex ∧
      parse true t1 = ParseResult.returned false t1 [] :=
  ⟨(parse_obsolete_noop true
      { withData bufferOneVertex with state := TileState.obsolete }).1 rfl,
    (parse_obsolete_noop true (withData bufferOneVertex)).2 (by decide)⟩

/-- C8 (as amended): `ready` is not terminal.  On a tile whose state is `ready`,
`cancel` moves the state to `obsolete`; `parse` decodes the buffer again and
keeps the state `ready` when the decoding completes, and moves it to `obsolete`
on a decode abort.  No operation brings a ready tile back to `initial`. -/
theorem ready_transitions (dataFirst : Bool) (t : Tile) (h : t.state = TileState.ready) :
    cancel t = some { t with state := TileState.obsolete } ∧
    (∀ r, decode dataFirst t = Step.ok () r →
      parse dataFirst t = ParseResult.returned true
        { t with lineVertex := r.lineVertex, state := TileState.ready } r.reads) ∧
    (∀ r, decode dataFirst t = Step.fail Fault.abort r →
      parse dataFirst t = ParseResult.returned false
        { t with lineVertex := r.lineVertex, state := TileState.obsolete } r.reads) ∧
    (∀ b t1 rd, parse dataFirst t = ParseResult.returned b t1 rd →
      t1.state ≠ TileState.initial) := by
  have hne : t.state ≠ TileState.obsolete := by rw [h]; decide
  refine ⟨?_, fun r hd => parse_of_ok dataFirst t hne r hd,
    fun r hd => parse_of_abort dataFirst t hne r hd, ?_⟩
  · unfold cancel
    rw [if_pos hne]
  · intro b t1 rd hp
    cases b with
    | true =>
      obtain ⟨r, hr⟩ := (decode_of_parse_returned dataFirst t hne true t1 rd hp).1 rfl
      rw [parse_of_ok dataFirst t hne r hr] at hp
      simp only [ParseResult.returned.injEq] at hp
      rw [← hp.2.1]
      simp
    | false =>
      obtain ⟨r, hr⟩ := (decode_of_parse_returned dataFirst t hne false t1 rd hp).2 rfl
      rw [parse_of_abort dataFirst t hne r hr] at hp
      simp only [ParseResult.returned.injEq] at hp
      rw [← hp.2.1]
      simp

/-- Witness of C8 (as amended): a ready tile holding the one-vertex buffer. -/
theorem ready_transitions_witness :
    cancel { withData bufferOneVertex with state := TileState.ready } =
      some { withData bufferOneVertex with state := TileState.obsolete } ∧
    parse true { withData bufferOneVertex with state := TileState.ready } =
      ParseResult.returned true
        { withData bufferOneVertex with
          lineVertex := [Vertex.degenerate, Vertex.coordinate 10 10],
          state := TileState.ready } [0, 1, 2, 3, 4, 5, 6, 7, 8] :=
  ⟨(ready_transitions true { withData bufferOneVertex with state := TileState.ready } rfl).1,
    (ready_transitions true { withData bufferOneVertex with state := TileState.ready } rfl).2.1
      { lineVertex := [Vertex.degenerate, Vertex.coordinate 10 10],
        reads := [0, 1, 2, 3, 4, 5, 6, 7, 8] } (by decide)⟩

/-- C8 fails as stated: `cancel` on a ready tile moves its state to `obsolete`;
and a tile that became ready by `parse` before it was given its data, and is
then given a buffer that aborts, is moved to `obsolete` by `parse`. -/
theorem ready_not_terminal :
    (∃ t1, cancel { withData bufferOneVertex with state := TileState.ready } = some t1 ∧
      t1.state = TileState.obsolete) ∧
    (∃ t1 rd, parse true (create { x := 0, y := 0, z := 0 }) = ParseResult.returned true t1 rd ∧
      t1.state = TileState.ready ∧
      ∃ t2 rd2, parse true (setData t1 bufferAbortAfterGeometry)
          = ParseResult.returned false t2 rd2 ∧
        t2.state = TileState.obsolete) := by
  refine ⟨⟨{ withData bufferOneVertex with state := TileState.obsolete }, by decide, rfl⟩,
    { create { x := 0, y := 0, z := 0 } with state := TileState.ready }, [], by decide, rfl,
    { withData bufferAbortAfterGeometry with
      lineVertex := [Vertex.degenerate, Vertex.coordinate 10 10],
      state := TileState.obsolete }, [0, 1, 2, 3, 4, 5, 6, 7, 8, 9], by decide, rfl⟩

/-- C9: `cancel` on a tile in state `initial` sets the state to `obsolete`;
`cancel` on a tile already `obsolete` trips the assertion instead of returning;
and `parse` on an obsolete tile returns the tile as it was: neither operation
moves the state out of `obsolete`. -/
theorem obsolete_terminal (dataFirst : Bool) (t : Tile) :
    (t.state = TileState.initial → cancel t = some { t with state := TileState.obsolete }) ∧
    (t.state = TileState.obsolete → cancel t = none) ∧
    (t.state = TileState.obsolete → parse dataFirst t = ParseResult.returned false t []) := by
  refine ⟨?_, ?_, parse_of_obsolete dataFirst t⟩
  · intro h
    unfold cancel
    rw [if_pos (by rw [h]; decide)]
  · intro h
    unfold cancel
    rw [if_neg (by rw [h]; decide)]

/-- Witness of C9: a fresh tile, and the same tile once obsolete. -/
theorem obsolete_terminal_witness :
    cancel (withData bufferOneVertex) =
      some { withData bufferOneVertex with state := TileState.obsolete } ∧
    cancel { withData bufferOneVertex with state := TileState.obsolete } = none ∧
    parse true { withData bufferOneVertex with state := TileState.obsolete } =
      ParseResult.returned false
        { withData bufferOneVertex with state := TileState.obsolete } [] :=
  ⟨(obsolete_terminal true (withData bufferOneVertex)).1 rfl,
    (obsolete_terminal true
      { withData bufferOneVertex with state := TileState.obsolete }).2.1 rfl,
    (obsolete_terminal true
      { withData bufferOneVertex with state := TileState.obsolete }).2.2 rfl⟩

end Tile

/-! ## Further quadtree claims -/

namespace Tile

/-- C15: for a tile with non-negative x and y and a zoom `z < id.z`, the halving
loop of `parent` equals the closed form: x and y divided (rounding down) by
`2^(id.z - z)`, at zoom `z`. -/
theorem parent_closed_form (id : ID) (z : Int) (hx : 0 ≤ id.x) (hy : 0 ≤ id.y) (hz : z < id.z) :
    parent id z = some { x := Int.floor ((id.x : ℚ) / 2 ^ (id.z - z).toNat),
                         y := Int.floor ((id.y : ℚ) / 2 ^ (id.z - z).toNat), z := z } ∧
    parent id z = some { x := id.x / 2 ^ (id.z - z).toNat, y := id.y / 2 ^ (id.z - z).toNat,
                         z := z } := by
  have key : ∀ a : Int, Int.floor ((a : ℚ) / 2 ^ (id.z - z).toNat) = a / 2 ^ (id.z - z).toNat := by
    intro a
    have h := Rat.floor_intCast_div_natCast a (2 ^ (id.z - z).toNat)
    simpa using h
  rw [key, key]
  exact ⟨parent_closed id z hz hx hy, parent_closed id z hz hx hy⟩

/-- Witness of C15: the tile (5, 7, 3) and zoom 1. -/
theorem parent_closed_form_witness :
    parent { x := 5, y := 7, z := 3 } 1 =
      some { x := Int.floor (((5 : Int) : ℚ) / 2 ^ ((3 : Int) - 1).toNat),
             y := Int.floor (((7 : Int) : ℚ) / 2 ^ ((3 : Int) - 1).toNat), z := 1 } ∧
    parent { x := 5, y := 7, z := 3 } 1 =
      some { x := 5 / 2 ^ ((3 : Int) - 1).toNat, y := 7 / 2 ^ ((3 : Int) - 1).toNat, z := 1 } :=
  parent_closed_form { x := 5, y := 7, z := 3 } 1 (by decide) (by decide) (by decide)

theorem mem_children_iff_parent (id : ID) (z : Int) (hv : id.valid) (hz : id.z < z)
    (hx : (id.x + 1) * 2 ^ (z - id.z).toNat < 2147483648)
    (hy : (id.y + 1) * 2 ^ (z - id.z).toNat < 2147483648) :
    ∃ cs, children id z = some cs ∧
      ∀ t : ID, t ∈ cs ↔ (t.valid ∧ t.z = z ∧ parent t id.z = some id) := by
  obtain ⟨cs, hcs, _, hmem, _⟩ := children_spec_of_inRange id z hv hz hx hy
  refine ⟨cs, hcs, ?_⟩
  obtain ⟨hz0, hx0, hx1, hy0, hy1⟩ := hv
  have hf : (0 : Int) < 2 ^ (z - id.z).toNat := by positivity
  have hsplit : (2 : Int) ^ z.toNat = 2 ^ id.z.toNat * 2 ^ (z - id.z).toNat := by
    rw [← pow_add]
    congr 1
    omega
  intro t
  rw [hmem t]
  constructor
  · rintro ⟨htz, h1, h2, h3, h4⟩
    have htx : 0 ≤ t.x := le_trans (by positivity) h1
    have hty : 0 ≤ t.y := le_trans (by positivity) h3
    have bx : (id.x + 1) * 2 ^ (z - id.z).toNat ≤ 2 ^ z.toNat := by
      rw [hsplit]
      exact mul_le_mul_of_nonneg_right (by omega) (le_of_lt hf)
    have bY : (id.y + 1) * 2 ^ (z - id.z).toNat ≤ 2 ^ z.toNat := by
      rw [hsplit]
      exact mul_le_mul_of_nonneg_right (by omega) (le_of_lt hf)
    refine ⟨⟨by omega, htx, ?_, hty, ?_⟩, htz, ?_⟩
    · rw [htz]; omega
    · rw [htz]; omega
    · rw [parent_closed t id.z (by omega) htx hty, htz,
        ediv_of_between t.x _ id.x hf h1 h2, ediv_of_between t.y _ id.y hf h3 h4]
  · rintro ⟨⟨_, htx, _, hty, _⟩, htz, hp⟩
    rw [parent_closed t id.z (by omega) htx hty, htz] at hp
    simp only [Option.some.injEq] at hp
    have ex : t.x / 2 ^ (z - id.z).toNat = id.x := by rw [← hp]
    have ey : t.y / 2 ^ (z - id.z).toNat = id.y := by rw [← hp]
    have a1 := Int.ediv_mul_le t.x (ne_of_gt hf)
    have a2 := Int.lt_ediv_add_one_mul_self t.x hf
    have b1 := Int.ediv_mul_le t.y (ne_of_gt hf)
    have b2 := Int.lt_ediv_add_one_mul_self t.y hf
    rw [ex] at a1 a2
    rw [ey] at b1 b2
    exact ⟨htz, a1, a2, b1, b2⟩

/-- C19 (as amended): for a valid tile `id` and a finer zoom `z` at which the
bounds `(id.x + 1) * 2^(z - id.z)` and `(id.y + 1) * 2^(z - id.z)` fit in
`int32_t`, every valid tile `t` at zoom `z` with `parent(t, id.z) = id` is an
element of `children(id, z)`; with the round trip, `children(id, z)` is exactly
the set of valid zoom-`z` tiles whose ancestor at `id.z` is `id`. -/
theorem children_complete (id : ID) (z : Int) (hv : id.valid) (hz : id.z < z)
    (hx : (id.x + 1) * 2 ^ (z - id.z).toNat < 2147483648)
    (hy : (id.y + 1) * 2 ^ (z - id.z).toNat < 2147483648) :
    ∃ cs, children id z = some cs ∧
      (∀ t : ID, t.valid → t.z = z → parent t id.z = some id → t ∈ cs) ∧
      (∀ t : ID, t ∈ cs ↔ (t.valid ∧ t.z = z ∧ parent t id.z = some id)) := by
  obtain ⟨cs, hcs, hiff⟩ := mem_children_iff_parent id z hv hz hx hy
  exact ⟨cs, hcs, fun t h1 h2 h3 => (hiff t).mpr ⟨h1, h2, h3⟩, hiff⟩

/-- Witness of C19 (as amended): the tile (1, 1, 1), zoom 3 and the tile
(5, 6, 3). -/
theorem children_complete_witness :
    ∃ cs, children { x := 1, y := 1, z := 1 } 3 = some cs ∧
      ({ x := 5, y := 6, z := 3 } : ID) ∈ cs :=
  (children_complete { x := 1, y := 1, z := 1 } 3 (by decide) (by decide) (by decide)
    (by decide)).elim
    fun cs h => ⟨cs, h.1, h.2.1 { x := 5, y := 6, z := 3 } (by decide) rfl (by decide)⟩

/-- C19 fails as stated: the tile (2^30 - 1, 0, 30) is valid, 31 is a finer
zoom, the tile (2^31 - 2, 0, 31) is valid, fits `int32_t` and has
(2^30 - 1, 0, 30) as its parent at zoom 30, but `children` returns the empty
list (the loop bound 2^31 wraps), so the tile is not an element of it. -/
theorem children_complete_overflow :
    ID.valid { x := 1073741823, y := 0, z := 30 } ∧
    ID.valid { x := 2147483646, y := 0, z := 31 } ∧
    ID.isInt32 { x := 2147483646, y := 0, z := 31 } ∧
    parent { x := 2147483646, y := 0, z := 31 } 30 = some { x := 1073741823, y := 0, z := 30 } ∧
    ∃ cs, children { x := 1073741823, y := 0, z := 30 } 31 = some cs ∧
      ({ x := 2147483646, y := 0, z := 31 } : ID) ∉ cs := by
  refine ⟨by decide, by decide, by decide, by decide, [], by decide, by simp⟩

end Tile

/-! ## Textual identifier, bounds and termination claims -/

namespace Tile

/-- C14 (as amended): for every tile identifier (x, y, zoom), `toString` returns
exactly the string `[tile <zoom>/<x>/<y>]`: the decimal zoom, x and y in that
order separated by `/`, with `[tile ` before and `]` after.  The bare form
`<zoom>/<x>/<y>` is the debug label of the constructor (cut to 31
characters). -/
theorem toString_eq (t : Tile) :
    toString t = "[tile " ++ Int.repr t.id.z ++ "/" ++ Int.repr t.id.x ++ "/" ++
      Int.repr t.id.y ++ "]" ∧
    debugLabel t.id = String.mk ((Int.repr t.id.z ++ "/" ++ Int.repr t.id.x ++ "/" ++
      Int.repr t.id.y).data.take 31) := by
  constructor
  · apply String.ext
    simp [toString, format, String.data_append]
  · simp [debugLabel, format, String.data_append]

/-- C14 fails as stated: for the tile (x = 1, y = 2, zoom = 3), `toString`
returns `[tile 3/1/2]`, which is not the string `3/1/2`. -/
theorem toString_has_brackets :
    toString (create { x := 1, y := 2, z := 3 }) = "[tile 3/1/2]" ∧
    toString (create { x := 1, y := 2, z := 3 }) ≠ "3/1/2" ∧
    debugLabel { x := 1, y := 2, z := 3 } = "3/1/2" := by
  refine ⟨by decide, by decide, by decide⟩

/-- C13, the code at the failing inputs: on a buffer whose layer field declares
five bytes where none remain, `parse` dereferences offset 2 of the two-byte
buffer instead of returning failure; on a buffer whose feature declares five
bytes where the layer has none left, the feature pass reads the offsets 4 to 8
beyond the end of the layer (offset 4), decodes the geometry found there, and
only then `parse` returns failure. -/
theorem parse_reads_outside_range :
    (parse true (withData bufferLayerTooLong) =
      ParseResult.outOfBounds (withData bufferLayerTooLong) [0, 1, 2] ∧
     parse false (withData bufferLayerTooLong) =
      ParseResult.outOfBounds (withData bufferLayerTooLong) [0, 1, 2] ∧
     bufferLayerTooLong.length = 2) ∧
    (parse true (withData bufferFeaturePastLayer) = ParseResult.returned false
      { withData bufferFeaturePastLayer with
        lineVertex := [Vertex.degenerate, Vertex.coordinate 10 10],
        state := TileState.obsolete } [0, 1, 2, 3, 4, 5, 6, 7, 8] ∧
     parse false (withData bufferFeaturePastLayer) = ParseResult.returned false
      { withData bufferFeaturePastLayer with
        lineVertex := [Vertex.degenerate, Vertex.coordinate 10 10],
        state := TileState.obsolete } [0, 1, 2, 3, 4, 5, 6, 7, 8]) := by
  refine ⟨⟨by decide, by decide, rfl⟩, by decide, by decide⟩

/-- C20: `parse` comes to a result on every byte buffer, well-formed or not.
Every iteration of the tile, layer and feature loops starts with `next`, which
consumes at least one byte of the range or ends the loop or the decoding, and
every iteration of the tag-list loop reads a varint, which consumes at least
one byte or aborts; the cursor never passes the end of its range.  So each loop
makes at most as many iterations as its range has bytes left: with an
iteration bound of the remaining length plus one, no loop ever stops for lack
of iterations, and neither does `parse`. -/
theorem parse_terminates (dataFirst : Bool) (buf : List UInt8) :
    (∀ t : Tile, parse dataFirst t ≠ ParseResult.exhausted) ∧
    (∀ (p p1 : Pbf) (r r1 : Run), Pbf.next buf p r = Step.ok (true, p1) r1 →
      p.data < p1.data ∧ p1.data ≤ p.fin ∧ p1.fin = p.fin) ∧
    (∀ (p p1 : Pbf) (r r1 : Run) (v : Nat), Pbf.varint buf p r = Step.ok (v, p1) r1 →
      p.data < p1.data ∧ p1.data ≤ p.fin ∧ p1.fin = p.fin) ∧
    (∀ (fuel : Nat) (p : Pbf) (r r1 : Run), p.fin - p.data + 1 ≤ fuel →
      parseLoop dataFirst buf fuel p r ≠ Step.fail Fault.exhausted r1 ∧
      parseLayerLoop dataFirst buf fuel p r ≠ Step.fail Fault.exhausted r1 ∧
      parseFeatureLoop dataFirst buf fuel p r ≠ Step.fail Fault.exhausted r1 ∧
      ∀ tag_end, tagListLoop buf tag_end fuel p r ≠ Step.fail Fault.exhausted r1) := by
  refine ⟨fun t => parse_not_exhausted dataFirst t, ?_, ?_, ?_⟩
  · intro p p1 r r1 h
    obtain ⟨_, h2, h3, _⟩ := Pbf.next_ok h
    obtain ⟨_, h5, h6⟩ := h3 rfl
    exact ⟨h5, h6, h2⟩
  · intro p p1 r r1 v h
    obtain ⟨_, h2, h3, h4⟩ := Pbf.varint_ok h
    exact ⟨h2, h3, h4⟩
  · intro fuel p r r1 hf
    refine ⟨?_, ?_, ?_, ?_⟩
    · intro h
      have hg := parseLoop_grows dataFirst buf fuel p r hf
      rw [h] at hg
      exact hg.2 rfl
    · intro h
      have hg := parseLayerLoop_grows dataFirst buf fuel p r hf
      rw [h] at hg
      exact hg.2 rfl
    · intro h
      have hg := parseFeatureLoop_grows dataFirst buf fuel p r hf
      rw [h] at hg
      exact hg.2 rfl
    · intro tag_end h
      exact ((tagListLoop_spec buf tag_end fuel p r hf).2 _ _ h).2 rfl

/-- Witness of C20: on the one-vertex buffer, the first `next` of the tile pass
moves the cursor from offset 0 to offset 1, and the tile loop run with ten
iterations allowed over the nine bytes does not run out of them. -/
theorem parse_terminates_witness :
    ((0 : Nat) < 1 ∧ 1 ≤ 9 ∧ 9 = 9) ∧
    parseLoop true bufferOneVertex 10 (Pbf.over 0 9) { lineVertex := [], reads := [] } ≠
      Step.fail Fault.exhausted { lineVertex := [], reads := [] } :=
  ⟨(parse_terminates true bufferOneVertex).2.1 (Pbf.over 0 9)
      { data := 1, fin := 9, value := 26, tag := 3 }
      { lineVertex := [], reads := [] } { lineVertex := [], reads := [0] } (by decide),
    ((parse_terminates true bufferOneVertex).2.2.2 10 (Pbf.over 0 9)
      { lineVertex := [], reads := [] } { lineVertex := [], reads := [] } (by decide)).1⟩

theorem readPairs_ok (buf : List UInt8) :
    ∀ (n : Nat) (p p3 : Pbf) (r r3 : Run), readPairs buf n p r = Step.ok p3 r3 →
      p.data + 2 * n ≤ p3.data ∧ p3.data ≤ max p.data p.fin ∧ p3.fin = p.fin := by
  intro n
  induction n with
  | zero =>
    intro p p3 r r3 h
    simp only [readPairs, Step.ok.injEq] at h
    obtain ⟨hp, _⟩ := h
    subst hp
    exact ⟨by omega, le_max_left _ _, rfl⟩
  | succ n ih =>
    intro p p3 r r3 h
    simp only [readPairs] at h
    split at h
    · simp at h
    · rename_i v1 p1 r1 hv1
      obtain ⟨_, a2, a3, a4⟩ := Pbf.varint_ok hv1
      split at h
      · simp at h
      · rename_i v2 p2 r2 hv2
        obtain ⟨_, b2, b3, b4⟩ := Pbf.varint_ok hv2
        obtain ⟨c1, c2, c3⟩ := ih _ _ _ _ h
        refine ⟨by omega, ?_, by rw [c3, b4, a4]⟩
        rw [b4, a4] at c2
        have : max p2.data p.fin ≤ max p.data p.fin := by
          apply max_le
          · exact le_trans (by omega) (le_max_right _ _)
          · exact le_max_right _ _
        omega

theorem tagListLoop_of_pairs (buf : List UInt8) (tag_end : Nat) :
    ∀ (n fuel : Nat) (p p3 : Pbf) (r r3 : Run), readPairs buf n p r = Step.ok p3 r3 →
      tag_end ≤ p3.data → p3.data < tag_end + 2 → p.fin - p.data + 1 ≤ fuel →
      tagListLoop buf tag_end fuel p r = Step.ok p3 r3 := by
  intro n
  induction n with
  | zero =>
    intro fuel p p3 r r3 h h1 h2 hf
    simp only [readPairs, Step.ok.injEq] at h
    obtain ⟨hp, hr⟩ := h
    subst hp hr
    obtain ⟨k, rfl⟩ : ∃ k, fuel = k + 1 := ⟨fuel - 1, by omega⟩
    simp only [tagListLoop]
    rw [if_neg (by omega)]
  | succ n ih =>
    intro fuel p p3 r r3 h h1 h2 hf
    have hmono := readPairs_ok buf (n + 1) p p3 r r3 h
    simp only [readPairs] at h
    obtain ⟨k, rfl⟩ : ∃ k, fuel = k + 1 := ⟨fuel - 1, by omega⟩
    simp only [tagListLoop]
    rw [if_pos (by omega)]
    split at h
    · simp at h
    · rename_i v1 p1 r1 hv1
      obtain ⟨_, a2, a3, a4⟩ := Pbf.varint_ok hv1
      split at h
      · simp at h
      · rename_i v2 p2 r2 hv2
        obtain ⟨_, b2, b3, b4⟩ := Pbf.varint_ok hv2
        exact ih k p2 p3 r2 r3 h h1 h2 (by omega)

/-- C17 (as amended): in `parseFeature`, when the payload of a tag-list field
that declares length `v` holds whole key/value pairs of varints that end exactly
`v` bytes past the start of the payload, the pairwise loop ends with the
feature cursor exactly there, and the feature pass goes on with the field that
starts at the byte right after the tag-list.  This holds when the operand
`feature.data` of `feature.data + feature.varint()` is read after the call, and
also when it is read before the call provided the length takes one byte. -/
theorem tagList_whole_pairs (dataFirst : Bool) (buf : List UInt8) (fuel : Nat)
    (f0 f1 f2 p3 : Pbf) (r0 r1 r2 r3 : Run) (v n : Nat)
    (hnext : Pbf.next buf f0 r0 = Step.ok (true, f1) r1) (htag : f1.tag = 2)
    (hv : Pbf.varint buf f1 r1 = Step.ok (v, f2) r2)
    (hpairs : readPairs buf n f2 r2 = Step.ok p3 r3)
    (hfill : p3.data = f2.data + v)
    (hord : dataFirst = true → f2.data = f1.data + 1) :
    tagListLoop buf ((if dataFirst then f1.data else f2.data) + v) (f2.fin - f2.data + 1) f2 r2
      = Step.ok p3 r3 ∧
    p3.data = f2.data + v ∧
    parseFeatureLoop dataFirst buf (fuel + 1) f0 r0 = parseFeatureLoop dataFirst buf fuel p3 r3 := by
  have hloop : tagListLoop buf ((if dataFirst then f1.data else f2.data) + v)
      (f2.fin - f2.data + 1) f2 r2 = Step.ok p3 r3 := by
    apply tagListLoop_of_pairs buf _ n _ _ _ _ _ hpairs
    · cases dataFirst with
      | true =>
        have := hord rfl
        simp only [if_true]
        omega
      | false =>
        simp only [Bool.false_eq_true, if_false]
        omega
    · cases dataFirst with
      | true =>
        have := hord rfl
        simp only [if_true]
        omega
      | false =>
        simp only [Bool.false_eq_true, if_false]
        omega
    · exact le_refl _
  refine ⟨hloop, hfill, ?_⟩
  simp only [parseFeatureLoop, hnext, htag]
  rw [if_neg (by decide), if_pos trivial, hv]
  simp only [hloop]

/-- Witness of C17 (as amended): a feature whose tag-list declares two bytes and
holds one pair, followed by a varint field; the loop ends two bytes past the
start of the payload, for either order of evaluation. -/
theorem tagList_whole_pairs_witness :
    tagListLoop [0x12, 0x02, 0x05, 0x06, 0x08, 0x01] ((if true then 1 else 2) + 2) (6 - 2 + 1)
        { data := 2, fin := 6, value := 18, tag := 2 }
        { lineVertex := [], reads := [0, 1] } =
      Step.ok { data := 4, fin := 6, value := 18, tag := 2 }
        { lineVertex := [], reads := [0, 1, 2, 3] } ∧
    (4 : Nat) = 2 + 2 ∧
    parseFeatureLoop true [0x12, 0x02, 0x05, 0x06, 0x08, 0x01] (6 + 1) (Pbf.over 0 6)
        { lineVertex := [], reads := [] } =
      parseFeatureLoop true [0x12, 0x02, 0x05, 0x06, 0x08, 0x01] 6
        { data := 4, fin := 6, value := 18, tag := 2 }
        { lineVertex := [], reads := [0, 1, 2, 3] } :=
  tagList_whole_pairs true [0x12, 0x02, 0x05, 0x06, 0x08, 0x01] 6 (Pbf.over 0 6)
    { data := 1, fin := 6, value := 18, tag := 2 } { data := 2, fin := 6, value := 18, tag := 2 }
    { data := 4, fin := 6, value := 18, tag := 2 }
    { lineVertex := [], reads := [] } { lineVertex := [], reads := [0] }
    { lineVertex := [], reads := [0, 1] } { lineVertex := [], reads := [0, 1, 2, 3] } 2 1
    (by decide) rfl (by decide) (by decide) rfl (fun _ => rfl)

/-- C17 fails as stated: in the feature payload `12 01 08 08 08 01` the tag-list
declares one byte (one varint, an odd number) and starts at offset 2.  The
decoding of the feature does not abort, but the loop does not end at offset 3:
with `feature.data` read after the call of `varint` it reads the byte after the
tag-list as a value and ends at offset 4; with `feature.data` read before the
call it does not run and leaves the cursor at offset 2. -/
theorem tagList_odd_overshoots :
    Pbf.next featureOddTagList (Pbf.over 0 6) { lineVertex := [], reads := [] } =
      Step.ok (true, { data := 1, fin := 6, value := 18, tag := 2 })
        { lineVertex := [], reads := [0] } ∧
    Pbf.varint featureOddTagList { data := 1, fin := 6, value := 18, tag := 2 }
        { lineVertex := [], reads := [0] } =
      Step.ok (1, { data := 2, fin := 6, value := 18, tag := 2 })
        { lineVertex := [], reads := [0, 1] } ∧
    tagListLoop featureOddTagList (2 + 1) (6 - 2 + 1)
        { data := 2, fin := 6, value := 18, tag := 2 } { lineVertex := [], reads := [0, 1] } =
      Step.ok { data := 4, fin := 6, value := 18, tag := 2 }
        { lineVertex := [], reads := [0, 1, 2, 3] } ∧
    tagListLoop featureOddTagList (1 + 1) (6 - 2 + 1)
        { data := 2, fin := 6, value := 18, tag := 2 } { lineVertex := [], reads := [0, 1] } =
      Step.ok { data := 2, fin := 6, value := 18, tag := 2 }
        { lineVertex := [], reads := [0, 1] } ∧
    parseFeature false featureOddTagList 0 6 { lineVertex := [], reads := [] } =
      Step.ok () { lineVertex := [], reads := [0, 1, 2, 3, 4, 5] } ∧
    parseFeature true featureOddTagList 0 6 { lineVertex := [], reads := [] } =
      Step.ok () { lineVertex := [], reads := [0, 1, 2, 3, 4, 5] } := by
  refine ⟨by decide, by decide, by decide, by decide, by decide, by decide⟩

end Tile

/-! ## Decoding what the encoders produce -/

namespace Wire

theorem bytesAt_append (buf : List UInt8) (pos : Nat) (a b : List UInt8) :
    bytesAt buf pos (a ++ b) ↔ bytesAt buf pos a ∧ bytesAt buf (pos + a.length) b := by
  unfold bytesAt
  constructor
  · intro h
    constructor
    · intro i hi
      have := h i (by rw [List.length_append]; omega)
      rw [this, List.getElem?_append_left hi]
    · intro i hi
      have := h (a.length + i) (by rw [List.length_append]; omega)
      rw [List.getElem?_append_right (by omega)] at this
      rw [Nat.add_assoc, this]
      congr 1
      omega
  · rintro ⟨h1, h2⟩ i hi
    rw [List.length_append] at hi
    by_cases hlt : i < a.length
    · rw [h1 i hlt, List.getElem?_append_left hlt]
    · have := h2 (i - a.length) (by omega)
      rw [List.getElem?_append_right (by omega), ← this]
      congr 1
      omega

theorem bytesAt_self (buf : List UInt8) : bytesAt buf 0 buf := by
  intro i _
  rw [Nat.zero_add]

theorem bytesAt_head (buf : List UInt8) (pos : Nat) (b : UInt8) (bs : List UInt8)
    (h : bytesAt buf pos (b :: bs)) : buf[pos]? = some b ∧ bytesAt buf (pos + 1) bs := by
  have h2 := (bytesAt_append buf pos [b] bs).mp h
  refine ⟨?_, h2.2⟩
  have := h2.1 0 (by simp)
  simpa using this

theorem readByte_of_get (buf : List UInt8) (pos : Nat) (b : UInt8) (r : Run)
    (h : buf[pos]? = some b) :
    readByte buf pos r = Step.ok b { r with reads := r.reads ++ [pos] } := by
  unfold readByte
  rw [h]

theorem encodeVarintN_length_pos (n v : Nat) : 1 ≤ (encodeVarintN (n + 1) v).length := by
  simp only [encodeVarintN]
  split <;> simp

theorem varintLoop_encode (buf : List UInt8) (fin : Nat) :
    ∀ (k n v pos shift acc : Nat) (r : Run), k ≤ n → v < 128 ^ (k + 1) →
      bytesAt buf pos (encodeVarintN (k + 1) v) →
      pos + (encodeVarintN (k + 1) v).length ≤ fin →
      ∃ r1, Pbf.varintLoop buf fin (n + 1) pos shift acc r =
          Step.ok (acc + v * 2 ^ shift, pos + (encodeVarintN (k + 1) v).length) r1 ∧
        r1.lineVertex = r.lineVertex := by
  intro k
  induction k with
  | zero =>
    intro n v pos shift acc r _ hv hb hfin
    have hv128 : v < 128 := by simpa using hv
    simp only [encodeVarintN, if_pos hv128] at hb hfin ⊢
    obtain ⟨hget, _⟩ := bytesAt_head buf pos _ _ hb
    simp only [Pbf.varintLoop]
    rw [if_neg (by simp at hfin; omega), readByte_of_get buf pos _ r hget]
    have htn : (UInt8.ofNat v).toNat = v := by
      show v % 256 = v
      exact Nat.mod_eq_of_lt (by omega)
    simp only [htn]
    rw [if_neg (by omega), Nat.mod_eq_of_lt hv128]
    exact ⟨_, rfl, rfl⟩
  | succ k ih =>
    intro n v pos shift acc r hkn hv hb hfin
    obtain ⟨m, rfl⟩ : ∃ m, n = m + 1 := ⟨n - 1, by omega⟩
    by_cases hv128 : v < 128
    · simp only [encodeVarintN, if_pos hv128] at hb hfin ⊢
      obtain ⟨hget, _⟩ := bytesAt_head buf pos _ _ hb
      simp only [Pbf.varintLoop]
      rw [if_neg (by simp at hfin; omega), readByte_of_get buf pos _ r hget]
      have htn : (UInt8.ofNat v).toNat = v := by
        show v % 256 = v
        exact Nat.mod_eq_of_lt (by omega)
      simp only [htn]
      rw [if_neg (by omega), Nat.mod_eq_of_lt hv128]
      exact ⟨_, rfl, rfl⟩
    · have henc : encodeVarintN (k + 1 + 1) v =
          UInt8.ofNat (v % 128 + 128) :: encodeVarintN (k + 1) (v / 128) := by
        rw [encodeVarintN, if_neg hv128]
      rw [henc] at hb hfin ⊢
      obtain ⟨hget, hrest⟩ := bytesAt_head buf pos _ _ hb
      have hdiv : v / 128 < 128 ^ (k + 1) := by
        rw [Nat.div_lt_iff_lt_mul (by norm_num)]
        calc v < 128 ^ (k + 1 + 1) := hv
          _ = 128 ^ (k + 1) * 128 := by rw [pow_succ]
      rw [List.length_cons] at hfin ⊢
      obtain ⟨r1, h1, h2⟩ := ih m (v / 128) (pos + 1) (shift + 7)
        (acc + (v % 128 + 128) % 128 * 2 ^ shift) { r with reads := r.reads ++ [pos] }
        (by omega) hdiv hrest (by omega)
      refine ⟨r1, ?_, h2⟩
      rw [Pbf.varintLoop]
      rw [if_neg (by omega), readByte_of_get buf pos _ r hget]
      have htn : (UInt8.ofNat (v % 128 + 128)).toNat = v % 128 + 128 := by
        show (v % 128 + 128) % 256 = v % 128 + 128
        exact Nat.mod_eq_of_lt (by omega)
      simp only [htn]
      rw [if_pos (by omega), h1]
      congr 2
      · have e1 : (v % 128 + 128) % 128 = v % 128 := by omega
        have e2 : (2 : Nat) ^ (shift + 7) = 128 * 2 ^ shift := by rw [pow_add]; ring
        rw [e1, e2]
        have e3 := Nat.div_add_mod v 128
        calc acc + v % 128 * 2 ^ shift + v / 128 * (128 * 2 ^ shift)
            = acc + (128 * (v / 128) + v % 128) * 2 ^ shift := by ring
          _ = acc + v * 2 ^ shift := by rw [e3]
      · omega

theorem encodeVarint_length_pos (v : Nat) : 1 ≤ (encodeVarint v).length :=
  encodeVarintN_length_pos 9 v

theorem varint_encode (buf : List UInt8) (p : Pbf) (v : Nat) (r : Run)
    (hv : v < 18446744073709551616) (hb : bytesAt buf p.data (encodeVarint v))
    (hfin : p.data + (encodeVarint v).length ≤ p.fin) :
    ∃ r1, Pbf.varint buf p r =
        Step.ok (v, { p with data := p.data + (encodeVarint v).length }) r1 ∧
      r1.lineVertex = r.lineVertex := by
  obtain ⟨r1, h1, h2⟩ := varintLoop_encode buf p.fin 9 9 v p.data 0 0 r (le_refl _)
    (lt_of_lt_of_le hv (by norm_num)) hb hfin
  refine ⟨r1, ?_, h2⟩
  unfold Pbf.varint
  rw [h1]
  simp only [Nat.zero_add, pow_zero, Nat.mul_one]
  rw [Nat.mod_eq_of_lt hv]
  rfl

theorem wrap32_range (n : Int) :
    -2147483648 ≤ Tile.wrap32 n ∧ Tile.wrap32 n < 2147483648 := by
  unfold Tile.wrap32
  omega

theorem wrap32_add_delta (a b : Int) (h1 : -2147483648 ≤ b) (h2 : b < 2147483648) :
    Tile.wrap32 (a + Tile.wrap32 (b - a)) = b := by
  unfold Tile.wrap32
  omega

theorem zigzagEncode_lt (d : Int) (h1 : -2147483648 ≤ d) (h2 : d < 2147483648) :
    zigzagEncode d < 4294967296 := by
  unfold zigzagEncode
  split <;> omega

theorem zigzag_encode (d : Int) (h1 : -2147483648 ≤ d) (h2 : d < 2147483648) :
    Geometry.zigzag (zigzagEncode d) = d := by
  have hlt := zigzagEncode_lt d h1 h2
  unfold Geometry.zigzag
  rw [Nat.mod_eq_of_lt hlt]
  unfold zigzagEncode
  split <;> split <;> omega

theorem encodePair_length (cur q : Int × Int) : 2 ≤ (encodePair cur q).length := by
  unfold encodePair
  rw [List.length_append]
  have h1 := encodeVarint_length_pos (zigzagEncode (Tile.wrap32 (q.1 - cur.1)))
  have h2 := encodeVarint_length_pos (zigzagEncode (Tile.wrap32 (q.2 - cur.2)))
  omega

theorem readPair_encode (buf : List UInt8) (g : Geometry) (q : Int × Int) (r : Run)
    (hq : -2147483648 ≤ q.1 ∧ q.1 < 2147483648 ∧ -2147483648 ≤ q.2 ∧ q.2 < 2147483648)
    (hb : bytesAt buf g.data.data (encodePair (g.x, g.y) q))
    (hfin : g.data.data + (encodePair (g.x, g.y) q).length ≤ g.data.fin) :
    ∃ r1, Geometry.readPair buf g r =
        Step.ok { g with
          data := { g.data with data := g.data.data + (encodePair (g.x, g.y) q).length },
          x := q.1, y := q.2 } r1 ∧
      r1.lineVertex = r.lineVertex := by
  unfold encodePair at hb hfin ⊢
  dsimp only at hb hfin ⊢
  obtain ⟨hb1, hb2⟩ := (bytesAt_append _ _ _ _).mp hb
  rw [List.length_append] at hfin ⊢
  have wx := wrap32_range (q.1 - g.x)
  have wy := wrap32_range (q.2 - g.y)
  have zx := zigzagEncode_lt _ wx.1 wx.2
  have zy := zigzagEncode_lt _ wy.1 wy.2
  obtain ⟨r1, h1, e1⟩ := varint_encode buf g.data _ r (by omega) hb1 (by omega)
  obtain ⟨r2, h2, e2⟩ := varint_encode buf
    { g.data with data := g.data.data +
      (encodeVarint (zigzagEncode (Tile.wrap32 (q.1 - g.x)))).length } _ r1 (by omega) hb2
    (by simp only []; omega)
  refine ⟨r2, ?_, by rw [e2, e1]⟩
  unfold Geometry.readPair
  rw [h1]
  simp only [h2]
  rw [zigzag_encode _ wx.1 wx.2, zigzag_encode _ wy.1 wy.2,
    wrap32_add_delta _ _ hq.1 hq.2.1, wrap32_add_delta _ _ hq.2.2.1 hq.2.2.2, Nat.add_assoc]

theorem next_finished (buf : List UInt8) (n : Nat) (g : Geometry) (r : Run)
    (h : g.data.fin ≤ g.data.data) :
    Geometry.next buf (n + 1) g r = Step.ok (Command.finished, g) r := by
  rw [Geometry.next, if_pos h]

theorem next_pending (buf : List UInt8) (n : Nat) (g : Geometry) (q : Int × Int) (r : Run)
    (hlen : g.length ≠ 0)
    (hq : -2147483648 ≤ q.1 ∧ q.1 < 2147483648 ∧ -2147483648 ≤ q.2 ∧ q.2 < 2147483648)
    (hb : bytesAt buf g.data.data (encodePair (g.x, g.y) q))
    (hfin : g.data.data + (encodePair (g.x, g.y) q).length ≤ g.data.fin) :
    ∃ r1, Geometry.next buf (n + 1) g r =
        Step.ok (Command.line_to,
          { g with
            data := { g.data with data := g.data.data + (encodePair (g.x, g.y) q).length },
            length := g.length - 1, x := q.1, y := q.2 }) r1 ∧
      r1.lineVertex = r.lineVertex := by
  have h2 := encodePair_length (g.x, g.y) q
  obtain ⟨r1, h1, e1⟩ := readPair_encode buf { g with length := g.length - 1 } q r hq hb hfin
  refine ⟨r1, ?_, e1⟩
  rw [Geometry.next, if_neg (by omega), if_neg hlen, h1]

theorem next_fuel (buf : List UInt8) :
    ∀ (fuel m : Nat), m ≤ fuel → ∀ (g : Geometry) (r : Run),
      g.data.fin - g.data.data + 1 ≤ m →
      Geometry.next buf m g r = Geometry.next buf (g.data.fin - g.data.data + 1) g r := by
  intro fuel
  induction fuel with
  | zero => intro m hm g r hf; omega
  | succ n ih =>
    intro m hm g r hf
    obtain ⟨k, rfl⟩ : ∃ k, m = k + 1 := ⟨m - 1, by omega⟩
    simp only [Geometry.next]
    by_cases h1 : g.data.fin ≤ g.data.data
    · simp only [if_pos h1]
    · simp only [if_neg h1]
      by_cases h2 : g.length = 0
      · simp only [if_pos h2]
        cases hv : Pbf.varint buf g.data r with
        | fail e r1 => rfl
        | ok a r1 =>
          obtain ⟨v, p1⟩ := a
          obtain ⟨_, a2, _, a4⟩ := Pbf.varint_ok hv
          have e1 := ih k (by omega) { g with data := p1, cmd := 7, length := 0 } r1
            (by simp only []; omega)
          have e2 := ih (g.data.fin - g.data.data) (by omega)
            { g with data := p1, cmd := 7, length := 0 } r1 (by simp only []; omega)
          have e3 := ih k (by omega) { g with data := p1, cmd := v % 8, length := 0 } r1
            (by simp only []; omega)
          have e4 := ih (g.data.fin - g.data.data) (by omega)
            { g with data := p1, cmd := v % 8, length := 0 } r1 (by simp only []; omega)
          simp only []
          by_cases h3 : v % 8 = 7
          · simp only [if_pos h3]
            rw [e1, e2]
          · simp only [if_neg h3]
            by_cases h4 : v % 8 = 1 ∨ v % 8 = 2
            · simp only [if_pos h4]
              by_cases h5 : v % 4294967296 / 8 = 0
              · simp only [if_pos h5]
                rw [e3, e4]
              · simp only [if_neg h5]
            · simp only [if_neg h4]
      · simp only [if_neg h2]

theorem next_close (buf : List UInt8) (g : Geometry) (r : Run)
    (hlen : g.length = 0)
    (hb : bytesAt buf g.data.data (encodeVarint 15))
    (hfin : g.data.data + (encodeVarint 15).length ≤ g.data.fin) :
    ∃ r1, Geometry.next buf (g.data.fin - g.data.data + 1) g r =
        Geometry.next buf (g.data.fin - (g.data.data + (encodeVarint 15).length) + 1)
          { g with data := { g.data with data := g.data.data + (encodeVarint 15).length },
                   cmd := 7, length := 0 } r1 ∧
      r1.lineVertex = r.lineVertex := by
  have h2 := encodeVarint_length_pos 15
  obtain ⟨r1, h1, e1⟩ := varint_encode buf g.data 15 r (by norm_num) hb hfin
  refine ⟨r1, ?_, e1⟩
  rw [Geometry.next, if_neg (by omega), if_pos hlen, h1]
  simp only [show (15 : Nat) % 8 = 7 from rfl, if_true]
  exact next_fuel buf _ _ (le_refl _)
    { g with data := { g.data with data := g.data.data + (encodeVarint 15).length },
             cmd := 7, length := 0 } r1 (by simp only []; omega)

theorem next_header (buf : List UInt8) (n : Nat) (g : Geometry) (c k : Nat) (q : Int × Int)
    (r : Run) (hlen : g.length = 0) (hc : c = 1 ∨ c = 2) (hk1 : 1 ≤ k) (hk2 : k < 536870912)
    (hq : -2147483648 ≤ q.1 ∧ q.1 < 2147483648 ∧ -2147483648 ≤ q.2 ∧ q.2 < 2147483648)
    (hb : bytesAt buf g.data.data (encodeVarint (k * 8 + c) ++ encodePair (g.x, g.y) q))
    (hfin : g.data.data + (encodeVarint (k * 8 + c) ++ encodePair (g.x, g.y) q).length
      ≤ g.data.fin) :
    ∃ r1, Geometry.next buf (n + 1) g r =
        Step.ok (if c = 1 then Command.move_to else Command.line_to,
          { data := { g.data with data := g.data.data +
              (encodeVarint (k * 8 + c) ++ encodePair (g.x, g.y) q).length },
            cmd := c, length := k - 1, x := q.1, y := q.2 }) r1 ∧
      r1.lineVertex = r.lineVertex := by
  obtain ⟨hb1, hb2⟩ := (bytesAt_append _ _ _ _).mp hb
  rw [List.length_append] at hfin ⊢
  have h2 := encodeVarint_length_pos (k * 8 + c)
  obtain ⟨r1, h1, e1⟩ := varint_encode buf g.data (k * 8 + c) r (by omega) hb1 (by omega)
  obtain ⟨r2, h3, e2⟩ := readPair_encode buf
    { g with data := { g.data with data := g.data.data + (encodeVarint (k * 8 + c)).length },
             cmd := (k * 8 + c) % 8, length := (k * 8 + c) % 4294967296 / 8 - 1 } q r1 hq hb2
    (by simp only []; omega)
  refine ⟨r2, ?_, by rw [e2, e1]⟩
  have m8 : (k * 8 + c) % 8 = c := by omega
  have d8 : (k * 8 + c) % 4294967296 / 8 = k := by omega
  rw [Geometry.next, if_neg (by omega), if_pos hlen, h1]
  simp only [m8, d8] at h3 ⊢
  rw [if_neg (by omega), if_pos hc, if_neg (by omega), h3]
  simp only [Nat.add_assoc]

theorem loop_finished (buf : List UInt8) (k : Nat) (g : Geometry) (r : Run)
    (h : g.data.fin ≤ g.data.data) :
    Tile.loadGeometryLoop buf (k + 1) g r = Step.ok () r := by
  rw [Tile.loadGeometryLoop, next_finished buf _ g r h]
  simp

theorem loop_pending_step (buf : List UInt8) (k : Nat) (g : Geometry) (q : Int × Int) (r : Run)
    (hlen : g.length ≠ 0)
    (hq : -2147483648 ≤ q.1 ∧ q.1 < 2147483648 ∧ -2147483648 ≤ q.2 ∧ q.2 < 2147483648)
    (hb : bytesAt buf g.data.data (encodePair (g.x, g.y) q))
    (hfin : g.data.data + (encodePair (g.x, g.y) q).length ≤ g.data.fin) :
    ∃ r1, Tile.loadGeometryLoop buf (k + 1) g r =
        Tile.loadGeometryLoop buf k
          { g with
            data := { g.data with data := g.data.data + (encodePair (g.x, g.y) q).length },
            length := g.length - 1, x := q.1, y := q.2 } r1 ∧
      r1.lineVertex = r.lineVertex ++ pointVertices false [q] := by
  obtain ⟨r1, h1, e1⟩ := next_pending buf (g.data.fin - g.data.data) g q r hlen hq hb hfin
  rw [Tile.loadGeometryLoop, h1]
  refine ⟨r1.addCoordinate q.1 q.2, ?_, ?_⟩
  · simp
  · simp [pointVertices, Run.addCoordinate, e1]

theorem loop_close_step (buf : List UInt8) (k : Nat) (g : Geometry) (r : Run)
    (hlen : g.length = 0)
    (hb : bytesAt buf g.data.data (encodeVarint 15))
    (hfin : g.data.data + (encodeVarint 15).length ≤ g.data.fin) :
    ∃ r1, Tile.loadGeometryLoop buf (k + 1) g r =
        Tile.loadGeometryLoop buf (k + 1)
          { g with data := { g.data with data := g.data.data + (encodeVarint 15).length },
                   cmd := 7, length := 0 } r1 ∧
      r1.lineVertex = r.lineVertex := by
  obtain ⟨r1, h1, e1⟩ := next_close buf g r hlen hb hfin
  refine ⟨r1, ?_, e1⟩
  simp only [Tile.loadGeometryLoop]
  rw [h1]

theorem loop_header_step (buf : List UInt8) (k : Nat) (g : Geometry) (c n : Nat)
    (q : Int × Int) (r : Run) (hlen : g.length = 0) (hc : c = 1 ∨ c = 2)
    (hn1 : 1 ≤ n) (hn2 : n < 536870912)
    (hq : -2147483648 ≤ q.1 ∧ q.1 < 2147483648 ∧ -2147483648 ≤ q.2 ∧ q.2 < 2147483648)
    (hb : bytesAt buf g.data.data (encodeVarint (n * 8 + c) ++ encodePair (g.x, g.y) q))
    (hfin : g.data.data + (encodeVarint (n * 8 + c) ++ encodePair (g.x, g.y) q).length
      ≤ g.data.fin) :
    ∃ r1, Tile.loadGeometryLoop buf (k + 1) g r =
        Tile.loadGeometryLoop buf k
          { data := { g.data with data := g.data.data +
              (encodeVarint (n * 8 + c) ++ encodePair (g.x, g.y) q).length },
            cmd := c, length := n - 1, x := q.1, y := q.2 } r1 ∧
      r1.lineVertex = r.lineVertex ++ pointVertices (decide (c = 1)) [q] := by
  obtain ⟨r1, h1, e1⟩ := next_header buf (g.data.fin - g.data.data) g c n q r hlen hc hn1 hn2
    hq hb hfin
  rw [Tile.loadGeometryLoop, h1]
  by_cases hc1 : c = 1
  · refine ⟨(r1.addDegenerate).addCoordinate q.1 q.2, ?_, ?_⟩
    · simp [hc1]
    · simp [hc1, pointVertices, Run.addDegenerate, Run.addCoordinate, e1]
  · refine ⟨r1.addCoordinate q.1 q.2, ?_, ?_⟩
    · simp [hc1]
    · simp [hc1, pointVertices, Run.addCoordinate, e1]

theorem loop_pending_all (buf : List UInt8) (cmds : List PathCommand)
    (hbase : ∀ (fuel : Nat) (g : Geometry) (r : Run), g.length = 0 →
      bytesAt buf g.data.data (encodeGeometry (g.x, g.y) cmds) →
      g.data.fin = g.data.data + (encodeGeometry (g.x, g.y) cmds).length →
      g.data.fin - g.data.data + 1 ≤ fuel →
      ∃ r1, Tile.loadGeometryLoop buf fuel g r = Step.ok () r1 ∧
        r1.lineVertex = r.lineVertex ++ pathVertices (g.x, g.y) cmds) :
    ∀ (pending : List (Int × Int)) (fuel : Nat) (g : Geometry) (r : Run),
      (∀ p ∈ pending, -2147483648 ≤ p.1 ∧ p.1 < 2147483648 ∧
        -2147483648 ≤ p.2 ∧ p.2 < 2147483648) →
      g.length = pending.length →
      bytesAt buf g.data.data
        (encodePoints (g.x, g.y) pending ++ encodeGeometry (pending.getLastD (g.x, g.y)) cmds) →
      g.data.fin = g.data.data +
        (encodePoints (g.x, g.y) pending ++
          encodeGeometry (pending.getLastD (g.x, g.y)) cmds).length →
      g.data.fin - g.data.data + 1 ≤ fuel →
      ∃ r1, Tile.loadGeometryLoop buf fuel g r = Step.ok () r1 ∧
        r1.lineVertex = r.lineVertex ++
          (pointVertices false pending ++
            pathVertices (pending.getLastD (g.x, g.y)) cmds) := by
  intro pending
  induction pending with
  | nil =>
    intro fuel g r _ hlen hb hfin hfuel
    simp only [encodePoints, List.nil_append, List.getLastD_nil, pointVertices] at hb hfin ⊢
    exact hbase fuel g r hlen hb hfin hfuel
  | cons q qs ih =>
    intro fuel g r hpts hlen hb hfin hfuel
    have hq := hpts q (List.mem_cons_self _ _)
    have h2 := encodePair_length (g.x, g.y) q
    simp only [encodePoints, List.getLastD_cons, List.append_assoc] at hb hfin
    obtain ⟨hb1, hb2⟩ := (bytesAt_append _ _ _ _).mp hb
    rw [List.length_append] at hfin
    obtain ⟨k, rfl⟩ : ∃ k, fuel = k + 1 := ⟨fuel - 1, by omega⟩
    obtain ⟨r1, h1, e1⟩ := loop_pending_step buf k g q r
      (by rw [hlen, List.length_cons]; omega) hq hb1 (by omega)
    obtain ⟨r2, h3, e2⟩ := ih k
      { g with
        data := { g.data with data := g.data.data + (encodePair (g.x, g.y) q).length },
        length := g.length - 1, x := q.1, y := q.2 } r1
      (fun p hp => hpts p (List.mem_cons_of_mem _ hp))
      (by simp only []; rw [hlen, List.length_cons]; omega)
      hb2 (by simp only [Prod.mk.eta]; omega) (by simp only []; omega)
    refine ⟨r2, by rw [h1, h3], ?_⟩
    rw [e2, e1]
    simp only [pointVertices, List.getLastD_cons, List.append_assoc, List.append_nil]

theorem loadGeometryLoop_encode (buf : List UInt8) :
    ∀ (cmds : List PathCommand), (∀ c ∈ cmds, c.wellFormed) →
    ∀ (pending : List (Int × Int)) (fuel : Nat) (g : Geometry) (r : Run),
      (∀ p ∈ pending, -2147483648 ≤ p.1 ∧ p.1 < 2147483648 ∧
        -2147483648 ≤ p.2 ∧ p.2 < 2147483648) →
      g.length = pending.length →
      bytesAt buf g.data.data
        (encodePoints (g.x, g.y) pending ++ encodeGeometry (pending.getLastD (g.x, g.y)) cmds) →
      g.data.fin = g.data.data +
        (encodePoints (g.x, g.y) pending ++
          encodeGeometry (pending.getLastD (g.x, g.y)) cmds).length →
      g.data.fin - g.data.data + 1 ≤ fuel →
      ∃ r1, Tile.loadGeometryLoop buf fuel g r = Step.ok () r1 ∧
        r1.lineVertex = r.lineVertex ++
          (pointVertices false pending ++
            pathVertices (pending.getLastD (g.x, g.y)) cmds) := by
  intro cmds
  induction cmds with
  | nil =>
    intro _
    apply loop_pending_all
    intro fuel g r _ _ hfin hfuel
    obtain ⟨k, rfl⟩ : ∃ k, fuel = k + 1 := ⟨fuel - 1, by omega⟩
    simp only [encodeGeometry, List.length_nil, Nat.add_zero] at hfin
    exact ⟨r, loop_finished buf k g r (by omega), by simp [pathVertices]⟩
  | cons c cs ih =>
    intro hwf
    have hwfc := hwf c (List.mem_cons_self _ _)
    have ih2 := ih (fun c2 h2 => hwf c2 (List.mem_cons_of_mem _ h2))
    apply loop_pending_all
    intro fuel g r hlen hb hfin hfuel
    cases c with
    | closePath =>
      simp only [encodeGeometry] at hb hfin
      obtain ⟨hb1, hb2⟩ := (bytesAt_append _ _ _ _).mp hb
      rw [List.length_append] at hfin
      have h2 := encodeVarint_length_pos 15
      obtain ⟨k, rfl⟩ : ∃ k, fuel = k + 1 := ⟨fuel - 1, by omega⟩
      obtain ⟨r1, h1, e1⟩ := loop_close_step buf k g r hlen hb1 (by omega)
      obtain ⟨r2, h3, e2⟩ := ih2 [] (k + 1)
        { g with data := { g.data with data := g.data.data + (encodeVarint 15).length },
                 cmd := 7, length := 0 } r1
        (by simp) rfl
        (by simpa only [encodePoints, List.nil_append, List.getLastD_nil] using hb2)
        (by simp only [encodePoints, List.nil_append, List.getLastD_nil]; omega)
        (by simp only []; omega)
      refine ⟨r2, by rw [h1, h3], ?_⟩
      rw [e2, e1]
      simp [pointVertices, pathVertices]
    | moveTo pts =>
      obtain ⟨hn1, hn2, hpts⟩ := hwfc
      cases pts with
      | nil => simp at hn1
      | cons q qs =>
        have hq := hpts q (List.mem_cons_self _ _)
        have h2 := encodePair_length (g.x, g.y) q
        have h4 := encodeVarint_length_pos ((q :: qs).length * 8 + 1)
        simp only [encodeGeometry, encodePoints, List.getLastD_cons, List.append_assoc]
          at hb hfin
        rw [← List.append_assoc] at hb hfin
        obtain ⟨hb1, hb2⟩ := (bytesAt_append _ _ _ _).mp hb
        rw [List.length_append] at hfin
        obtain ⟨k, rfl⟩ : ∃ k, fuel = k + 1 := ⟨fuel - 1, by omega⟩
        have h5 : 2 ≤ (encodeVarint ((q :: qs).length * 8 + 1)
            ++ encodePair (g.x, g.y) q).length := by
          rw [List.length_append]; omega
        obtain ⟨r1, h1, e1⟩ := loop_header_step buf k g 1 (q :: qs).length q r hlen
          (Or.inl rfl) hn1 hn2 hq hb1 (by omega)
        obtain ⟨r2, h3, e2⟩ := ih2 qs k
          { data := { g.data with data := g.data.data +
              (encodeVarint ((q :: qs).length * 8 + 1) ++ encodePair (g.x, g.y) q).length },
            cmd := 1, length := (q :: qs).length - 1, x := q.1, y := q.2 } r1
          (fun p hp => hpts p (List.mem_cons_of_mem _ hp))
          (by simp)
          hb2 (by simp only [Prod.mk.eta]; omega) (by simp only []; omega)
        refine ⟨r2, by rw [h1, h3], ?_⟩
        rw [e2, e1]
        simp only [pathVertices, List.getLastD_cons, Prod.mk.eta]
        simp [pointVertices]
    | lineTo pts =>
      obtain ⟨hn1, hn2, hpts⟩ := hwfc
      cases pts with
      | nil => simp at hn1
      | cons q qs =>
        have hq := hpts q (List.mem_cons_self _ _)
        have h2 := encodePair_length (g.x, g.y) q
        have h4 := encodeVarint_length_pos ((q :: qs).length * 8 + 2)
        simp only [encodeGeometry, encodePoints, List.getLastD_cons, List.append_assoc]
          at hb hfin
        rw [← List.append_assoc] at hb hfin
        obtain ⟨hb1, hb2⟩ := (bytesAt_append _ _ _ _).mp hb
        rw [List.length_append] at hfin
        obtain ⟨k, rfl⟩ : ∃ k, fuel = k + 1 := ⟨fuel - 1, by omega⟩
        have h5 : 2 ≤ (encodeVarint ((q :: qs).length * 8 + 2)
            ++ encodePair (g.x, g.y) q).length := by
          rw [List.length_append]; omega
        obtain ⟨r1, h1, e1⟩ := loop_header_step buf k g 2 (q :: qs).length q r hlen
          (Or.inr rfl) hn1 hn2 hq hb1 (by omega)
        obtain ⟨r2, h3, e2⟩ := ih2 qs k
          { data := { g.data with data := g.data.data +
              (encodeVarint ((q :: qs).length * 8 + 2) ++ encodePair (g.x, g.y) q).length },
            cmd := 2, length := (q :: qs).length - 1, x := q.1, y := q.2 } r1
          (fun p hp => hpts p (List.mem_cons_of_mem _ hp))
          (by simp)
          hb2 (by simp only [Prod.mk.eta]; omega) (by simp only []; omega)
        refine ⟨r2, by rw [h1, h3], ?_⟩
        rw [e2, e1]
        simp only [pathVertices, List.getLastD_cons, Prod.mk.eta]
        simp [pointVertices]

theorem loadGeometry_encode (buf : List UInt8) (data : Nat) (cmds : List PathCommand)
    (r : Run) (hwf : ∀ c ∈ cmds, c.wellFormed)
    (hb : bytesAt buf data (encodeGeometry (0, 0) cmds)) :
    ∃ r1, Tile.loadGeometry buf data (encodeGeometry (0, 0) cmds).length r = Step.ok () r1 ∧
      r1.lineVertex = r.lineVertex ++ pathVertices (0, 0) cmds := by
  obtain ⟨r1, h1, e1⟩ := loadGeometryLoop_encode buf cmds hwf []
    ((encodeGeometry (0, 0) cmds).length + 1)
    (Geometry.over data (encodeGeometry (0, 0) cmds).length) r (by simp) rfl
    (by simpa [Geometry.over, Pbf.over, encodePoints] using hb)
    (by simp [Geometry.over, Pbf.over, encodePoints])
    (by simp [Geometry.over, Pbf.over])
  refine ⟨r1, h1, ?_⟩
  rw [e1]
  simp [pointVertices, Geometry.over]

theorem encodeVarint_length_small (v : Nat) (h : v < 128) : (encodeVarint v).length = 1 := by
  simp [encodeVarint, encodeVarintN, h]

theorem next_encode (buf : List UInt8) (p : Pbf) (tag wire : Nat) (r : Run)
    (htag : tag < 536870912) (hwire : wire < 8)
    (hb : bytesAt buf p.data (encodeKey tag wire))
    (hfin : p.data + (encodeKey tag wire).length ≤ p.fin) :
    ∃ r1, Pbf.next buf p r =
        Step.ok (true, { data := p.data + (encodeKey tag wire).length, fin := p.fin,
                         value := tag * 8 + wire, tag := tag }) r1 ∧
      r1.lineVertex = r.lineVertex := by
  unfold encodeKey at hb hfin ⊢
  have h1 := encodeVarint_length_pos (tag * 8 + wire)
  obtain ⟨r1, h2, e1⟩ := varint_encode buf p (tag * 8 + wire) r (by omega) hb hfin
  refine ⟨r1, ?_, e1⟩
  unfold Pbf.next
  rw [if_pos (by omega), h2]
  have m1 : (tag * 8 + wire) % 4294967296 = tag * 8 + wire := Nat.mod_eq_of_lt (by omega)
  have m2 : (tag * 8 + wire) / 8 = tag := by omega
  simp only [m1, m2]

theorem next_at_end (buf : List UInt8) (p : Pbf) (r : Run) (h : p.fin ≤ p.data) :
    Pbf.next buf p r = Step.ok (false, p) r := by
  unfold Pbf.next
  rw [if_neg (by omega)]

theorem skipBytes_within (p : Pbf) (n : Nat) (r : Run) (h : p.data + n ≤ p.fin) :
    Pbf.skipBytes p n r = Step.ok { p with data := p.data + n } r := by
  unfold Pbf.skipBytes
  rw [if_neg (by omega)]

theorem skip_encode (buf : List UInt8) (p : Pbf) (tag : Nat) (s : Skipped) (r : Run)
    (hval : p.value = tag * 8 + s.wire) (hs : s.wellFormed)
    (hb : bytesAt buf p.data s.encode) (hfin : p.data + s.encode.length ≤ p.fin) :
    ∃ r1, Pbf.skip buf p r = Step.ok { p with data := p.data + s.encode.length } r1 ∧
      r1.lineVertex = r.lineVertex := by
  cases s with
  | varint v =>
    simp only [Skipped.wire, Skipped.encode, Skipped.wellFormed] at hval hs hb hfin ⊢
    obtain ⟨r1, h1, e1⟩ := varint_encode buf p v r hs hb hfin
    refine ⟨r1, ?_, e1⟩
    unfold Pbf.skip
    rw [if_pos (by omega), h1]
  | fixed64 b =>
    simp only [Skipped.wire, Skipped.encode, Skipped.wellFormed] at hval hs hb hfin ⊢
    refine ⟨r, ?_, rfl⟩
    unfold Pbf.skip
    rw [if_neg (by omega), if_pos (by omega), hs]
    exact skipBytes_within p 8 r (by omega)
  | bytes b =>
    simp only [Skipped.wire, Skipped.encode, Skipped.wellFormed] at hval hs hb hfin ⊢
    obtain ⟨hb1, _⟩ := (bytesAt_append _ _ _ _).mp hb
    rw [List.length_append] at hfin ⊢
    obtain ⟨r1, h1, e1⟩ := varint_encode buf p b.length r (by omega) hb1 (by omega)
    refine ⟨r1, ?_, e1⟩
    unfold Pbf.skip
    rw [if_neg (by omega), if_neg (by omega), if_pos (by omega), h1]
    simp only [Nat.mod_eq_of_lt hs]
    rw [skipBytes_within _ _ _ (by simp only []; omega)]
    simp only [Nat.add_assoc]
  | fixed32 b =>
    simp only [Skipped.wire, Skipped.encode, Skipped.wellFormed] at hval hs hb hfin ⊢
    refine ⟨r, ?_, rfl⟩
    unfold Pbf.skip
    rw [if_neg (by omega), if_neg (by omega), if_neg (by omega), if_pos (by omega), hs]
    exact skipBytes_within p 4 r (by omega)

theorem readBytes_encode (buf : List UInt8) :
    ∀ (bs : List UInt8) (pos : Nat) (r : Run), bytesAt buf pos bs →
      ∃ r1, Pbf.readBytes buf bs.length pos r = Step.ok bs r1 ∧
        r1.lineVertex = r.lineVertex := by
  intro bs
  induction bs with
  | nil =>
    intro pos r _
    exact ⟨r, rfl, rfl⟩
  | cons b bs ih =>
    intro pos r hb
    obtain ⟨hget, hrest⟩ := bytesAt_head buf pos b bs hb
    obtain ⟨r1, h1, e1⟩ := ih (pos + 1) { r with reads := r.reads ++ [pos] } hrest
    refine ⟨r1, ?_, e1⟩
    rw [List.length_cons, Pbf.readBytes, readByte_of_get buf pos b r hget]
    simp only [h1]

theorem string_encode (buf : List UInt8) (p : Pbf) (text : List UInt8) (r : Run)
    (ht : text.length < 4294967296)
    (hb : bytesAt buf p.data (encodeVarint text.length ++ text))
    (hfin : p.data + (encodeVarint text.length ++ text).length ≤ p.fin) :
    ∃ r1, Pbf.string buf p r =
        Step.ok (text, { p with data := p.data + (encodeVarint text.length ++ text).length })
          r1 ∧
      r1.lineVertex = r.lineVertex := by
  obtain ⟨hb1, hb2⟩ := (bytesAt_append _ _ _ _).mp hb
  rw [List.length_append] at hfin ⊢
  obtain ⟨r1, h1, e1⟩ := varint_encode buf p text.length r (by omega) hb1 (by omega)
  obtain ⟨r2, h2, e2⟩ := readBytes_encode buf text
    (p.data + (encodeVarint text.length).length) r1 hb2
  refine ⟨r2, ?_, by rw [e2, e1]⟩
  unfold Pbf.string
  rw [h1]
  simp only [Nat.mod_eq_of_lt ht]
  rw [skipBytes_within _ _ _ (by simp only []; omega)]
  simp only [h2, Nat.add_assoc]

theorem readPairs_encode (buf : List UInt8) :
    ∀ (pairs : List (Nat × Nat)) (p : Pbf) (r : Run),
      (∀ kv ∈ pairs, kv.1 < 18446744073709551616 ∧ kv.2 < 18446744073709551616) →
      bytesAt buf p.data (encodePairs pairs) →
      p.data + (encodePairs pairs).length ≤ p.fin →
      ∃ r1, Tile.readPairs buf pairs.length p r =
          Step.ok { p with data := p.data + (encodePairs pairs).length } r1 ∧
        r1.lineVertex = r.lineVertex := by
  intro pairs
  induction pairs with
  | nil =>
    intro p r _ _ _
    exact ⟨r, rfl, rfl⟩
  | cons kv rest ih =>
    intro p r hkv hb hfin
    have hk := hkv kv (List.mem_cons_self _ _)
    simp only [encodePairs] at hb hfin ⊢
    obtain ⟨hb12, hb3⟩ := (bytesAt_append _ _ _ _).mp hb
    obtain ⟨hb1, hb2⟩ := (bytesAt_append _ _ _ _).mp hb12
    simp only [List.length_append] at hfin hb3 ⊢
    obtain ⟨r1, h1, e1⟩ := varint_encode buf p kv.1 r hk.1 hb1 (by omega)
    obtain ⟨r2, h2, e2⟩ := varint_encode buf
      { p with data := p.data + (encodeVarint kv.1).length } kv.2 r1 hk.2 hb2
      (by simp only []; omega)
    obtain ⟨r3, h3, e3⟩ := ih
      { p with data := p.data + (encodeVarint kv.1).length + (encodeVarint kv.2).length } r2
      (fun x hx => hkv x (List.mem_cons_of_mem _ hx))
      (by simpa only [Nat.add_assoc] using hb3) (by simp only []; omega)
    refine ⟨r3, ?_, by rw [e3, e2, e1]⟩
    rw [List.length_cons, Tile.readPairs, h1]
    simp only [h2]
    simp only [Nat.add_assoc] at h3 ⊢
    exact h3

theorem encodeKey_length_pos (tag wire : Nat) : 1 ≤ (encodeKey tag wire).length :=
  encodeVarint_length_pos _

theorem parseFeatureLoop_encode (dataFirst : Bool) (buf : List UInt8) :
    ∀ (fields : List FeatureField) (fuel : Nat) (p : Pbf) (r : Run),
      (∀ f ∈ fields, f.wellFormed dataFirst) →
      bytesAt buf p.data (encodeFeature fields) →
      p.fin = p.data + (encodeFeature fields).length →
      p.fin - p.data + 1 ≤ fuel →
      ∃ r1, Tile.parseFeatureLoop dataFirst buf fuel p r = Step.ok () r1 ∧
        r1.lineVertex = r.lineVertex ++ featureVertices fields := by
  intro fields
  induction fields with
  | nil =>
    intro fuel p r _ _ hfin hfuel
    obtain ⟨k, rfl⟩ : ∃ k, fuel = k + 1 := ⟨fuel - 1, by omega⟩
    simp only [encodeFeature, List.length_nil, Nat.add_zero] at hfin
    refine ⟨r, ?_, by simp [featureVertices]⟩
    rw [Tile.parseFeatureLoop, next_at_end buf p r (by omega)]
  | cons f fs ih =>
    intro fuel p r hwf hb hfin hfuel
    have hwff := hwf f (List.mem_cons_self _ _)
    have ih2 := fun fuel p r => ih fuel p r (fun x hx => hwf x (List.mem_cons_of_mem _ hx))
    obtain ⟨k, rfl⟩ : ∃ k, fuel = k + 1 := ⟨fuel - 1, by omega⟩
    simp only [encodeFeature] at hb hfin
    obtain ⟨hbf, hbrest⟩ := (bytesAt_append _ _ _ _).mp hb
    rw [List.length_append] at hfin
    cases f with
    | id v =>
      simp only [FeatureField.encode, FeatureField.wellFormed] at hbf hbrest hfin hwff
      obtain ⟨hb1, hb2⟩ := (bytesAt_append _ _ _ _).mp hbf
      rw [List.length_append] at hfin hbrest
      have hk := encodeKey_length_pos 1 0
      obtain ⟨r1, h1, e1⟩ := next_encode buf p 1 0 r (by norm_num) (by norm_num) hb1 (by omega)
      obtain ⟨r2, h2, e2⟩ := varint_encode buf
        { data := p.data + (encodeKey 1 0).length, fin := p.fin, value := 1 * 8 + 0, tag := 1 }
        v r1 hwff hb2 (by simp only []; omega)
      obtain ⟨r3, h3, e3⟩ := ih2 k
        { data := p.data + (encodeKey 1 0).length + (encodeVarint v).length, fin := p.fin,
          value := 1 * 8 + 0, tag := 1 } r2
        (by simpa only [Nat.add_assoc] using hbrest) (by simp only []; omega)
        (by simp only []; omega)
      refine ⟨r3, ?_, by rw [e3, e2, e1]; simp [featureVertices]⟩
      rw [Tile.parseFeatureLoop, h1]
      simp only [if_true, h2]
      exact h3
    | tags pairs =>
      simp only [FeatureField.encode, FeatureField.wellFormed] at hbf hbrest hfin hwff
      obtain ⟨hkv, hL, hord⟩ := hwff
      obtain ⟨hb1, hb23⟩ := (bytesAt_append _ _ _ _).mp hbf
      obtain ⟨hb2, hb3⟩ := (bytesAt_append _ _ _ _).mp hb23
      simp only [List.length_append] at hfin hbrest hb3
      have hk := encodeKey_length_pos 2 2
      have hl := encodeVarint_length_pos (encodePairs pairs).length
      obtain ⟨r1, h1, e1⟩ := next_encode buf p 2 2 r (by norm_num) (by norm_num) hb1 (by omega)
      obtain ⟨r2, h2, e2⟩ := varint_encode buf
        { data := p.data + (encodeKey 2 2).length, fin := p.fin, value := 2 * 8 + 2, tag := 2 }
        (encodePairs pairs).length r1 (by omega) hb2 (by simp only []; omega)
      obtain ⟨r3, h3, e3⟩ := readPairs_encode buf pairs
        { data := p.data + (encodeKey 2 2).length + (encodeVarint (encodePairs pairs).length).length,
          fin := p.fin, value := 2 * 8 + 2, tag := 2 } r2 hkv hb3 (by simp only []; omega)
      have h4 := Tile.tagListLoop_of_pairs buf
        ((if dataFirst = true then p.data + (encodeKey 2 2).length
          else p.data + (encodeKey 2 2).length +
            (encodeVarint (encodePairs pairs).length).length) + (encodePairs pairs).length)
        pairs.length
        (p.fin - (p.data + (encodeKey 2 2).length +
          (encodeVarint (encodePairs pairs).length).length) + 1) _ _ _ _ h3
        (by
          simp only []
          split <;> omega)
        (by
          simp only []
          split
          · rename_i hd
            have := encodeVarint_length_small _ (hord hd)
            omega
          · omega)
        (by simp only []; omega)
      obtain ⟨r4, h5, e4⟩ := ih2 k
        { data := p.data + (encodeKey 2 2).length +
            (encodeVarint (encodePairs pairs).length).length + (encodePairs pairs).length,
          fin := p.fin, value := 2 * 8 + 2, tag := 2 } r3
        (by simpa only [Nat.add_assoc] using hbrest) (by simp only []; omega)
        (by simp only []; omega)
      refine ⟨r4, ?_, by rw [e4, e3, e2, e1]; simp [featureVertices]⟩
      rw [Tile.parseFeatureLoop, h1]
      simp only [if_true, if_false, h2]
      simp only [h4]
      exact h5
    | geomType v =>
      simp only [FeatureField.encode, FeatureField.wellFormed] at hbf hbrest hfin hwff
      obtain ⟨hb1, hb2⟩ := (bytesAt_append _ _ _ _).mp hbf
      rw [List.length_append] at hfin hbrest
      have hk := encodeKey_length_pos 3 0
      obtain ⟨r1, h1, e1⟩ := next_encode buf p 3 0 r (by norm_num) (by norm_num) hb1 (by omega)
      obtain ⟨r2, h2, e2⟩ := varint_encode buf
        { data := p.data + (encodeKey 3 0).length, fin := p.fin, value := 3 * 8 + 0, tag := 3 }
        v r1 hwff hb2 (by simp only []; omega)
      obtain ⟨r3, h3, e3⟩ := ih2 k
        { data := p.data + (encodeKey 3 0).length + (encodeVarint v).length, fin := p.fin,
          value := 3 * 8 + 0, tag := 3 } r2
        (by simpa only [Nat.add_assoc] using hbrest) (by simp only []; omega)
        (by simp only []; omega)
      refine ⟨r3, ?_, by rw [e3, e2, e1]; simp [featureVertices]⟩
      rw [Tile.parseFeatureLoop, h1]
      simp only [if_true, if_false, h2]
      exact h3
    | geometry cmds =>
      simp only [FeatureField.encode, FeatureField.wellFormed] at hbf hbrest hfin hwff
      obtain ⟨hcmds, hL⟩ := hwff
      obtain ⟨hb1, hb23⟩ := (bytesAt_append _ _ _ _).mp hbf
      obtain ⟨hb2, hb3⟩ := (bytesAt_append _ _ _ _).mp hb23
      simp only [List.length_append] at hfin hbrest hb3
      have hk := encodeKey_length_pos 4 2
      obtain ⟨r1, h1, e1⟩ := next_encode buf p 4 2 r (by norm_num) (by norm_num) hb1 (by omega)
      obtain ⟨r2, h2, e2⟩ := varint_encode buf
        { data := p.data + (encodeKey 4 2).length, fin := p.fin, value := 4 * 8 + 2, tag := 4 }
        (encodeGeometry (0, 0) cmds).length r1 (by omega) hb2 (by simp only []; omega)
      obtain ⟨r3, h3, e3⟩ := loadGeometry_encode buf
        (p.data + (encodeKey 4 2).length +
          (encodeVarint (encodeGeometry (0, 0) cmds).length).length) cmds r2 hcmds hb3
      obtain ⟨r4, h5, e4⟩ := ih2 k
        { data := p.data + (encodeKey 4 2).length +
            (encodeVarint (encodeGeometry (0, 0) cmds).length).length +
            (encodeGeometry (0, 0) cmds).length,
          fin := p.fin, value := 4 * 8 + 2, tag := 4 } r3
        (by simpa only [Nat.add_assoc] using hbrest) (by simp only []; omega)
        (by simp only []; omega)
      refine ⟨r4, ?_, by rw [e4, e3, e2, e1]; simp [featureVertices]⟩
      rw [Tile.parseFeatureLoop, h1]
      simp only [if_true, if_false, h2]
      simp only [Nat.mod_eq_of_lt hL, h3]
      rw [skipBytes_within _ _ _ (by simp only []; omega)]
      exact h5
    | other tag s =>
      simp only [FeatureField.encode, FeatureField.wellFormed] at hbf hbrest hfin hwff
      obtain ⟨t1, t2, t3, t4, htag, hs⟩ := hwff
      obtain ⟨hb1, hb2⟩ := (bytesAt_append _ _ _ _).mp hbf
      rw [List.length_append] at hfin hbrest
      have hk := encodeKey_length_pos tag s.wire
      have hw : s.wire < 8 := by cases s <;> simp [Skipped.wire]
      obtain ⟨r1, h1, e1⟩ := next_encode buf p tag s.wire r htag hw hb1 (by omega)
      obtain ⟨r2, h2, e2⟩ := skip_encode buf
        { data := p.data + (encodeKey tag s.wire).length, fin := p.fin,
          value := tag * 8 + s.wire, tag := tag } tag s r1 rfl hs hb2 (by simp only []; omega)
      obtain ⟨r3, h3, e3⟩ := ih2 k
        { data := p.data + (encodeKey tag s.wire).length + s.encode.length, fin := p.fin,
          value := tag * 8 + s.wire, tag := tag } r2
        (by simpa only [Nat.add_assoc] using hbrest) (by simp only []; omega)
        (by simp only []; omega)
      refine ⟨r3, ?_, by rw [e3, e2, e1]; simp [featureVertices]⟩
      rw [Tile.parseFeatureLoop, h1]
      simp only []
      rw [if_neg t1, if_neg t2, if_neg t3, if_neg t4, h2]
      exact h3

theorem parseFeature_encode (dataFirst : Bool) (buf : List UInt8) (data : Nat)
    (fields : List FeatureField) (r : Run) (hwf : ∀ f ∈ fields, f.wellFormed dataFirst)
    (hb : bytesAt buf data (encodeFeature fields)) :
    ∃ r1, Tile.parseFeature dataFirst buf data (encodeFeature fields).length r = Step.ok () r1 ∧
      r1.lineVertex = r.lineVertex ++ featureVertices fields := by
  unfold Tile.parseFeature
  exact parseFeatureLoop_encode dataFirst buf fields _ _ r hwf
    (by simpa [Pbf.over] using hb) (by simp [Pbf.over]) (by simp [Pbf.over])

theorem parseLayerLoop_encode (dataFirst : Bool) (buf : List UInt8) :
    ∀ (fields : List LayerField) (fuel : Nat) (p : Pbf) (r : Run),
      (∀ f ∈ fields, f.wellFormed dataFirst) →
      bytesAt buf p.data (encodeLayer fields) →
      p.fin = p.data + (encodeLayer fields).length →
      p.fin - p.data + 1 ≤ fuel →
      ∃ r1, Tile.parseLayerLoop dataFirst buf fuel p r = Step.ok () r1 ∧
        r1.lineVertex = r.lineVertex ++ layerVertices fields := by
  intro fields
  induction fields with
  | nil =>
    intro fuel p r _ _ hfin hfuel
    obtain ⟨k, rfl⟩ : ∃ k, fuel = k + 1 := ⟨fuel - 1, by omega⟩
    simp only [encodeLayer, List.length_nil, Nat.add_zero] at hfin
    refine ⟨r, ?_, by simp [layerVertices]⟩
    rw [Tile.parseLayerLoop, next_at_end buf p r (by omega)]
  | cons f fs ih =>
    intro fuel p r hwf hb hfin hfuel
    have hwff := hwf f (List.mem_cons_self _ _)
    have ih2 := fun fuel p r => ih fuel p r (fun x hx => hwf x (List.mem_cons_of_mem _ hx))
    obtain ⟨k, rfl⟩ : ∃ k, fuel = k + 1 := ⟨fuel - 1, by omega⟩
    simp only [encodeLayer] at hb hfin
    obtain ⟨hbf, hbrest⟩ := (bytesAt_append _ _ _ _).mp hb
    rw [List.length_append] at hfin
    cases f with
    | name text =>
      simp only [LayerField.encode, LayerField.wellFormed] at hbf hbrest hfin hwff
      obtain ⟨hb1, hb2⟩ := (bytesAt_append _ _ _ _).mp hbf
      rw [List.length_append] at hfin hbrest
      have hk := encodeKey_length_pos 1 2
      obtain ⟨r1, h1, e1⟩ := next_encode buf p 1 2 r (by norm_num) (by norm_num) hb1 (by omega)
      obtain ⟨r2, h2, e2⟩ := string_encode buf
        { data := p.data + (encodeKey 1 2).length, fin := p.fin, value := 1 * 8 + 2, tag := 1 }
        text r1 hwff hb2 (by simp only []; omega)
      obtain ⟨r3, h3, e3⟩ := ih2 k
        { data := p.data + (encodeKey 1 2).length + (encodeVarint text.length ++ text).length,
          fin := p.fin, value := 1 * 8 + 2, tag := 1 } r2
        (by simpa only [Nat.add_assoc] using hbrest) (by simp only []; omega)
        (by simp only []; omega)
      refine ⟨r3, ?_, by rw [e3, e2, e1]; simp [layerVertices]⟩
      rw [Tile.parseLayerLoop, h1]
      simp only [if_true, if_false, h2]
      exact h3
    | feature fields =>
      simp only [LayerField.encode, LayerField.wellFormed] at hbf hbrest hfin hwff
      obtain ⟨hfields, hL⟩ := hwff
      obtain ⟨hb1, hb23⟩ := (bytesAt_append _ _ _ _).mp hbf
      obtain ⟨hb2, hb3⟩ := (bytesAt_append _ _ _ _).mp hb23
      simp only [List.length_append] at hfin hbrest hb3
      have hk := encodeKey_length_pos 2 2
      obtain ⟨r1, h1, e1⟩ := next_encode buf p 2 2 r (by norm_num) (by norm_num) hb1 (by omega)
      obtain ⟨r2, h2, e2⟩ := varint_encode buf
        { data := p.data + (encodeKey 2 2).length, fin := p.fin, value := 2 * 8 + 2, tag := 2 }
        (encodeFeature fields).length r1 (by omega) hb2 (by simp only []; omega)
      obtain ⟨r3, h3, e3⟩ := parseFeature_encode dataFirst buf
        (p.data + (encodeKey 2 2).length + (encodeVarint (encodeFeature fields).length).length)
        fields r2 hfields hb3
      obtain ⟨r4, h5, e4⟩ := ih2 k
        { data := p.data + (encodeKey 2 2).length +
            (encodeVarint (encodeFeature fields).length).length + (encodeFeature fields).length,
          fin := p.fin, value := 2 * 8 + 2, tag := 2 } r3
        (by simpa only [Nat.add_assoc] using hbrest) (by simp only []; omega)
        (by simp only []; omega)
      refine ⟨r4, ?_, by rw [e4, e3, e2, e1]; simp [layerVertices]⟩
      rw [Tile.parseLayerLoop, h1]
      simp only [if_true, if_false, h2]
      simp only [Nat.mod_eq_of_lt hL, h3]
      rw [skipBytes_within _ _ _ (by simp only []; omega)]
      exact h5
    | other tag s =>
      simp only [LayerField.encode, LayerField.wellFormed] at hbf hbrest hfin hwff
      obtain ⟨t1, t2, htag, hs⟩ := hwff
      obtain ⟨hb1, hb2⟩ := (bytesAt_append _ _ _ _).mp hbf
      rw [List.length_append] at hfin hbrest
      have hk := encodeKey_length_pos tag s.wire
      have hw : s.wire < 8 := by cases s <;> simp [Skipped.wire]
      obtain ⟨r1, h1, e1⟩ := next_encode buf p tag s.wire r htag hw hb1 (by omega)
      obtain ⟨r2, h2, e2⟩ := skip_encode buf
        { data := p.data + (encodeKey tag s.wire).length, fin := p.fin,
          value := tag * 8 + s.wire, tag := tag } tag s r1 rfl hs hb2 (by simp only []; omega)
      obtain ⟨r3, h3, e3⟩ := ih2 k
        { data := p.data + (encodeKey tag s.wire).length + s.encode.length, fin := p.fin,
          value := tag * 8 + s.wire, tag := tag } r2
        (by simpa only [Nat.add_assoc] using hbrest) (by simp only []; omega)
        (by simp only []; omega)
      refine ⟨r3, ?_, by rw [e3, e2, e1]; simp [layerVertices]⟩
      rw [Tile.parseLayerLoop, h1]
      simp only []
      rw [if_neg t1, if_neg t2, h2]
      exact h3

theorem parseLayer_encode (dataFirst : Bool) (buf : List UInt8) (data : Nat)
    (fields : List LayerField) (r : Run) (hwf : ∀ f ∈ fields, f.wellFormed dataFirst)
    (hb : bytesAt buf data (encodeLayer fields)) :
    ∃ r1, Tile.parseLayer dataFirst buf data (encodeLayer fields).length r = Step.ok () r1 ∧
      r1.lineVertex = r.lineVertex ++ layerVertices fields := by
  unfold Tile.parseLayer
  exact parseLayerLoop_encode dataFirst buf fields _ _ r hwf
    (by simpa [Pbf.over] using hb) (by simp [Pbf.over]) (by simp [Pbf.over])

theorem parseLoop_encode (dataFirst : Bool) (buf : List UInt8) :
    ∀ (fields : List TileField) (fuel : Nat) (p : Pbf) (r : Run),
      (∀ f ∈ fields, f.wellFormed dataFirst) →
      bytesAt buf p.data (encodeTile fields) →
      p.fin = p.data + (encodeTile fields).length →
      p.fin - p.data + 1 ≤ fuel →
      ∃ r1, Tile.parseLoop dataFirst buf fuel p r = Step.ok () r1 ∧
        r1.lineVertex = r.lineVertex ++ tileVertices fields := by
  intro fields
  induction fields with
  | nil =>
    intro fuel p r _ _ hfin hfuel
    obtain ⟨k, rfl⟩ : ∃ k, fuel = k + 1 := ⟨fuel - 1, by omega⟩
    simp only [encodeTile, List.length_nil, Nat.add_zero] at hfin
    refine ⟨r, ?_, by simp [tileVertices]⟩
    rw [Tile.parseLoop, next_at_end buf p r (by omega)]
  | cons f fs ih =>
    intro fuel p r hwf hb hfin hfuel
    have hwff := hwf f (List.mem_cons_self _ _)
    have ih2 := fun fuel p r => ih fuel p r (fun x hx => hwf x (List.mem_cons_of_mem _ hx))
    obtain ⟨k, rfl⟩ : ∃ k, fuel = k + 1 := ⟨fuel - 1, by omega⟩
    simp only [encodeTile] at hb hfin
    obtain ⟨hbf, hbrest⟩ := (bytesAt_append _ _ _ _).mp hb
    rw [List.length_append] at hfin
    cases f with
    | layer fields =>
      simp only [TileField.encode, TileField.wellFormed] at hbf hbrest hfin hwff
      obtain ⟨hfields, hL⟩ := hwff
      obtain ⟨hb1, hb23⟩ := (bytesAt_append _ _ _ _).mp hbf
      obtain ⟨hb2, hb3⟩ := (bytesAt_append _ _ _ _).mp hb23
      simp only [List.length_append] at hfin hbrest hb3
      have hk := encodeKey_length_pos 3 2
      obtain ⟨r1, h1, e1⟩ := next_encode buf p 3 2 r (by norm_num) (by norm_num) hb1 (by omega)
      obtain ⟨r2, h2, e2⟩ := varint_encode buf
        { data := p.data + (encodeKey 3 2).length, fin := p.fin, value := 3 * 8 + 2, tag := 3 }
        (encodeLayer fields).length r1 (by omega) hb2 (by simp only []; omega)
      obtain ⟨r3, h3, e3⟩ := parseLayer_encode dataFirst buf
        (p.data + (encodeKey 3 2).length + (encodeVarint (encodeLayer fields).length).length)
        fields r2 hfields hb3
      obtain ⟨r4, h5, e4⟩ := ih2 k
        { data := p.data + (encodeKey 3 2).length +
            (encodeVarint (encodeLayer fields).length).length + (encodeLayer fields).length,
          fin := p.fin, value := 3 * 8 + 2, tag := 3 } r3
        (by simpa only [Nat.add_assoc] using hbrest) (by simp only []; omega)
        (by simp only []; omega)
      refine ⟨r4, ?_, by rw [e4, e3, e2, e1]; simp [tileVertices]⟩
      rw [Tile.parseLoop, h1]
      simp only [if_true, if_false, h2]
      simp only [Nat.mod_eq_of_lt hL, h3]
      rw [skipBytes_within _ _ _ (by simp only []; omega)]
      exact h5
    | other tag s =>
      simp only [TileField.encode, TileField.wellFormed] at hbf hbrest hfin hwff
      obtain ⟨t3, htag, hs⟩ := hwff
      obtain ⟨hb1, hb2⟩ := (bytesAt_append _ _ _ _).mp hbf
      rw [List.length_append] at hfin hbrest
      have hk := encodeKey_length_pos tag s.wire
      have hw : s.wire < 8 := by cases s <;> simp [Skipped.wire]
      obtain ⟨r1, h1, e1⟩ := next_encode buf p tag s.wire r htag hw hb1 (by omega)
      obtain ⟨r2, h2, e2⟩ := skip_encode buf
        { data := p.data + (encodeKey tag s.wire).length, fin := p.fin,
          value := tag * 8 + s.wire, tag := tag } tag s r1 rfl hs hb2 (by simp only []; omega)
      obtain ⟨r3, h3, e3⟩ := ih2 k
        { data := p.data + (encodeKey tag s.wire).length + s.encode.length, fin := p.fin,
          value := tag * 8 + s.wire, tag := tag } r2
        (by simpa only [Nat.add_assoc] using hbrest) (by simp only []; omega)
        (by simp only []; omega)
      refine ⟨r3, ?_, by rw [e3, e2, e1]; simp [tileVertices]⟩
      rw [Tile.parseLoop, h1]
      simp only []
      rw [if_neg t3, h2]
      exact h3

theorem decode_encode (dataFirst : Bool) (t : Tile) (fields : List TileField)
    (hwf : ∀ f ∈ fields, f.wellFormed dataFirst) (hdata : t.data = encodeTile fields) :
    ∃ r1, Tile.decode dataFirst t = Step.ok () r1 ∧
      r1.lineVertex = t.lineVertex ++ tileVertices fields := by
  unfold Tile.decode
  rw [hdata]
  exact parseLoop_encode dataFirst (encodeTile fields) fields _ _ _ hwf
    (by simpa [Pbf.over] using bytesAt_self _) (by simp [Pbf.over]) (by simp [Pbf.over])

end Wire

/-! ## Geometry and structure claims -/

namespace Wire

theorem coordinatesOf_append (a b : List Vertex) :
    coordinatesOf (a ++ b) = coordinatesOf a ++ coordinatesOf b := by
  induction a with
  | nil => rfl
  | cons v vs ih =>
    cases v <;> simp [coordinatesOf, ih]

theorem markerCount_append (a b : List Vertex) :
    markerCount (a ++ b) = markerCount a + markerCount b := by
  induction a with
  | nil => simp [markerCount]
  | cons v vs ih =>
    cases v
    · show markerCount (vs ++ b) + 1 = markerCount vs + 1 + markerCount b
      omega
    · exact ih

theorem pointVertices_false (pts : List (Int × Int)) :
    pointVertices false pts = pts.map (fun q => Vertex.coordinate q.1 q.2) := by
  induction pts with
  | nil => rfl
  | cons q qs ih => simp [pointVertices, ih]

theorem pointVertices_true (q : Int × Int) (qs : List (Int × Int)) :
    pointVertices true (q :: qs) =
      Vertex.degenerate :: (q :: qs).map (fun q => Vertex.coordinate q.1 q.2) := by
  simp [pointVertices, pointVertices_false]

theorem pathVertices_lines (segs : List (List (Int × Int))) :
    ∀ cur : Int × Int, pathVertices cur (segs.map PathCommand.lineTo) = lineVertices segs := by
  induction segs with
  | nil => intro cur; rfl
  | cons seg rest ih =>
    intro cur
    simp [pathVertices, lineVertices, pointVertices_false, ih]

theorem pathVertices_marked (cmds : List PathCommand) :
    (∀ c ∈ cmds, c.wellFormed) → ∀ cur : Int × Int,
      pathVertices cur cmds = markedVertices cmds := by
  induction cmds with
  | nil => intro _ cur; rfl
  | cons c cs ih =>
    intro hwf cur
    have ih2 := ih (fun c2 h2 => hwf c2 (List.mem_cons_of_mem _ h2))
    have hwfc := hwf c (List.mem_cons_self _ _)
    cases c with
    | moveTo pts =>
      cases pts with
      | nil => exact absurd hwfc.1 (by simp)
      | cons q qs =>
        simp only [pathVertices, markedVertices, pointVertices_true, ih2, List.cons_append]
    | lineTo pts =>
      simp only [pathVertices, markedVertices, pointVertices_false, ih2]
    | closePath =>
      simp only [pathVertices, markedVertices, ih2]

theorem coordinatesOf_map (pts : List (Int × Int)) :
    coordinatesOf (pts.map (fun q => Vertex.coordinate q.1 q.2)) = pts := by
  induction pts with
  | nil => rfl
  | cons q qs ih => simp [coordinatesOf, ih]

theorem markerCount_map (pts : List (Int × Int)) :
    markerCount (pts.map (fun q => Vertex.coordinate q.1 q.2)) = 0 := by
  induction pts with
  | nil => rfl
  | cons q qs ih => simpa [markerCount] using ih

theorem coordinatesOf_marked (cmds : List PathCommand) :
    coordinatesOf (markedVertices cmds) = allPoints cmds := by
  induction cmds with
  | nil => rfl
  | cons c cs ih =>
    cases c <;>
      simp [markedVertices, allPoints, coordinatesOf, coordinatesOf_append, coordinatesOf_map, ih]

theorem markerCount_marked (cmds : List PathCommand) :
    markerCount (markedVertices cmds) = moveCount cmds := by
  induction cmds with
  | nil => rfl
  | cons c cs ih =>
    cases c <;>
      simp [markedVertices, moveCount, markerCount, markerCount_append, markerCount_map, ih]

theorem markedVertices_withoutClose (cmds : List PathCommand) :
    markedVertices (withoutClose cmds) = markedVertices cmds := by
  induction cmds with
  | nil => rfl
  | cons c cs ih =>
    unfold withoutClose at ih ⊢
    cases c <;> simp [List.filter, markedVertices] <;> simpa using ih

/-- C12: for every geometry payload made of move-to and line-to commands (each
with a repeat count of at least one), `loadGeometry` appends the absolute
positions in order, with exactly one degenerate marker per move-to command,
immediately before the first vertex of that command and nowhere else: none
before the later vertices of a move-to, none before line-to vertices.  (The
payload may also hold close-path commands; they add nothing.) -/
theorem loadGeometry_move_line (buf : List UInt8) (data : Nat) (cmds : List PathCommand)
    (r : Run) (hwf : ∀ c ∈ cmds, c.wellFormed)
    (hb : bytesAt buf data (encodeGeometry (0, 0) cmds)) :
    ∃ r1, Tile.loadGeometry buf data (encodeGeometry (0, 0) cmds).length r = Step.ok () r1 ∧
      r1.lineVertex = r.lineVertex ++ markedVertices cmds ∧
      coordinatesOf (markedVertices cmds) = allPoints cmds ∧
      markerCount (markedVertices cmds) = moveCount cmds := by
  obtain ⟨r1, h1, e1⟩ := loadGeometry_encode buf data cmds r hwf hb
  rw [pathVertices_marked cmds hwf] at e1
  exact ⟨r1, h1, e1, coordinatesOf_marked cmds, markerCount_marked cmds⟩

/-- Witness of C12: a move-to with repeat count 2, (1, 1) and (2, 2), then a
line-to with repeat count 2, (20, 10) and (20, 20): one marker, before (1, 1). -/
theorem loadGeometry_move_line_witness :
    ∃ r1, Tile.loadGeometry [17, 2, 2, 2, 2, 18, 36, 16, 0, 20] 0
        (encodeGeometry (0, 0) [PathCommand.moveTo [(1, 1), (2, 2)],
          PathCommand.lineTo [(20, 10), (20, 20)]]).length
        { lineVertex := [], reads := [] } = Step.ok () r1 ∧
      r1.lineVertex = [] ++ markedVertices [PathCommand.moveTo [(1, 1), (2, 2)],
          PathCommand.lineTo [(20, 10), (20, 20)]] ∧
      coordinatesOf (markedVertices [PathCommand.moveTo [(1, 1), (2, 2)],
          PathCommand.lineTo [(20, 10), (20, 20)]]) =
        allPoints [PathCommand.moveTo [(1, 1), (2, 2)],
          PathCommand.lineTo [(20, 10), (20, 20)]] ∧
      markerCount (markedVertices [PathCommand.moveTo [(1, 1), (2, 2)],
          PathCommand.lineTo [(20, 10), (20, 20)]]) =
        moveCount [PathCommand.moveTo [(1, 1), (2, 2)],
          PathCommand.lineTo [(20, 10), (20, 20)]] :=
  loadGeometry_move_line [17, 2, 2, 2, 2, 18, 36, 16, 0, 20] 0
    [PathCommand.moveTo [(1, 1), (2, 2)], PathCommand.lineTo [(20, 10), (20, 20)]]
    { lineVertex := [], reads := [] } (by decide) (bytesAt_self _)

/-- C18: a close-path command carries no coordinates and contributes no vertex:
for every geometry payload of well-formed commands, `loadGeometry` appends the
vertex stream of the payload with its close-path commands left out, and the
coordinates appended are exactly the absolute positions of the move-to and
line-to coordinate pairs, in order, so their number is the number of move-to
plus line-to vertices, however many close-path commands the payload holds. -/
theorem loadGeometry_with_close (buf : List UInt8) (data : Nat) (cmds : List PathCommand)
    (r : Run) (hwf : ∀ c ∈ cmds, c.wellFormed)
    (hb : bytesAt buf data (encodeGeometry (0, 0) cmds)) :
    ∃ r1, Tile.loadGeometry buf data (encodeGeometry (0, 0) cmds).length r = Step.ok () r1 ∧
      r1.lineVertex = r.lineVertex ++ markedVertices (withoutClose cmds) ∧
      coordinatesOf (markedVertices (withoutClose cmds)) = allPoints cmds ∧
      (coordinatesOf (markedVertices (withoutClose cmds))).length = (allPoints cmds).length := by
  obtain ⟨r1, h1, e1⟩ := loadGeometry_encode buf data cmds r hwf hb
  rw [pathVertices_marked cmds hwf] at e1
  rw [markedVertices_withoutClose, coordinatesOf_marked]
  exact ⟨r1, h1, e1, rfl, rfl⟩

/-- Witness of C18: move-to (1, 1), line-to (3, 3), close-path, and a second
sub-path move-to (5, 5), close-path. -/
theorem loadGeometry_with_close_witness :
    ∃ r1, Tile.loadGeometry [9, 2, 2, 10, 4, 4, 15, 9, 4, 4, 15] 0
        (encodeGeometry (0, 0) [PathCommand.moveTo [(1, 1)], PathCommand.lineTo [(3, 3)],
          PathCommand.closePath, PathCommand.moveTo [(5, 5)], PathCommand.closePath]).length
        { lineVertex := [], reads := [] } = Step.ok () r1 ∧
      r1.lineVertex = [] ++ markedVertices (withoutClose [PathCommand.moveTo [(1, 1)],
          PathCommand.lineTo [(3, 3)], PathCommand.closePath, PathCommand.moveTo [(5, 5)],
          PathCommand.closePath]) ∧
      coordinatesOf (markedVertices (withoutClose [PathCommand.moveTo [(1, 1)],
          PathCommand.lineTo [(3, 3)], PathCommand.closePath, PathCommand.moveTo [(5, 5)],
          PathCommand.closePath])) =
        allPoints [PathCommand.moveTo [(1, 1)], PathCommand.lineTo [(3, 3)],
          PathCommand.closePath, PathCommand.moveTo [(5, 5)], PathCommand.closePath] ∧
      (coordinatesOf (markedVertices (withoutClose [PathCommand.moveTo [(1, 1)],
          PathCommand.lineTo [(3, 3)], PathCommand.closePath, PathCommand.moveTo [(5, 5)],
          PathCommand.closePath]))).length =
        (allPoints [PathCommand.moveTo [(1, 1)], PathCommand.lineTo [(3, 3)],
          PathCommand.closePath, PathCommand.moveTo [(5, 5)], PathCommand.closePath]).length :=
  loadGeometry_with_close [9, 2, 2, 10, 4, 4, 15, 9, 4, 4, 15] 0
    [PathCommand.moveTo [(1, 1)], PathCommand.lineTo [(3, 3)], PathCommand.closePath,
      PathCommand.moveTo [(5, 5)], PathCommand.closePath]
    { lineVertex := [], reads := [] } (by decide) (bytesAt_self _)

/-! ## Whole-tile claims -/

theorem geometriesVertices_append (a b : List (List PathCommand)) :
    geometriesVertices (a ++ b) = geometriesVertices a ++ geometriesVertices b := by
  induction a with
  | nil => rfl
  | cons g gs ih => simp [geometriesVertices, ih]

theorem featureVertices_geometries (fields : List FeatureField) :
    featureVertices fields = geometriesVertices (featureGeometries fields) := by
  induction fields with
  | nil => rfl
  | cons f fs ih =>
    cases f <;> simp [featureVertices, featureGeometries, geometriesVertices, ih]

theorem layerVertices_geometries (fields : List LayerField) :
    layerVertices fields = geometriesVertices (layerGeometries fields) := by
  induction fields with
  | nil => rfl
  | cons f fs ih =>
    cases f <;> simp [layerVertices, layerGeometries, geometriesVertices_append,
      featureVertices_geometries, ih]

theorem tileVertices_geometries (fields : List TileField) :
    tileVertices fields = geometriesVertices (tileGeometries fields) := by
  induction fields with
  | nil => rfl
  | cons f fs ih =>
    cases f <;> simp [tileVertices, tileGeometries, geometriesVertices_append,
      layerVertices_geometries, ih]

/-- With the operand `feature.data` of the tag-list bound read after the call of
`varint` (and, read before it, for tag-lists whose length fits one byte), every
encoded tile of well-formed fields whose only geometry is move-to `p0` followed
by line-to commands decodes to break, `p0`, then the line-to positions. -/
theorem parse_single_path (dataFirst : Bool) (t : Tile) (fields : List TileField)
    (p0 : Int × Int) (segs : List (List (Int × Int))) (hs : t.state = TileState.initial)
    (hwf : ∀ f ∈ fields, f.wellFormed dataFirst) (hdata : t.data = encodeTile fields)
    (hgeo : tileGeometries fields = [PathCommand.moveTo [p0] :: segs.map PathCommand.lineTo]) :
    ∃ reads, Tile.parse dataFirst t = Tile.ParseResult.returned true
      { t with
        lineVertex := t.lineVertex ++
          (Vertex.degenerate :: Vertex.coordinate p0.1 p0.2 :: lineVertices segs),
        state := TileState.ready }
      reads := by
  obtain ⟨r1, h1, e1⟩ := decode_encode dataFirst t fields hwf hdata
  have hs1 : t.state ≠ TileState.obsolete := by rw [hs]; decide
  refine ⟨r1.reads, ?_⟩
  rw [Tile.parse_of_ok dataFirst t hs1 r1 h1, e1, tileVertices_geometries, hgeo]
  simp only [geometriesVertices, pathVertices, List.append_nil, List.getLastD_cons,
    List.getLastD_nil, pathVertices_lines]
  simp [pointVertices]

/-- C16 (as amended): for every buffer that is the encoding of well-formed
fields (values and lengths within their widths, tag-lists of whole pairs whose
length fits one byte when the cursor operand is read first), `parse` on a tile
that is not obsolete returns true, leaves the state ready, and appends exactly
the in-order concatenation of the geometry decodings of every tag-4 field of
every tag-2 feature of every tag-3 layer; and a successful `skipBytes` leaves the
cursor exactly at the byte following the declared length, without reading. -/
theorem parse_structure (dataFirst : Bool) (t : Tile) (fields : List TileField)
    (hs : t.state ≠ TileState.obsolete) (hwf : ∀ f ∈ fields, f.wellFormed dataFirst)
    (hdata : t.data = encodeTile fields) :
    (∃ reads, Tile.parse dataFirst t = Tile.ParseResult.returned true
        { t with lineVertex := t.lineVertex ++ tileVertices fields, state := TileState.ready }
        reads) ∧
      ∀ (p p1 : Pbf) (n : Nat) (r r1 : Run), Pbf.skipBytes p n r = Step.ok p1 r1 →
        p1.data = p.data + n ∧ p1.fin = p.fin ∧ r1 = r := by
  refine ⟨?_, ?_⟩
  · obtain ⟨r1, h1, e1⟩ := decode_encode dataFirst t fields hwf hdata
    refine ⟨r1.reads, ?_⟩
    rw [Tile.parse_of_ok dataFirst t hs r1 h1, e1]
  · intro p p1 n r r1 h
    obtain ⟨h1, h2, _, h4⟩ := Pbf.skipBytes_ok h
    exact ⟨h2, h4, h1⟩

/-- Witness of C16 (as amended): a tile with a skipped top-level field and a
layer holding a name, a skipped field and a feature with every kind of field. -/
theorem parse_structure_witness :
    (∃ reads, Tile.parse false (Tile.withData (encodeTile sampleTile)) =
        Tile.ParseResult.returned true
          { Tile.withData (encodeTile sampleTile) with
            lineVertex := (Tile.withData (encodeTile sampleTile)).lineVertex ++
              tileVertices sampleTile,
            state := TileState.ready }
          reads) ∧
      ∀ (p p1 : Pbf) (n : Nat) (r r1 : Run), Pbf.skipBytes p n r = Step.ok p1 r1 →
        p1.data = p.data + n ∧ p1.fin = p.fin ∧ r1 = r :=
  parse_structure false (Tile.withData (encodeTile sampleTile)) sampleTile (by decide)
    (by decide) rfl

/-- C16 fails as stated: the buffer below decodes without abort for either
order of the operands of the tag-list bound.  As nested fields it is one layer
with one feature made of a one-byte tag-list and five identifier fields, no
tag-4 field at all; the tag-list loop reads a second varint past the declared
length, the feature cursor resumes one byte late, and the bytes that follow are
decoded as geometries. -/
theorem parse_vertices_without_geometry :
    encodeTile oddTagListTile =
      [26, 16, 18, 14, 18, 1, 34, 8, 34, 8, 25, 8, 128, 1, 8, 8, 8, 8] ∧
    tileVertices oddTagListTile = [] ∧
    Tile.parse true (Tile.withData
        [26, 16, 18, 14, 18, 1, 34, 8, 34, 8, 25, 8, 128, 1, 8, 8, 8, 8]) =
      Tile.ParseResult.returned true
        { Tile.withData [26, 16, 18, 14, 18, 1, 34, 8, 34, 8, 25, 8, 128, 1, 8, 8, 8, 8] with
          lineVertex := [Vertex.coordinate 4 (-13), Vertex.coordinate 8 51,
            Vertex.coordinate 12 55],
          state := TileState.ready }
        [0, 1, 2, 3, 4, 5, 6, 7, 8, 9, 10, 11, 12, 13, 14, 15, 16, 17] ∧
    Tile.parse false (Tile.withData
        [26, 16, 18, 14, 18, 1, 34, 8, 34, 8, 25, 8, 128, 1, 8, 8, 8, 8]) =
      Tile.ParseResult.returned true
        { Tile.withData [26, 16, 18, 14, 18, 1, 34, 8, 34, 8, 25, 8, 128, 1, 8, 8, 8, 8] with
          lineVertex := [Vertex.degenerate, Vertex.coordinate 4 64, Vertex.coordinate 8 68,
            Vertex.coordinate 12 72],
          state := TileState.ready }
        [0, 1, 2, 3, 4, 5, 6, 7, 8, 9, 10, 11, 12, 13, 14, 15, 16, 17] := by
  refine ⟨by decide, by decide, by decide, by decide⟩

section

set_option maxRecDepth 100000

/-- C11 (defect of the code): scenario A with a tag-list of 128 bytes in its
feature is a well-formed buffer of one named layer and one feature whose
geometry is move-to (10, 10), line-to (20, 10), line-to (20, 20).  When the
operand `feature.data` of `feature.data + feature.varint()` is read before the
call of `varint`, the bound of the tag-list loop is short by the two bytes of the
length, the loop stops one pair early, the last pair is read as the key and
length of a field to skip, the skip covers the geometry field, and `parse`
returns true with state ready and no vertex at all.  With the operand read after
the call the same buffer gives break, (10, 10), (20, 10), (20, 20). -/
theorem parse_long_tag_list_loses_geometry :
    encodeTile longTagListTile = bufferLongTagList ∧
    (∀ f ∈ longTagListTile, f.wellFormed false) ∧
    (∃ reads, Tile.parse true (Tile.withData bufferLongTagList) =
      Tile.ParseResult.returned true
        { Tile.withData bufferLongTagList with lineVertex := [], state := TileState.ready }
        reads) ∧
    (∃ reads, Tile.parse false (Tile.withData bufferLongTagList) =
      Tile.ParseResult.returned true
        { Tile.withData bufferLongTagList with
          lineVertex := [Vertex.degenerate, Vertex.coordinate 10 10, Vertex.coordinate 20 10,
            Vertex.coordinate 20 20],
          state := TileState.ready }
        reads) :=
  ⟨by decide, by decide, ⟨_, rfl⟩, ⟨_, rfl⟩⟩

end

end Wire
